import Mathlib

/-!
Shallow embedding of the graphs-tui layout and rendering core
(src/types.rs, src/text.rs, src/grid.rs, src/pathfinding.rs, src/layout.rs,
src/renderer/{charset,shapes,subgraph,edges,mod}.rs) together with theorems
settling the specification claims about it.

Rust `HashMap`s are modelled as association lists with unique keys
(`alookup` / `ainsert`), `HashSet`s as lists with membership-checked
insertion, `Vec` as `List`, `usize` as `Nat` (no arithmetic in the core
ever exceeds machine range on representable inputs; the single
`unwrap_or(usize::MAX)` in A* is modelled with the literal `2^64 - 1`).
Loops whose termination is not structural are given explicit fuel, and
fuel sufficiency is proved as a theorem rather than assumed.
-/

set_option maxRecDepth 20000

namespace GraphsTui

/-! ## Association-list model of `HashMap`, and sorting helpers -/

/-- Lookup in an association list (model of `HashMap::get`). -/
def alookup {α β : Type} [DecidableEq α] : List (α × β) → α → Option β
  | [], _ => none
  | (k', v) :: t, k => if k' = k then some v else alookup t k

/-- Insert/overwrite in an association list (model of `HashMap::insert`);
a fresh key is appended at the end. -/
def ainsert {α β : Type} [DecidableEq α] : List (α × β) → α → β → List (α × β)
  | [], k, v => [(k, v)]
  | (k', v') :: t, k, v => if k' = k then (k, v) :: t else (k', v') :: ainsert t k v

/-- The keys of an association list. -/
def akeys {α β : Type} (l : List (α × β)) : List α := l.map Prod.fst

/-- Byte-wise (equivalently, codepoint-wise) comparison of two strings,
the order used by Rust's `Ord for String`. -/
def strLeChars : List Char → List Char → Bool
  | [], _ => true
  | _ :: _, [] => false
  | a :: as, b :: bs =>
    if a.val < b.val then true
    else if b.val < a.val then false
    else strLeChars as bs

/-- `a ≤ b` in Rust's `String` ordering. -/
def strLe (a b : String) : Bool := strLeChars a.data b.data

/-- Insert an element into a sorted list (helper for the stable sort). -/
def insertSorted {α : Type} (le : α → α → Bool) (a : α) : List α → List α
  | [] => [a]
  | b :: t => if le a b then a :: b :: t else b :: insertSorted le a t

/-- Stable insertion sort; models `Vec::sort` / `Vec::sort_by`
(all uses in the source sort lists with pairwise-distinct sort keys,
so any stable comparison sort computes the same list). -/
def sortBy {α : Type} (le : α → α → Bool) (l : List α) : List α :=
  l.foldr (insertSorted le) []

/-- Remove adjacent duplicates (model of `Vec::dedup`). -/
def dedupAdj {α : Type} [DecidableEq α] : List α → List α
  | [] => []
  | [a] => [a]
  | a :: b :: t => if a = b then dedupAdj (b :: t) else a :: dedupAdj (b :: t)

/-- Split a character list at a separator (model of Rust
`str::split(sep)`; `String.splitOn` itself does not reduce in the
kernel). -/
def splitChar (sep : Char) : List Char → List (List Char)
  | [] => [[]]
  | c :: t =>
    let r := splitChar sep t
    if c = sep then [] :: r
    else
      match r with
      | [] => [[c]]
      | h :: t' => (c :: h) :: t'

/-- The lines of a string, split at every newline (`str::split('\n')`;
for newline-free, carriage-return-free strings this is also
`str::lines`). -/
def splitLines (s : String) : List String :=
  (splitChar '\n' s.data).map (fun row => ⟨row⟩)

/-! ## Data model (src/types.rs) -/

/-- Node identifier type (`type NodeId = String`). -/
abbrev NodeId := String

/-- Flow direction for the diagram. -/
inductive Direction
  | LR
  | RL
  | TB
  | BT
deriving DecidableEq, Repr

/-- `Direction::is_horizontal`. -/
def Direction.is_horizontal : Direction → Bool
  | .LR => true
  | .RL => true
  | _ => false

/-- Shape of a node. -/
inductive NodeShape
  | Rectangle
  | Rounded
  | Circle
  | Diamond
  | Cylinder
  | Stadium
  | Subroutine
  | Hexagon
  | Parallelogram
  | ParallelogramAlt
  | Trapezoid
  | TrapezoidAlt
  | Table
  | Person
  | Cloud
  | Document
deriving DecidableEq, Repr

/-- Style of an edge/link. -/
inductive EdgeStyle
  | Arrow
  | Line
  | DottedArrow
  | DottedLine
  | ThickArrow
  | ThickLine
deriving DecidableEq, Repr

/-- A field inside a sql_table or class node. -/
structure TableField where
  name : String
  type_info : Option String
  constraint : Option String
deriving DecidableEq, Repr

/-- A subgraph/group of nodes. -/
structure Subgraph where
  id : String
  label : String
  nodes : List NodeId
  parent : Option String
  x : Nat
  y : Nat
  width : Nat
  height : Nat
deriving DecidableEq, Repr

/-- A node in the flowchart (`style_class` of the source is `styleName`
here; `class` cannot be part of an identifier in this file). -/
structure Node where
  id : NodeId
  label : String
  shape : NodeShape
  subgraph : Option String
  fields : List TableField
  width : Nat
  height : Nat
  x : Nat
  y : Nat
  styleName : Option String
deriving DecidableEq, Repr

/-- `Node::new`. -/
def Node.new (id : NodeId) (label : String) : Node :=
  ⟨id, label, .Rectangle, none, [], 0, 0, 0, 0, none⟩

/-- An edge connecting two nodes (`from`/`to` of the source are
`fromId`/`toId` here; `from` is a reserved word). -/
structure Edge where
  fromId : NodeId
  toId : NodeId
  label : Option String
  style : EdgeStyle
deriving DecidableEq, Repr

/-- ANSI color for styling. -/
structure NodeStyle where
  color : Option String
deriving DecidableEq, Repr

/-- The complete graph structure; `nodes` and `style_classes`
(the latter named `styleTable` here) are `HashMap`s in the source,
modelled as association lists with unique keys. -/
structure Graph where
  direction : Direction
  nodes : List (NodeId × Node)
  edges : List Edge
  subgraphs : List Subgraph
  styleTable : List (String × NodeStyle)
deriving DecidableEq, Repr

/-- Options for rendering the diagram. -/
structure RenderOptions where
  ascii : Bool
  max_width : Option Nat
  padding_x : Nat
  padding_y : Nat
  border_padding : Nat
  colors : Bool
deriving DecidableEq, Repr

/-- `RenderOptions::default`. -/
def RenderOptions.default : RenderOptions :=
  ⟨false, none, 8, 4, 1, false⟩

/-- Structured warning emitted during layout or rendering. -/
inductive DiagramWarning
  | CycleDetected (nodes : List String)
  | LabelDropped (marker : String) (edge_from : String) (edge_to : String) (label : String)
  | UnsupportedFeature (feature : String) (line : Nat)
deriving DecidableEq, Repr

/-! ## Display width (src/text.rs and the external `unicode_width` crate)

`display_width` in src/text.rs delegates to the external `unicode_width`
crate (UAX #11 East Asian Width).  That crate is not part of this
repository, so its width table is modelled here on the ranges exercised
by the diagrams in this development: ASCII controls have no width,
the common wide/fullwidth CJK blocks have width 2, everything else
width 1.  `UnicodeWidthStr::width` counts a control character as 0,
while the renderer's per-character advance uses `unwrap_or(1)`. -/

/-- Width of one character per the `unicode_width` crate
(`UnicodeWidthChar::width`), restricted to the ranges used here. -/
def charWidth (c : Char) : Option Nat :=
  let n := c.val.toNat
  if n < 0x20 ∨ n = 0x7F then none
  else if (0x1100 ≤ n ∧ n ≤ 0x115F) ∨ (0x2E80 ≤ n ∧ n ≤ 0x303E) ∨
      (0x3041 ≤ n ∧ n ≤ 0x33FF) ∨ (0x3400 ≤ n ∧ n ≤ 0x4DBF) ∨
      (0x4E00 ≤ n ∧ n ≤ 0x9FFF) ∨ (0xAC00 ≤ n ∧ n ≤ 0xD7A3) ∨
      (0xF900 ≤ n ∧ n ≤ 0xFAFF) ∨ (0xFF00 ≤ n ∧ n ≤ 0xFF60) ∨
      (0xFFE0 ≤ n ∧ n ≤ 0xFFE6) then some 2
  else some 1

/-- `display_width` (src/text.rs): display width of a string,
accounting for CJK double-width characters. -/
def display_width (s : String) : Nat :=
  (s.data.map (fun c => (charWidth c).getD 0)).sum

/-! ## Layout constants and sizing (src/layout.rs) -/

def MIN_NODE_WIDTH : Nat := 5

def NODE_HEIGHT : Nat := 3

def MIN_GAP : Nat := 2

def SUBGRAPH_PADDING : Nat := 2

/-- `constraint_abbrev` (src/layout.rs). -/
def constraint_abbrev (c : String) : String :=
  if c = "primary_key" then "[PK]"
  else if c = "foreign_key" then "[FK]"
  else if c = "unique" then "[UQ]"
  else if c = "not_null" then "[NN]"
  else "[" ++ c ++ "]"

/-- `format_field_width` (src/layout.rs): display width of a table field.
The source measures the name and type with `chars().count()` and the
abbreviation with byte length `len()`. -/
def format_field_width (f : TableField) : Nat :=
  let len := f.name.length
  let len :=
    match f.type_info with
    | some ti => len + 2 + ti.length
    | none => len
  match f.constraint with
  | some c => len + 1 + (constraint_abbrev c).utf8ByteSize
  | none => len

/-- Step 1 of `compute_layout_with_options`: compute one node's size.
The label is measured with `chars().count()`. -/
def sizeNode (text_padding : Nat) (n : Node) : Node :=
  let width := max (n.label.length + text_padding) MIN_NODE_WIDTH
  let height := NODE_HEIGHT
  let height := if n.shape = NodeShape.Cylinder then 5 else height
  if n.shape = NodeShape.Table ∧ n.fields ≠ [] then
    let width := n.fields.foldl (fun w f => max w (format_field_width f + 2 + text_padding)) width
    { n with width := width, height := 3 + n.fields.length }
  else
    { n with width := width, height := height }

/-! ## Topological layering (`assign_layers`, src/layout.rs)

The two nested loops of `assign_layers` (the inner Kahn queue loop and
the outer cycle-breaking loop) are modelled with explicit fuel; fuel
sufficiency is proved below (`kahnInner_fuel_sufficient`,
`assignLayersFuel_isSome`). -/

/-- `usize::MAX`. -/
def USIZE_MAX : Nat := 2 ^ 64 - 1

/-- Mutable state of Kahn's algorithm inside `assign_layers`. -/
structure KState where
  queue : List NodeId
  processed : List NodeId
  layers : List (NodeId × Nat)
  indeg : List (NodeId × Nat)
deriving DecidableEq, Repr

/-- The sorted, deduplicated unprocessed successors of `u`
(`neighbors` in `assign_layers`; `processed` already contains `u`). -/
def neighborsOf (g : Graph) (processed : List NodeId) (u : NodeId) : List NodeId :=
  dedupAdj (sortBy strLe
    ((g.edges.filter
      (fun e => decide (e.fromId = u) && decide (e.toId ∉ processed))).map Edge.toId))

/-- One iteration of the `for v in &neighbors` loop: relax the layer of
`v` and decrement its in-degree, enqueueing it at zero. -/
def relaxNeighbor (uLayer : Nat) (st : KState) (v : NodeId) : KState :=
  let vLayer := (alookup st.layers v).getD 0
  let layers := ainsert st.layers v (max vLayer (uLayer + 1))
  match alookup st.indeg v with
  | none => { st with layers := layers }
  | some d =>
    let d' := d - 1
    { st with
      layers := layers
      indeg := ainsert st.indeg v d'
      queue := if d' = 0 then st.queue ++ [v] else st.queue }

/-- The inner `while let Some(u) = queue.pop_front()` loop of
`assign_layers`, with fuel. -/
def kahnInner (g : Graph) : Nat → KState → Option KState
  | 0, _ => none
  | fuel + 1, st =>
    match st.queue with
    | [] => some st
    | u :: rest =>
      if u ∈ st.processed then
        kahnInner g fuel { st with queue := rest }
      else
        let processed := st.processed ++ [u]
        let ns := neighborsOf g processed u
        let uLayer := (alookup st.layers u).getD 0
        kahnInner g fuel
          (ns.foldl (relaxNeighbor uLayer) { st with queue := rest, processed := processed })

/-- The stuck nodes: in-degree keys that are not yet processed. -/
def stuckOf (st : KState) : List NodeId :=
  (akeys st.indeg).filter (fun id => decide (id ∉ st.processed))

/-- Record every stuck node with an outgoing edge to another stuck node
into the cycle-participant set (`all_cycle_nodes.insert`). -/
def addParticipants (g : Graph) (stuck : List NodeId) (acc : List NodeId) : List NodeId :=
  stuck.foldl
    (fun acc n =>
      if (g.edges.any (fun e => decide (e.fromId = n) && decide (e.toId ∈ stuck))) &&
          !(decide (n ∈ acc)) then
        acc ++ [n]
      else acc)
    acc

/-- First index at which each node id appears as an edge source
(`first_from_idx`). -/
def firstFromIdx (g : Graph) : List (NodeId × Nat) :=
  g.edges.enum.foldl
    (fun m p =>
      match alookup m p.2.fromId with
      | some _ => m
      | none => ainsert m p.2.fromId p.1)
    []

/-- The cycle-breaking comparison: first-appearance-as-source index
(`unwrap_or(usize::MAX)`), ties broken lexicographically. -/
def forceLe (ff : List (NodeId × Nat)) (a b : NodeId) : Bool :=
  let fa := (alookup ff a).getD USIZE_MAX
  let fb := (alookup ff b).getD USIZE_MAX
  if fa < fb then true
  else if fb < fa then false
  else strLe a b

/-- The outer `loop` of `assign_layers`: run the Kahn queue to
exhaustion, break when enough nodes are processed, otherwise record
cycle participants and force one stuck node.  `rounds` is fuel for the
number of forcing rounds. -/
def kahnOuter (g : Graph) (ff : List (NodeId × Nat)) (total innerFuel : Nat) :
    Nat → KState → List NodeId → Option (KState × List NodeId)
  | rounds, st, acc =>
    match kahnInner g innerFuel st with
    | none => none
    | some st' =>
      if total ≤ st'.processed.length then some (st', acc)
      else
        match rounds with
        | 0 => none
        | r + 1 =>
          let stuck := stuckOf st'
          let acc' := addParticipants g stuck acc
          match sortBy (forceLe ff) stuck with
          | [] => kahnOuter g ff total innerFuel r st' acc'
          | forced :: _ =>
            kahnOuter g ff total innerFuel r
              { st' with
                indeg := ainsert st'.indeg forced 0
                queue := st'.queue ++ [forced] }
              acc'

/-- Initial `node_layers`: every node id at layer 0. -/
def initLayers (g : Graph) : List (NodeId × Nat) :=
  (akeys g.nodes).foldl (fun m id => ainsert m id 0) []

/-- Initial `in_degree`: node ids at 0, then one increment per edge
target (`entry(edge.to).or_insert(0) += 1`). -/
def initIndeg (g : Graph) : List (NodeId × Nat) :=
  g.edges.foldl
    (fun m e => ainsert m e.toId ((alookup m e.toId).getD 0 + 1))
    ((akeys g.nodes).foldl (fun m id => ainsert m id 0) [])

/-- The sorted seed queue: ids with in-degree 0. -/
def zeroIn (indeg : List (NodeId × Nat)) : List NodeId :=
  sortBy strLe ((indeg.filter (fun p => decide (p.2 = 0))).map Prod.fst)

/-- `assign_layers` with explicit fuel; returns the layer map and the
lexicographically sorted cycle-participant list. -/
def assignLayersFuel (g : Graph) (rounds innerFuel : Nat) :
    Option (List (NodeId × Nat) × List NodeId) :=
  let indeg := initIndeg g
  let st0 : KState := ⟨zeroIn indeg, [], initLayers g, indeg⟩
  (kahnOuter g (firstFromIdx g) g.nodes.length innerFuel rounds st0 []).map
    fun p => (p.1.layers, sortBy strLe p.2)

/-- Upper bound on the number of distinct in-degree keys. -/
def universeSize (g : Graph) : Nat := g.nodes.length + g.edges.length

/-- Fuel that always suffices for the inner Kahn loop (proved below). -/
def innerFuelFor (g : Graph) : Nat := (universeSize g + 2) * (g.edges.length + 2)

/-- `assign_layers`: the fuelled loops at their proven-sufficient fuel.
(`assignLayersFuel_isSome` below shows the default is never taken for a
graph with unique node ids.) -/
def assignLayers (g : Graph) : List (NodeId × Nat) × List NodeId :=
  (assignLayersFuel g g.nodes.length (innerFuelFor g)).getD ([], [])

/-- The warning list produced by `assign_layers`. -/
def layoutWarnings (cyc : List NodeId) : List DiagramWarning :=
  if cyc = [] then [] else [DiagramWarning.CycleDetected cyc]

/-- The edge relation of a graph: `a → b` for some edge. -/
def EdgeRel (g : Graph) (a b : NodeId) : Prop :=
  ∃ e ∈ g.edges, e.fromId = a ∧ e.toId = b

/-- A graph with no directed cycle among its edges. -/
def Acyclic (g : Graph) : Prop := ∀ u, ¬ Relation.TransGen (EdgeRel g) u u

/-- Every edge endpoint names an existing node. -/
def EndpointsClosed (g : Graph) : Prop :=
  ∀ e ∈ g.edges, e.fromId ∈ akeys g.nodes ∧ e.toId ∈ akeys g.nodes

/-- No two edges share the same (source, target) pair. -/
def SimpleEdges (g : Graph) : Prop :=
  (g.edges.map (fun e => (e.fromId, e.toId))).Nodup

/-- The number of edges into `k` whose source is still unprocessed. -/
def indegCount (g : Graph) (processed : List NodeId) (k : NodeId) : Nat :=
  (g.edges.filter
    (fun e => decide (e.toId = k) && decide (e.fromId ∉ processed))).length

/-- The full correctness invariant of the inner Kahn loop (for
endpoint-closed graphs without duplicate edges): the in-degree map keys
never change, queued unprocessed ids have in-degree zero, the stored
in-degree of an unprocessed key counts its unprocessed predecessors,
zero-in-degree unprocessed keys are queued, targets are processed only
after their sources, and an edge whose source is processed has already
been relaxed. -/
structure KahnInv (g : Graph) (st : KState) : Prop where
  keysEq : akeys st.indeg = akeys (initIndeg g)
  queueZero : ∀ x ∈ st.queue, x ∉ st.processed → alookup st.indeg x = some 0
  eqCount : ∀ k ∈ akeys st.indeg, k ∉ st.processed →
    alookup st.indeg k = some (indegCount g st.processed k)
  queueInv : ∀ k ∈ akeys st.indeg, k ∉ st.processed →
    alookup st.indeg k = some 0 → k ∈ st.queue
  pred : ∀ e ∈ g.edges, e.toId ∈ st.processed → e.fromId ∈ st.processed
  rel : ∀ e ∈ g.edges, e.fromId ∈ st.processed →
    (alookup st.layers e.fromId).getD 0 + 1 ≤ (alookup st.layers e.toId).getD 0

/-- The weak correctness invariant of the inner Kahn loop, which needs
no assumption on the edge list: the in-degree map keys never change,
queued unprocessed ids have stored in-degree zero, the stored in-degree
of an unprocessed key **dominates** the number of its unprocessed
predecessors (duplicate edges inflate the stored count but never
deflate it, since each processed source decrements a target at most
once), targets are processed only after their sources, and an edge
whose source is processed has already been relaxed. -/
structure KahnWeak (g : Graph) (st : KState) : Prop where
  keysEq : akeys st.indeg = akeys (initIndeg g)
  queueZero : ∀ x ∈ st.queue, x ∉ st.processed → alookup st.indeg x = some 0
  geCount : ∀ k d, k ∉ st.processed → alookup st.indeg k = some d →
    indegCount g st.processed k ≤ d
  pred : ∀ e ∈ g.edges, e.toId ∈ st.processed → e.fromId ∈ st.processed
  rel : ∀ e ∈ g.edges, e.fromId ∈ st.processed →
    (alookup st.layers e.fromId).getD 0 + 1 ≤ (alookup st.layers e.toId).getD 0

/-- Invariant of the Kahn loop state: processed ids are pairwise
distinct, and processed and queued ids are in-degree keys. -/
def KInv (st : KState) : Prop :=
  st.processed.Nodup ∧ (∀ x ∈ st.processed, x ∈ akeys st.indeg) ∧
    ∀ x ∈ st.queue, x ∈ akeys st.indeg

/-- Termination measure of the inner Kahn loop: processing a new node
costs one in-degree-map slot but enqueues at most `E` successors. -/
def KMeasure (E : Nat) (st : KState) : Nat :=
  (st.indeg.length + 1 - st.processed.length) * (E + 1) + st.queue.length

/-! ## Gap calculation and coordinate assignment (src/layout.rs) -/

/-- The ids of layer `l`, sorted (`layers_map` entry after sorting). -/
def layersMapAt (layers : List (NodeId × Nat)) (l : Nat) : List NodeId :=
  sortBy strLe ((layers.filter (fun p => decide (p.2 = l))).map Prod.fst)

/-- The largest layer number occurring in the layer map (`max_layer`). -/
def maxLayerOf (layers : List (NodeId × Nat)) : Nat :=
  layers.foldl (fun m p => max m p.2) 0

/-- `calculate_gaps`. -/
def calculate_gaps (g : Graph) (layers : List (NodeId × Nat)) (o : RenderOptions) :
    Nat × Nat :=
  let h_gap := o.padding_x
  let v_gap := o.padding_y
  match o.max_width with
  | none => (h_gap, v_gap)
  | some max_width =>
    if g.direction.is_horizontal then
      let max_layer := maxLayerOf layers
      let total_width :=
        (((List.range (max_layer + 1)).map (fun l =>
          ((((layersMapAt layers l).filterMap (fun id => alookup g.nodes id)).map
            Node.width).foldl max 0))).sum) + max_layer * h_gap
      if max_width < total_width ∧ 0 < max_layer then
        let node_width := total_width - max_layer * h_gap
        let available_for_gaps := max_width - node_width
        (max (available_for_gaps / max_layer) MIN_GAP, v_gap)
      else (h_gap, v_gap)
    else (h_gap, v_gap)

/-- The `layer_widths` / `layer_heights` entry for layer `l`. -/
def layerDims (g : Graph) (layers : List (NodeId × Nat)) (h_gap v_gap l : Nat) :
    Nat × Nat :=
  let ns := (layersMapAt layers l).filterMap (fun id => alookup g.nodes id)
  let max_w := (ns.map Node.width).foldl max 0
  let max_h := (ns.map Node.height).foldl max 0
  let total_w := (ns.map (fun n => n.width + h_gap)).sum
  let total_h := (ns.map (fun n => n.height + v_gap)).sum
  if g.direction.is_horizontal then (max_w, total_h - v_gap)
  else (total_w - h_gap, max_h)

/-- `assign_coordinates_with_gaps`. -/
def assignCoordinates (g : Graph) (layers : List (NodeId × Nat)) (h_gap v_gap : Nat) :
    Graph :=
  let max_layer := maxLayerOf layers
  let dims := fun l => layerDims g layers h_gap v_gap l
  let max_total_width := ((List.range (max_layer + 1)).map (fun l => (dims l).1)).foldl max 0
  let max_total_height := ((List.range (max_layer + 1)).map (fun l => (dims l).2)).foldl max 0
  if g.direction.is_horizontal then
    let nodes :=
      ((List.range (max_layer + 1)).foldl
        (fun (s : Nat × List (NodeId × Node)) l =>
          let layer_idx :=
            match g.direction with
            | Direction.LR => l
            | Direction.RL => max_layer - l
            | _ => l
          let layer_h := (dims layer_idx).2
          let inner :=
            (layersMapAt layers layer_idx).foldl
              (fun (t : Nat × List (NodeId × Node)) id =>
                match alookup t.2 id with
                | some n =>
                  (t.1 + n.height + v_gap, ainsert t.2 id { n with x := s.1, y := t.1 })
                | none => t)
              ((max_total_height - layer_h) / 2, s.2)
          (s.1 + (dims layer_idx).1 + h_gap, inner.2))
        (0, g.nodes)).2
    { g with nodes := nodes }
  else
    let nodes :=
      ((List.range (max_layer + 1)).foldl
        (fun (s : Nat × List (NodeId × Node)) l =>
          let layer_idx :=
            match g.direction with
            | Direction.TB => l
            | Direction.BT => max_layer - l
            | _ => l
          let layer_w := (dims layer_idx).1
          let inner :=
            (layersMapAt layers layer_idx).foldl
              (fun (t : Nat × List (NodeId × Node)) id =>
                match alookup t.2 id with
                | some n =>
                  (t.1 + n.width + h_gap, ainsert t.2 id { n with x := t.1, y := s.1 })
                | none => t)
              ((max_total_width - layer_w) / 2, s.2)
          (s.1 + (dims layer_idx).2 + v_gap, inner.2))
        (0, g.nodes)).2
    { g with nodes := nodes }

/-! ## Subgraph bounding boxes (src/layout.rs) -/

/-- One `for i in 0..sg_count` step of `compute_subgraph_bounds`:
process subgraph `i` if all its children are processed. -/
def subgraphBoundsStep (nodes : List (NodeId × Node)) (sg_ids : List String)
    (sg_parents : List (Option String)) (s : List Subgraph × List String) (i : Nat) :
    List Subgraph × List String :=
  let sg_id := sg_ids.getD i ""
  if sg_id ∈ s.2 then s
  else
    let all_children_done :=
      (List.range sg_ids.length).all (fun j =>
        if sg_parents.getD j none = some sg_id then decide (sg_ids.getD j "" ∈ s.2)
        else true)
    if ¬ all_children_done then s
    else
      match s.1.get? i with
      | none => (s.1, s.2 ++ [sg_id])
      | some sg =>
        let b :=
          sg.nodes.foldl
            (fun (b : Nat × Nat × Nat × Nat) node_id =>
              match alookup nodes node_id with
              | some n =>
                (min b.1 n.x, min b.2.1 n.y,
                 max b.2.2.1 (n.x + n.width), max b.2.2.2 (n.y + n.height))
              | none => b)
            (USIZE_MAX, USIZE_MAX, 0, 0)
        let b :=
          (List.range sg_ids.length).foldl
            (fun (b : Nat × Nat × Nat × Nat) j =>
              if sg_parents.getD j none = some sg_id then
                match s.1.get? j with
                | some child =>
                  if 0 < child.width ∧ 0 < child.height then
                    (min b.1 child.x, min b.2.1 child.y,
                     max b.2.2.1 (child.x + child.width),
                     max b.2.2.2 (child.y + child.height))
                  else b
                | none => b
              else b)
            b
        let sgs :=
          if b.1 ≠ USIZE_MAX then
            s.1.set i { sg with
              x := b.1 - SUBGRAPH_PADDING,
              y := b.2.1 - (SUBGRAPH_PADDING + 1),
              width := (b.2.2.1 - b.1) + SUBGRAPH_PADDING * 2,
              height := (b.2.2.2 - b.2.1) + SUBGRAPH_PADDING * 2 + 1 }
          else s.1
        (sgs, s.2 ++ [sg_id])

/-- `compute_subgraph_bounds`: up to `sg_count + 1` passes, children
before parents.  (The source `break`s once everything is processed; the
remaining passes are no-ops, so running them all is equivalent.) -/
def computeSubgraphBounds (g : Graph) : Graph :=
  let sg_ids := g.subgraphs.map Subgraph.id
  let sg_parents := g.subgraphs.map Subgraph.parent
  let final :=
    (List.range (g.subgraphs.length + 1)).foldl
      (fun s _ =>
        (List.range g.subgraphs.length).foldl
          (subgraphBoundsStep g.nodes sg_ids sg_parents) s)
      (g.subgraphs, [])
  { g with subgraphs := final.1 }

/-- `compute_layout_with_options` (src/layout.rs). -/
def computeLayoutWithOptions (g : Graph) (o : RenderOptions) :
    Graph × List DiagramWarning :=
  let text_padding := o.border_padding * 2
  let g1 := { g with nodes := g.nodes.map (fun p => (p.1, sizeNode text_padding p.2)) }
  let la := assignLayers g1
  let warnings := layoutWarnings la.2
  let gaps := calculate_gaps g1 la.1 o
  let g2 := assignCoordinates g1 la.1 gaps.1 gaps.2
  (computeSubgraphBounds g2, warnings)

/-- `compute_layout`: layout with default options. -/
def computeLayout (g : Graph) : Graph × List DiagramWarning :=
  computeLayoutWithOptions g RenderOptions.default

/-! ## Character grid (src/grid.rs) -/

/-- Line direction flags for junction merging. -/
structure LineFlags where
  up : Bool
  down : Bool
  left : Bool
  right : Bool
deriving DecidableEq, Repr

/-- `LineFlags::default`. -/
def LineFlags.default : LineFlags := ⟨false, false, false, false⟩

/-- Junction characters needed for line merging. -/
structure JunctionChars where
  cross : Char
  t_up : Char
  t_down : Char
  ml : Char
  mr : Char
deriving DecidableEq, Repr

/-- Replace element `i` of a list by `f` applied to it (no-op out of range). -/
def updateAt {α : Type} : List α → Nat → (α → α) → List α
  | [], _, _ => []
  | a :: t, 0, f => f a :: t
  | a :: t, i + 1, f => a :: updateAt t i f

/-- Write `v` at row `y`, column `x` of a row-major table. -/
def set2d {α : Type} (rows : List (List α)) (y x : Nat) (v : α) : List (List α) :=
  updateAt rows y (fun row => row.set x v)

/-- Read row `y`, column `x` of a row-major table, with default. -/
def get2d {α : Type} (rows : List (List α)) (y x : Nat) (d : α) : α :=
  ((rows.get? y).bind (fun row => row.get? x)).getD d

/-- 2D character grid for rendering.  The `protected` metadata layer of
the source is named `protCells` here (`protected` is reserved). -/
structure Grid where
  cells : List (List Char)
  protCells : List (List Bool)
  line_flags : List (List LineFlags)
  width : Nat
  height : Nat
deriving DecidableEq, Repr

/-- `Grid::new`: a grid filled with spaces. -/
def Grid.new (width height : Nat) : Grid :=
  ⟨List.replicate height (List.replicate width ' '),
   List.replicate height (List.replicate width false),
   List.replicate height (List.replicate width LineFlags.default),
   width, height⟩

/-- The protected flag at `(x, y)` (false out of range). -/
def Grid.protAt (g : Grid) (x y : Nat) : Bool :=
  get2d g.protCells y x false

/-- `Grid::set`: set a character (bounds-checked). -/
def Grid.set (g : Grid) (x y : Nat) (c : Char) : Grid :=
  if x < g.width ∧ y < g.height then
    { g with cells := set2d g.cells y x c }
  else g

/-- `Grid::set_protected`: set a character and mark it protected. -/
def Grid.set_protected (g : Grid) (x y : Nat) (c : Char) : Grid :=
  if x < g.width ∧ y < g.height then
    { g with
      cells := set2d g.cells y x c
      protCells := set2d g.protCells y x true }
  else g

/-- `Grid::mark_protected`: mark a cell protected without changing it. -/
def Grid.mark_protected (g : Grid) (x y : Nat) : Grid :=
  if x < g.width ∧ y < g.height then
    { g with protCells := set2d g.protCells y x true }
  else g

/-- `Grid::set_if_empty`: set a character only if the cell is not
protected; returns whether the character was set. -/
def Grid.set_if_empty (g : Grid) (x y : Nat) (c : Char) : Grid × Bool :=
  if x < g.width ∧ y < g.height ∧ g.protAt x y = false then
    ({ g with cells := set2d g.cells y x c }, true)
  else (g, false)

/-- `Grid::set_line_with_merge`: set a line character, merging with a
perpendicular line into a junction glyph. -/
def Grid.set_line_with_merge (g : Grid) (x y : Nat) (c : Char) (is_horizontal : Bool)
    (chars : JunctionChars) : Grid × Bool :=
  if g.width ≤ x ∨ g.height ≤ y ∨ g.protAt x y = true then (g, false)
  else
    let lf := get2d g.line_flags y x LineFlags.default
    let lf :=
      if is_horizontal then { lf with left := true, right := true }
      else { lf with up := true, down := true }
    let has_h := lf.left || lf.right
    let has_v := lf.up || lf.down
    let cell := if has_h && has_v then chars.cross else c
    ({ g with
        line_flags := set2d g.line_flags y x lf
        cells := set2d g.cells y x cell },
      true)

/-- `Grid::is_protected` (out of bounds counts as protected). -/
def Grid.is_protected (g : Grid) (x y : Nat) : Bool :=
  if x < g.width ∧ y < g.height then g.protAt x y else true

/-- `Grid::get`. -/
def Grid.get (g : Grid) (x y : Nat) : Option Char :=
  if x < g.width ∧ y < g.height then some (get2d g.cells y x ' ') else none

/-- Whether a row contains any non-space character. -/
def rowHasContent (row : List Char) : Bool :=
  row.any (fun c => decide (c ≠ ' '))

/-- `Iterator::rposition`: index of the last element satisfying `p`. -/
def rposition {α : Type} (p : α → Bool) (l : List α) : Option Nat :=
  match l.reverse.findIdx? p with
  | some i => some (l.length - 1 - i)
  | none => none

/-- `str::trim_end` on a row of characters. -/
def trimEndChars (row : List Char) : List Char :=
  (row.reverse.dropWhile Char.isWhitespace).reverse

/-- `Display for Grid`: rows up to the last row with content, each with
trailing whitespace trimmed, joined by newlines. -/
def Grid.render (g : Grid) : String :=
  let last := (rposition rowHasContent g.cells).getD 0
  String.intercalate "\n" ((g.cells.take (last + 1)).map (fun row => ⟨trimEndChars row⟩))

/-! ## A* pathfinding (src/pathfinding.rs)

The `BinaryHeap` is modelled as a list whose pop removes an element of
minimal `f_score` (Rust's heap pops some maximal element of the reversed
order; which of several equal-priority elements it yields is
unspecified, so this model fixes the first one in insertion order).
The search loop and the `came_from` reconstruction loop carry fuel. -/

/-- A position in the grid. -/
structure Pos where
  x : Nat
  y : Nat
deriving DecidableEq, Repr

/-- `Pos::new`. -/
def Pos.new (x y : Nat) : Pos := ⟨x, y⟩

/-- A node in the A* search priority queue. -/
structure AStarNode where
  pos : Pos
  f_score : Nat
deriving DecidableEq, Repr

/-- Pathfinding grid with obstacles; the `HashSet` of blocked cells is a
duplicate-free list. -/
structure PathGrid where
  width : Nat
  height : Nat
  blocked : List Pos
deriving DecidableEq, Repr

/-- `PathGrid::new`. -/
def PathGrid.new (width height : Nat) : PathGrid := ⟨width, height, []⟩

/-- Insert into a set modelled as a list (`HashSet::insert`). -/
def sinsert {α : Type} [DecidableEq α] (l : List α) (a : α) : List α :=
  if a ∈ l then l else l ++ [a]

/-- `PathGrid::block_rect`. -/
def PathGrid.block_rect (g : PathGrid) (x y width height : Nat) : PathGrid :=
  { g with
    blocked :=
      (List.range height).foldl
        (fun b dy =>
          (List.range width).foldl (fun b dx => sinsert b (Pos.new (x + dx) (y + dy))) b)
        g.blocked }

/-- `PathGrid::unblock`. -/
def PathGrid.unblock (g : PathGrid) (p : Pos) : PathGrid :=
  { g with blocked := g.blocked.filter (fun q => decide (q ≠ p)) }

/-- `PathGrid::is_valid`. -/
def PathGrid.is_valid (g : PathGrid) (p : Pos) : Bool :=
  decide (p.x < g.width) && decide (p.y < g.height) && !(decide (p ∈ g.blocked))

/-- `PathGrid::neighbors`: valid 4-directional neighbours, in the order
right, left, down, up. -/
def PathGrid.neighbors (g : PathGrid) (pos : Pos) : List Pos :=
  (if pos.x + 1 < g.width ∧ g.is_valid (Pos.new (pos.x + 1) pos.y) = true then
    [Pos.new (pos.x + 1) pos.y] else []) ++
  (if 0 < pos.x ∧ g.is_valid (Pos.new (pos.x - 1) pos.y) = true then
    [Pos.new (pos.x - 1) pos.y] else []) ++
  (if pos.y + 1 < g.height ∧ g.is_valid (Pos.new pos.x (pos.y + 1)) = true then
    [Pos.new pos.x (pos.y + 1)] else []) ++
  (if 0 < pos.y ∧ g.is_valid (Pos.new pos.x (pos.y - 1)) = true then
    [Pos.new pos.x (pos.y - 1)] else [])

/-- `PathGrid::heuristic`: Manhattan distance. -/
def heuristic (p q : Pos) : Nat :=
  (if q.x < p.x then p.x - q.x else q.x - p.x) +
  (if q.y < p.y then p.y - q.y else q.y - p.y)

/-- Pop an element of minimal `f_score` (first such in list order). -/
def popMin : List AStarNode → Option (AStarNode × List AStarNode)
  | [] => none
  | a :: t =>
    match popMin t with
    | none => some (a, [])
    | some (m, rest) =>
      if a.f_score ≤ m.f_score then some (a, t) else some (m, a :: rest)

/-- The `while let Some(&prev) = came_from.get(&pos)` reconstruction
walk (fuelled; the invariants proved below show `came_from` is acyclic,
so `came.length + 1` steps always suffice). -/
def chainFrom (came : List (Pos × Pos)) : Nat → Pos → List Pos
  | 0, _ => []
  | fuel + 1, pos =>
    match alookup came pos with
    | none => []
    | some prev => prev :: chainFrom came fuel prev

/-- One relaxation of a neighbour of the popped node. -/
def astarRelax (goal : Pos) (current : Pos) (current_g : Nat)
    (s : List AStarNode × List (Pos × Pos) × List (Pos × Nat)) (nb : Pos) :
    List AStarNode × List (Pos × Pos) × List (Pos × Nat) :=
  let tentative := current_g + 1
  if tentative < (alookup s.2.2 nb).getD USIZE_MAX then
    (s.1 ++ [⟨nb, tentative + heuristic nb goal⟩],
     ainsert s.2.1 nb current,
     ainsert s.2.2 nb tentative)
  else s

/-- The A* main loop (`while let Some(current) = open_set.pop()`), with
fuel.  Returns `some none` for "no path", `some (some p)` for a found
path, and `none` only on fuel exhaustion. -/
def astarLoop (g : PathGrid) (goal : Pos) :
    Nat → List AStarNode → List (Pos × Pos) → List (Pos × Nat) →
    Option (Option (List Pos))
  | 0, _, _, _ => none
  | fuel + 1, openSet, came, gs =>
    match popMin openSet with
    | none => some none
    | some (cur, rest) =>
      if cur.pos = goal then
        some (some ((cur.pos :: chainFrom came (came.length + 1) cur.pos).reverse))
      else
        let current_g := (alookup gs cur.pos).getD USIZE_MAX
        let s := (g.neighbors cur.pos).foldl (astarRelax goal cur.pos current_g) (rest, came, gs)
        astarLoop g goal fuel s.1 s.2.1 s.2.2

/-- `PathGrid::find_path` with explicit fuel. -/
def PathGrid.find_path_fuel (g : PathGrid) (start goal : Pos) (fuel : Nat) :
    Option (Option (List Pos)) :=
  if g.is_valid start = true ∧ g.is_valid goal = true then
    astarLoop g goal fuel [⟨start, heuristic start goal⟩] [] [(start, 0)]
  else some none

/-- Fuel that always suffices for the A* loop on this grid (each cell's
best-known distance strictly improves at most `w*h + 1` times, and every
pop consumes one queue entry). -/
def astarFuelFor (g : PathGrid) : Nat :=
  (g.width * g.height + 2) * (g.width * g.height + 2)

/-- `PathGrid::find_path`: the fuelled loop at `astarFuelFor`. -/
def PathGrid.find_path (g : PathGrid) (start goal : Pos) : Option (List Pos) :=
  (g.find_path_fuel start goal (astarFuelFor g)).join

/-- Two cells are 4-directionally adjacent (one step right, left, down
or up). -/
def adjacent (p q : Pos) : Prop :=
  (q.x = p.x + 1 ∧ q.y = p.y) ∨ (p.x = q.x + 1 ∧ q.y = p.y) ∨
  (q.y = p.y + 1 ∧ q.x = p.x) ∨ (p.y = q.y + 1 ∧ q.x = p.x)

instance instDecAdjacent : DecidableRel adjacent := fun p q =>
  inferInstanceAs (Decidable
    ((q.x = p.x + 1 ∧ q.y = p.y) ∨ (p.x = q.x + 1 ∧ q.y = p.y) ∨
     (q.y = p.y + 1 ∧ q.x = p.x) ∨ (p.y = q.y + 1 ∧ q.x = p.x)))

/-- A valid routed path: a nonempty 4-connected sequence of valid
(in-bounds, unblocked) cells from `s` to `t`. -/
def IsPath (g : PathGrid) (p : List Pos) (s t : Pos) : Prop :=
  p.head? = some s ∧ p.getLast? = some t ∧ (∀ q ∈ p, g.is_valid q = true) ∧
    List.Chain' adjacent p

/-- Boolean 4-adjacency test. -/
def adjacentB (p q : Pos) : Bool :=
  (decide (q.x = p.x + 1) && decide (q.y = p.y)) ||
  (decide (p.x = q.x + 1) && decide (q.y = p.y)) ||
  (decide (q.y = p.y + 1) && decide (q.x = p.x)) ||
  (decide (p.y = q.y + 1) && decide (q.x = p.x))

/-- Boolean test for consecutive 4-adjacency along a list. -/
def chainAdjB : List Pos → Bool
  | [] => true
  | [_] => true
  | a :: b :: t => adjacentB a b && chainAdjB (b :: t)

instance instDecIsPath (g : PathGrid) (p : List Pos) (s t : Pos) :
    Decidable (IsPath g p s t) :=
  decidable_of_iff (p.head? = some s ∧ p.getLast? = some t ∧
    (∀ q ∈ p, g.is_valid q = true) ∧ chainAdjB p = true) (by
    have hch : ∀ l : List Pos, chainAdjB l = true ↔ List.Chain' adjacent l := by
      intro l
      induction l with
      | nil => simp [chainAdjB]
      | cons a t ih =>
        cases t with
        | nil => simp [chainAdjB]
        | cons b t2 =>
          simp only [chainAdjB, Bool.and_eq_true, List.chain'_cons]
          refine and_congr ?_ ih
          simp only [adjacentB, adjacent, Bool.or_eq_true, Bool.and_eq_true,
            decide_eq_true_eq]
          tauto
    unfold IsPath
    rw [hch p])

/-- `t` is reachable from `s` by a valid path of exactly `n` steps
(`n + 1` cells). -/
def Reach (g : PathGrid) (s t : Pos) (n : Nat) : Prop :=
  ∃ p : List Pos, IsPath g p s t ∧ p.length = n + 1

/-- `n` is the least number of steps of any valid path from `s` to `t`. -/
def MinReach (g : PathGrid) (s t : Pos) (n : Nat) : Prop :=
  Reach g s t n ∧ ∀ m, Reach g s t m → n ≤ m

/-- All cells of a `width × height` grid, row-major. -/
def allCells (w h : Nat) : List Pos :=
  (List.range w).flatMap (fun x => (List.range h).map (fun y => Pos.new x y))

/-- The A* search invariant over a loop state (open list `X`,
`came_from` map, `g_score` map) for a search from `start` towards
`goal`: `g_score` entries are genuine path lengths bounded by the cell
count, the `came_from` chains step backwards along edges with strictly
decreasing `g_score` down to `start`, every queue entry dominates the
current `g_score` of its cell plus the heuristic, every correctly
settled cell either still has its fresh queue entry or has already
relaxed all its tight successors, and a `g_score` entry for `goal`
keeps a queue entry for `goal` alive. -/
structure AInv (g : PathGrid) (start goal : Pos) (X : List AStarNode)
    (came : List (Pos × Pos)) (gs : List (Pos × Nat)) : Prop where
  gsNodup : (akeys gs).Nodup
  gsSound : ∀ p n, alookup gs p = some n → Reach g start p n
  gsBound : ∀ p n, alookup gs p = some n → n ≤ g.width * g.height
  gsStart : alookup gs start = some 0
  cameStart : alookup came start = none
  cameChain : ∀ p prev, alookup came p = some prev →
    p ∈ g.neighbors prev ∧ ∃ gp gprev, alookup gs p = some gp ∧
      alookup gs prev = some gprev ∧ gprev < gp
  cameTotal : ∀ p n, alookup gs p = some n → p ≠ start →
    ∃ prev, alookup came p = some prev
  openG : ∀ fn ∈ X, ∃ k, alookup gs fn.pos = some k ∧
    k + heuristic fn.pos goal ≤ fn.f_score
  settledSucc : ∀ y k, alookup gs y = some k → MinReach g start y k →
    (∃ fn ∈ X, fn.pos = y ∧ fn.f_score = k + heuristic y goal) ∨
    (∀ z, z ∈ g.neighbors y → MinReach g start z (k + 1) →
      alookup gs z = some (k + 1))
  goalOpen : ∀ n, alookup gs goal = some n → ∃ fn ∈ X, fn.pos = goal

/-- Termination measure for the A* loop: remaining capacity for
`g_score` improvements plus the open-list length. -/
def astarMeasure (g : PathGrid) (X : List AStarNode)
    (gs : List (Pos × Nat)) : Nat :=
  (g.width * g.height + 2) * (g.width * g.height - gs.length) +
    (gs.map Prod.snd).sum + X.length

/-! ## Character sets (src/renderer/charset.rs) -/

/-- Box-drawing character set. -/
structure CharSet where
  tl : Char
  tr : Char
  bl : Char
  br : Char
  h : Char
  v : Char
  arr_r : Char
  arr_l : Char
  arr_d : Char
  arr_u : Char
  arr_dr : Char
  arr_dl : Char
  arr_ur : Char
  arr_ul : Char
  rtl : Char
  rtr : Char
  rbl : Char
  rbr : Char
  ml : Char
  mr : Char
  dh : Char
  dv : Char
  dtl : Char
  dtr : Char
  dbl : Char
  dbr : Char
  cross : Char
  t_up : Char
  t_down : Char
deriving DecidableEq, Repr

/-- `UNICODE_CHARS`. -/
def UNICODE_CHARS : CharSet :=
  ⟨'┌', '┐', '└', '┘', '─', '│', '▶', '◀', '▼', '▲', '◢', '◣', '◥', '◤',
   '╭', '╮', '╰', '╯', '├', '┤', '═', '║', '╔', '╗', '╚', '╝', '┼', '┴', '┬'⟩

/-- `ASCII_CHARS`. -/
def ASCII_CHARS : CharSet :=
  ⟨'+', '+', '+', '+', '-', '|', '>', '<', 'v', '^', '\\', '/', '/', '\\',
   '+', '+', '+', '+', '+', '+', '=', '#', '#', '#', '#', '#', '+', '+', '+'⟩

/-- `CharSet::to_junction_chars`. -/
def CharSet.to_junction_chars (c : CharSet) : JunctionChars :=
  ⟨c.cross, c.t_up, c.t_down, c.ml, c.mr⟩

/-! ## Shape drawing (src/renderer/shapes.rs)

Rust ranges `a..b` are modelled by `rng a b` with truncated subtraction;
the source never runs them with `b < a` on laid-out nodes (layout makes
every node at least 5 wide and 3 high). -/

/-- The list `[a, a+1, …, b-1]` (Rust `a..b`). -/
def rng (a b : Nat) : List Nat := List.range' a (b - a)

/-- `set_if_empty` with the returned flag discarded (statement form used
by the drawing code). -/
def Grid.sie (g : Grid) (x y : Nat) (c : Char) : Grid :=
  (g.set_if_empty x y c).1

/-- `set_line_with_merge` with the returned flag discarded. -/
def Grid.slm (g : Grid) (x y : Nat) (c : Char) (is_horizontal : Bool)
    (j : JunctionChars) : Grid :=
  (g.set_line_with_merge x y c is_horizontal j).1

/-- `draw_text`: draw text advancing x by per-char display width
(`unwrap_or(1)`). -/
def draw_text (g : Grid) (x y : Nat) (text : String) : Grid :=
  (text.data.foldl
    (fun (s : Grid × Nat) c => (s.1.sie (x + s.2) y c, s.2 + (charWidth c).getD 1))
    (g, 0)).1

/-- `draw_label`: the label block vertically centered, each line
horizontally centered by display width. -/
def draw_label (g : Grid) (n : Node) : Grid :=
  let lines := splitLines n.label
  let block_start_y := n.y + (n.height - lines.length) / 2
  (lines.enum.foldl
    (fun g p =>
      draw_text g (n.x + (n.width - display_width p.2) / 2) (block_start_y + p.1) p.2)
    g)

/-- `draw_rectangle`. -/
def draw_rectangle (g : Grid) (n : Node) (chars : CharSet) : Grid :=
  let x := n.x
  let y := n.y
  let width := n.width
  let height := n.height
  let g := g.sie x y chars.tl
  let g := g.sie (x + width - 1) y chars.tr
  let g := g.sie x (y + height - 1) chars.bl
  let g := g.sie (x + width - 1) (y + height - 1) chars.br
  let g := (rng 1 (width - 1)).foldl
    (fun g i => (g.sie (x + i) y chars.h).sie (x + i) (y + height - 1) chars.h) g
  let g := (rng 1 (height - 1)).foldl
    (fun g i => (g.sie x (y + i) chars.v).sie (x + width - 1) (y + i) chars.v) g
  draw_label g n

/-- `draw_rounded`. -/
def draw_rounded (g : Grid) (n : Node) (chars : CharSet) : Grid :=
  let x := n.x
  let y := n.y
  let width := n.width
  let height := n.height
  let g := g.sie x y chars.rtl
  let g := g.sie (x + width - 1) y chars.rtr
  let g := g.sie x (y + height - 1) chars.rbl
  let g := g.sie (x + width - 1) (y + height - 1) chars.rbr
  let g := (rng 1 (width - 1)).foldl
    (fun g i => (g.sie (x + i) y chars.h).sie (x + i) (y + height - 1) chars.h) g
  let g := (rng 1 (height - 1)).foldl
    (fun g i => (g.sie x (y + i) chars.v).sie (x + width - 1) (y + i) chars.v) g
  draw_label g n

/-- `draw_circle`. -/
def draw_circle (g : Grid) (n : Node) (chars : CharSet) : Grid :=
  let x := n.x
  let y := n.y
  let width := n.width
  let height := n.height
  let g := g.sie x y '('
  let g := g.sie (x + width - 1) y ')'
  let g := g.sie x (y + height - 1) '('
  let g := g.sie (x + width - 1) (y + height - 1) ')'
  let g := (rng 1 (width - 1)).foldl
    (fun g i =>
      if i = 1 then (g.sie (x + i) y chars.rtl).sie (x + i) (y + height - 1) chars.rbl
      else if i = width - 2 then
        (g.sie (x + i) y chars.rtr).sie (x + i) (y + height - 1) chars.rbr
      else (g.sie (x + i) y chars.h).sie (x + i) (y + height - 1) chars.h)
    g
  let g := (rng 1 (height - 1)).foldl
    (fun g i => (g.sie x (y + i) '(').sie (x + width - 1) (y + i) ')') g
  draw_label g n

/-- `draw_diamond`. -/
def draw_diamond (g : Grid) (n : Node) (chars : CharSet) : Grid :=
  let x := n.x
  let y := n.y
  let width := n.width
  let height := n.height
  let mid_x := width / 2
  let g := g.sie (x + mid_x) y '/'
  let g := if mid_x + 1 < width then g.sie (x + mid_x + 1) y '\\' else g
  let g := g.sie (x + mid_x) (y + height - 1) '\\'
  let g := if mid_x + 1 < width then g.sie (x + mid_x + 1) (y + height - 1) '/' else g
  let g := (rng 1 (height - 1)).foldl
    (fun g i => (g.sie x (y + i) '<').sie (x + width - 1) (y + i) '>') g
  let g := (rng 1 (width - 1)).foldl (fun g i => g.sie (x + i) (y + 1) chars.h) g
  draw_label g n

/-- `draw_cylinder` (5-row database shape). -/
def draw_cylinder (g : Grid) (n : Node) (chars : CharSet) : Grid :=
  let x := n.x
  let y := n.y
  let width := n.width
  let height := n.height
  let g := g.sie x y chars.rtl
  let g := g.sie (x + width - 1) y chars.rtr
  let g := (rng 1 (width - 1)).foldl (fun g i => g.sie (x + i) y chars.h) g
  let g := g.sie x (y + 1) chars.ml
  let g := g.sie (x + width - 1) (y + 1) chars.mr
  let g := (rng 1 (width - 1)).foldl (fun g i => g.sie (x + i) (y + 1) chars.h) g
  let g := (rng 2 (height - 2)).foldl
    (fun g i => (g.sie x (y + i) chars.v).sie (x + width - 1) (y + i) chars.v) g
  let g := g.sie x (y + height - 2) chars.ml
  let g := g.sie (x + width - 1) (y + height - 2) chars.mr
  let g := (rng 1 (width - 1)).foldl (fun g i => g.sie (x + i) (y + height - 2) chars.h) g
  let g := g.sie x (y + height - 1) chars.rbl
  let g := g.sie (x + width - 1) (y + height - 1) chars.rbr
  let g := (rng 1 (width - 1)).foldl (fun g i => g.sie (x + i) (y + height - 1) chars.h) g
  draw_label g n

/-- `draw_stadium`. -/
def draw_stadium (g : Grid) (n : Node) (chars : CharSet) : Grid :=
  let x := n.x
  let y := n.y
  let width := n.width
  let height := n.height
  let g := g.sie x y '('
  let g := g.sie (x + width - 1) y ')'
  let g := g.sie x (y + height - 1) '('
  let g := g.sie (x + width - 1) (y + height - 1) ')'
  let g := (rng 1 (width - 1)).foldl
    (fun g i => (g.sie (x + i) y chars.h).sie (x + i) (y + height - 1) chars.h) g
  let g := (rng 1 (height - 1)).foldl
    (fun g i => (g.sie x (y + i) '(').sie (x + width - 1) (y + i) ')') g
  draw_label g n

/-- `draw_subroutine`. -/
def draw_subroutine (g : Grid) (n : Node) (chars : CharSet) : Grid :=
  let x := n.x
  let y := n.y
  let width := n.width
  let height := n.height
  let g := g.sie x y chars.tl
  let g := g.sie (x + 1) y chars.tl
  let g := g.sie (x + width - 1) y chars.tr
  let g := g.sie (x + width - 2) y chars.tr
  let g := g.sie x (y + height - 1) chars.bl
  let g := g.sie (x + 1) (y + height - 1) chars.bl
  let g := g.sie (x + width - 1) (y + height - 1) chars.br
  let g := g.sie (x + width - 2) (y + height - 1) chars.br
  let g := (rng 2 (width - 2)).foldl
    (fun g i => (g.sie (x + i) y chars.h).sie (x + i) (y + height - 1) chars.h) g
  let g := (rng 1 (height - 1)).foldl
    (fun g i =>
      (((g.sie x (y + i) chars.v).sie (x + 1) (y + i) chars.v).sie
        (x + width - 1) (y + i) chars.v).sie (x + width - 2) (y + i) chars.v)
    g
  draw_label g n

/-- `draw_hexagon`. -/
def draw_hexagon (g : Grid) (n : Node) (chars : CharSet) : Grid :=
  let x := n.x
  let y := n.y
  let width := n.width
  let height := n.height
  let g := g.sie x y '/'
  let g := g.sie (x + width - 1) y '\\'
  let g := (rng 1 (width - 1)).foldl (fun g i => g.sie (x + i) y chars.h) g
  let g := g.sie x (y + height - 1) '\\'
  let g := g.sie (x + width - 1) (y + height - 1) '/'
  let g := (rng 1 (width - 1)).foldl (fun g i => g.sie (x + i) (y + height - 1) chars.h) g
  let g := (rng 1 (height - 1)).foldl
    (fun g i => (g.sie x (y + i) '<').sie (x + width - 1) (y + i) '>') g
  draw_label g n

/-- `draw_parallelogram` (and its mirrored variant). -/
def draw_parallelogram (g : Grid) (n : Node) (chars : CharSet) (reverse : Bool) : Grid :=
  let x := n.x
  let y := n.y
  let width := n.width
  let height := n.height
  let top_left := if reverse then '\\' else chars.tl
  let top_right := if reverse then chars.tr else '/'
  let bot_left := if reverse then chars.bl else '\\'
  let bot_right := if reverse then '/' else chars.br
  let g := g.sie x y top_left
  let g := g.sie (x + width - 1) y top_right
  let g := g.sie x (y + height - 1) bot_left
  let g := g.sie (x + width - 1) (y + height - 1) bot_right
  let g := (rng 1 (width - 1)).foldl
    (fun g i => (g.sie (x + i) y chars.h).sie (x + i) (y + height - 1) chars.h) g
  let g := (rng 1 (height - 1)).foldl
    (fun g i =>
      (g.sie x (y + i) (if reverse then '\\' else '/')).sie
        (x + width - 1) (y + i) (if reverse then '\\' else '/'))
    g
  draw_label g n

/-- `draw_trapezoid` (and its mirrored variant). -/
def draw_trapezoid (g : Grid) (n : Node) (chars : CharSet) (reverse : Bool) : Grid :=
  let x := n.x
  let y := n.y
  let width := n.width
  let height := n.height
  let top_left := if reverse then '\\' else chars.tl
  let top_right := if reverse then '/' else chars.tr
  let bot_left := if reverse then chars.bl else '\\'
  let bot_right := if reverse then chars.br else '/'
  let g := g.sie x y top_left
  let g := g.sie (x + width - 1) y top_right
  let g := g.sie x (y + height - 1) bot_left
  let g := g.sie (x + width - 1) (y + height - 1) bot_right
  let g := (rng 1 (width - 1)).foldl
    (fun g i => (g.sie (x + i) y chars.h).sie (x + i) (y + height - 1) chars.h) g
  let g := (rng 1 (height - 1)).foldl
    (fun g i =>
      (g.sie x (y + i) (if reverse then '\\' else chars.v)).sie
        (x + width - 1) (y + i) (if reverse then '/' else chars.v))
    g
  draw_label g n

/-- `truncate_to_width`: keep the longest prefix whose display width
fits (the loop `break`s at the first character that does not fit). -/
def truncate_to_width (max_width : Nat) : Nat → List Char → List Char
  | _, [] => []
  | w, c :: t =>
    let cw := (charWidth c).getD 1
    if max_width < w + cw then []
    else c :: truncate_to_width max_width (w + cw) t

/-- `format_field_text`. -/
def format_field_text (f : TableField) (max_width : Nat) : String :=
  let text := f.name
  let text :=
    match f.type_info with
    | some ti => text ++ ": " ++ ti
    | none => text
  let finish := fun (t : String) =>
    if max_width < display_width t then (⟨truncate_to_width max_width 0 t.data⟩ : String)
    else t
  match f.constraint with
  | none => finish text
  | some c =>
    if c = "primary_key" then finish (text ++ " [PK]")
    else if c = "foreign_key" then finish (text ++ " [FK]")
    else if c = "unique" then finish (text ++ " [UQ]")
    else if c = "not_null" then finish (text ++ " [NN]")
    else finish (text ++ " [" ++ c ++ "]")

/-- `draw_table`. -/
def draw_table (g : Grid) (n : Node) (chars : CharSet) : Grid :=
  let x := n.x
  let y := n.y
  let width := n.width
  let height := n.height
  if n.fields = [] then
    let g := g.sie x y chars.dtl
    let g := g.sie (x + width - 1) y chars.dtr
    let g := g.sie x (y + height - 1) chars.dbl
    let g := g.sie (x + width - 1) (y + height - 1) chars.dbr
    let g := (rng 1 (width - 1)).foldl
      (fun g i => (g.sie (x + i) y chars.dh).sie (x + i) (y + height - 1) chars.dh) g
    let g := (rng 1 (height - 1)).foldl
      (fun g i => (g.sie x (y + i) chars.dv).sie (x + width - 1) (y + i) chars.dv) g
    draw_label g n
  else
    let g := g.sie x y chars.dtl
    let g := g.sie (x + width - 1) y chars.dtr
    let g := (rng 1 (width - 1)).foldl (fun g i => g.sie (x + i) y chars.dh) g
    let g := g.sie x (y + 1) chars.dv
    let g := g.sie (x + width - 1) (y + 1) chars.dv
    let first_line := (splitLines n.label).headD n.label
    let g := draw_text g (x + (width - display_width first_line) / 2) (y + 1) first_line
    let g := g.sie x (y + 2) chars.ml
    let g := g.sie (x + width - 1) (y + 2) chars.mr
    let g := (rng 1 (width - 1)).foldl (fun g i => g.sie (x + i) (y + 2) chars.h) g
    let g := n.fields.enum.foldl
      (fun g p =>
        let row_y := y + 3 + p.1
        let g := g.sie x row_y chars.v
        let g := g.sie (x + width - 1) row_y chars.v
        draw_text g (x + 2) row_y (format_field_text p.2 (width - 4)))
      g
    let bot_y := y + height - 1
    let g := g.sie x bot_y chars.bl
    let g := g.sie (x + width - 1) bot_y chars.br
    (rng 1 (width - 1)).foldl (fun g i => g.sie (x + i) bot_y chars.h) g

/-- `draw_person` (stick figure with border box). -/
def draw_person (g : Grid) (n : Node) (chars : CharSet) : Grid :=
  let x := n.x
  let y := n.y
  let width := n.width
  let height := n.height
  let mid_x := x + width / 2
  let g := g.sie mid_x y 'O'
  let g :=
    if y + 1 < y + height then
      let g := if 0 < mid_x then g.sie (mid_x - 1) (y + 1) '/' else g
      (g.sie mid_x (y + 1) '|').sie (mid_x + 1) (y + 1) '\\'
    else g
  let g :=
    if y + 2 < y + height then
      let g := if 0 < mid_x then g.sie (mid_x - 1) (y + 2) '/' else g
      g.sie (mid_x + 1) (y + 2) '\\'
    else g
  let g := (splitLines n.label).enum.foldl
    (fun g p =>
      let ly := y + 3 + p.1
      if ly < y + height then
        draw_text g (x + (width - display_width p.2) / 2) ly p.2
      else g)
    g
  let g := g.sie x y chars.rtl
  let g := g.sie (x + width - 1) y chars.rtr
  let g := g.sie x (y + height - 1) chars.rbl
  let g := g.sie (x + width - 1) (y + height - 1) chars.rbr
  let g := (rng 1 (width - 1)).foldl
    (fun g i => (g.sie (x + i) y chars.h).sie (x + i) (y + height - 1) chars.h) g
  (rng 1 (height - 1)).foldl
    (fun g i => (g.sie x (y + i) chars.v).sie (x + width - 1) (y + i) chars.v) g

/-- The backquote and apostrophe glyphs of the cloud shape. -/
def backquoteChar : Char := Char.ofNat 0x60

def apostropheChar : Char := Char.ofNat 0x27

/-- `draw_cloud` (bumpy border). -/
def draw_cloud (g : Grid) (n : Node) : Grid :=
  let x := n.x
  let y := n.y
  let width := n.width
  let height := n.height
  let g := g.sie (x + 1) y '.'
  let g := g.sie (x + 2) y '-'
  let g := (rng 3 (width - 3)).foldl (fun g i => g.sie (x + i) y '~') g
  let g := if 4 < width then g.sie (x + width - 3) y '-' else g
  let g := g.sie (x + width - 2) y '.'
  let g := g.sie (x + 1) (y + height - 1) backquoteChar
  let g := g.sie (x + 2) (y + height - 1) '~'
  let g := (rng 3 (width - 3)).foldl (fun g i => g.sie (x + i) (y + height - 1) '-') g
  let g := if 4 < width then g.sie (x + width - 3) (y + height - 1) '~' else g
  let g := g.sie (x + width - 2) (y + height - 1) apostropheChar
  let g := (rng 1 (height - 1)).foldl
    (fun g i => (g.sie x (y + i) '(').sie (x + width - 1) (y + i) ')') g
  draw_label g n

/-- `draw_document` (wavy bottom). -/
def draw_document (g : Grid) (n : Node) (chars : CharSet) : Grid :=
  let x := n.x
  let y := n.y
  let width := n.width
  let height := n.height
  let g := g.sie x y chars.tl
  let g := g.sie (x + width - 1) y chars.tr
  let g := (rng 1 (width - 1)).foldl (fun g i => g.sie (x + i) y chars.h) g
  let g := (rng 1 (height - 1)).foldl
    (fun g i => (g.sie x (y + i) chars.v).sie (x + width - 1) (y + i) chars.v) g
  let g := g.sie x (y + height - 1) chars.bl
  let g := g.sie (x + width - 1) (y + height - 1) chars.br
  (rng 1 (width - 1)).foldl
    (fun g i => g.sie (x + i) (y + height - 1) (if i % 3 = 1 then '~' else chars.h)) g

/-- `protect_node_area`: mark the node's whole bounding box protected. -/
def protect_node_area (g : Grid) (n : Node) : Grid :=
  (rng n.y (n.y + n.height)).foldl
    (fun g y => (rng n.x (n.x + n.width)).foldl (fun g x => g.mark_protected x y) g)
    g

/-- The shape dispatch (`match node.shape`) of `draw_node`. -/
def shapeDraw (g : Grid) (n : Node) (chars : CharSet) : Grid :=
  match n.shape with
  | NodeShape.Rectangle => draw_rectangle g n chars
  | NodeShape.Rounded => draw_rounded g n chars
  | NodeShape.Circle => draw_circle g n chars
  | NodeShape.Diamond => draw_diamond g n chars
  | NodeShape.Cylinder => draw_cylinder g n chars
  | NodeShape.Stadium => draw_stadium g n chars
  | NodeShape.Subroutine => draw_subroutine g n chars
  | NodeShape.Hexagon => draw_hexagon g n chars
  | NodeShape.Parallelogram => draw_parallelogram g n chars false
  | NodeShape.ParallelogramAlt => draw_parallelogram g n chars true
  | NodeShape.Trapezoid => draw_trapezoid g n chars false
  | NodeShape.TrapezoidAlt => draw_trapezoid g n chars true
  | NodeShape.Table => draw_table g n chars
  | NodeShape.Person => draw_person g n chars
  | NodeShape.Cloud => draw_cloud g n
  | NodeShape.Document => draw_document g n chars

/-- `draw_node`: dispatch on the shape, then protect the bounding box. -/
def draw_node (g : Grid) (n : Node) (chars : CharSet) : Grid :=
  protect_node_area (shapeDraw g n chars) n

/-! ## Subgraph drawing (src/renderer/subgraph.rs) -/

/-- `draw_subgraph` (unconditional `set` writes). -/
def draw_subgraph (g : Grid) (sg : Subgraph) (chars : CharSet) : Grid :=
  if sg.width = 0 ∨ sg.height = 0 then g
  else
    let x := sg.x
    let y := sg.y
    let width := sg.width
    let height := sg.height
    let g := g.set x y chars.dtl
    let g := g.set (x + width - 1) y chars.dtr
    let g := g.set x (y + height - 1) chars.dbl
    let g := g.set (x + width - 1) (y + height - 1) chars.dbr
    let g := (rng 1 (width - 1)).foldl
      (fun g i => ((g.set (x + i) y chars.dh)).set (x + i) (y + height - 1) chars.dh) g
    let g := (rng 1 (height - 1)).foldl
      (fun g i => ((g.set x (y + i) chars.dv)).set (x + width - 1) (y + i) chars.dv) g
    let label_w := display_width sg.label
    if sg.label ≠ "" ∧ label_w + 2 < width then
      let label_x := x + (width - label_w) / 2
      (sg.label.data.foldl
        (fun (s : Grid × Nat) c =>
          (s.1.set (label_x + s.2) y c, s.2 + (charWidth c).getD 1))
        (g, 0)).1
    else g

/-- `protect_subgraph_borders`. -/
def protect_subgraph_borders (g : Grid) (sg : Subgraph) : Grid :=
  if sg.width = 0 ∨ sg.height = 0 then g
  else
    let x := sg.x
    let y := sg.y
    let width := sg.width
    let height := sg.height
    let g := g.mark_protected x y
    let g := g.mark_protected (x + width - 1) y
    let g := g.mark_protected x (y + height - 1)
    let g := g.mark_protected (x + width - 1) (y + height - 1)
    let g := (rng 1 (width - 1)).foldl
      (fun g i => ((g.mark_protected (x + i) y)).mark_protected (x + i) (y + height - 1)) g
    (rng 1 (height - 1)).foldl
      (fun g i => ((g.mark_protected x (y + i))).mark_protected (x + width - 1) (y + i)) g

/-! ## Edge drawing (src/renderer/edges.rs) -/

/-- A label that could not be rendered inline (`DroppedLabel`; the
source fields `from`/`to` are `fromId`/`toId` here). -/
structure DroppedLabel where
  marker : String
  label : String
  fromId : String
  toId : String
deriving DecidableEq, Repr

/-- `get_edge_chars`. -/
def get_edge_chars (style : EdgeStyle) (chars : CharSet) (ascii : Bool) : Char × Char :=
  match style with
  | EdgeStyle.Arrow => (chars.h, chars.v)
  | EdgeStyle.Line => (chars.h, chars.v)
  | EdgeStyle.DottedArrow => if ascii then ('.', ':') else ('·', '·')
  | EdgeStyle.DottedLine => if ascii then ('.', ':') else ('·', '·')
  | EdgeStyle.ThickArrow => (chars.dh, chars.dv)
  | EdgeStyle.ThickLine => (chars.dh, chars.dv)

/-- `style_has_arrow`. -/
def style_has_arrow (style : EdgeStyle) : Bool :=
  match style with
  | EdgeStyle.Arrow => true
  | EdgeStyle.DottedArrow => true
  | EdgeStyle.ThickArrow => true
  | _ => false

/-- `get_arrow_for_direction`. -/
def get_arrow_for_direction (fromP toP : Pos) (default_arrow : Char) (chars : CharSet) :
    Char :=
  let sx : Int := Int.sign ((toP.x : Int) - (fromP.x : Int))
  let sy : Int := Int.sign ((toP.y : Int) - (fromP.y : Int))
  if sx = 1 ∧ sy = 0 then chars.arr_r
  else if sx = -1 ∧ sy = 0 then chars.arr_l
  else if sx = 0 ∧ sy = 1 then chars.arr_d
  else if sx = 0 ∧ sy = -1 then chars.arr_u
  else if sx = 1 ∧ sy = 1 then chars.arr_dr
  else if sx = -1 ∧ sy = 1 then chars.arr_dl
  else if sx = 1 ∧ sy = -1 then chars.arr_ur
  else if sx = -1 ∧ sy = -1 then chars.arr_ul
  else default_arrow

/-- `determine_corner`. -/
def determine_corner (prev curr next : Pos) (chars : CharSet) : Char :=
  let from_left := prev.x < curr.x
  let from_right := curr.x < prev.x
  let from_above := prev.y < curr.y
  let from_below := curr.y < prev.y
  let to_right := curr.x < next.x
  let to_left := next.x < curr.x
  let to_below := curr.y < next.y
  let to_above := next.y < curr.y
  if (from_left ∧ to_below) ∨ (from_above ∧ to_right) then chars.tr
  else if (from_right ∧ to_below) ∨ (from_above ∧ to_left) then chars.tl
  else if (from_left ∧ to_above) ∨ (from_below ∧ to_right) then chars.br
  else if (from_right ∧ to_above) ∨ (from_below ∧ to_left) then chars.bl
  else chars.cross

/-- `draw_astar_path`. -/
def draw_astar_path (g : Grid) (path : List Pos) (h_char v_char arrow_char : Char)
    (chars : CharSet) : Grid :=
  if path = [] then g
  else
    let jchars := chars.to_junction_chars
    (List.range path.length).foldl
      (fun g i =>
        let pos := path.getD i (Pos.new 0 0)
        if i = path.length - 1 then
          let final_arrow :=
            if 0 < i then
              get_arrow_for_direction (path.getD (i - 1) (Pos.new 0 0)) pos arrow_char chars
            else arrow_char
          g.sie pos.x pos.y final_arrow
        else
          let next := path.getD (i + 1) (Pos.new 0 0)
          let is_horizontal := decide (pos.y = next.y)
          let is_turn :=
            if 0 < i then
              decide ((decide ((path.getD (i - 1) (Pos.new 0 0)).y = pos.y)) ≠ is_horizontal)
            else false
          if is_turn ∧ 0 < i then
            g.sie pos.x pos.y (determine_corner (path.getD (i - 1) (Pos.new 0 0)) pos next chars)
          else if is_horizontal then g.slm pos.x pos.y h_char true jchars
          else g.slm pos.x pos.y v_char false jchars)
      g

/-- `draw_horizontal_edge` (LR/RL routing, straight or L/Z-shaped). -/
def draw_horizontal_edge (g : Grid) (start_x start_y end_x end_y : Nat)
    (h_char v_char arrow_char : Char) (direction : Direction)
    (label : Option String) (chars : CharSet) (from_id to_id : String)
    (dropped : List DroppedLabel) (next_marker : Nat) :
    Grid × List DroppedLabel × Nat :=
  let jchars := chars.to_junction_chars
  if start_y = end_y then
    let from_x := if start_x < end_x then start_x else end_x
    let to_x := if start_x < end_x then end_x else start_x
    let g := (rng from_x to_x).foldl (fun g x => g.slm x start_y h_char true jchars) g
    let g :=
      if start_x < end_x then g.sie (end_x - 1) end_y arrow_char
      else g.sie (end_x + 1) end_y arrow_char
    match label with
    | none => (g, dropped, next_marker)
    | some lbl =>
      let edge_len := to_x - from_x
      if display_width lbl ≤ edge_len then
        let label_x := from_x + (edge_len - display_width lbl) / 2
        (lbl.data.enum.foldl (fun (g : Grid) (p : Nat × Char) => g.sie (label_x + p.1) start_y p.2) g,
         dropped, next_marker)
      else
        let marker_text := "[" ++ toString next_marker ++ "]"
        let g :=
          if marker_text.length ≤ edge_len then
            let marker_x := from_x + (edge_len - marker_text.length) / 2
            marker_text.data.enum.foldl (fun (g : Grid) (p : Nat × Char) => g.sie (marker_x + p.1) start_y p.2) g
          else g
        (g, dropped ++ [(⟨marker_text, lbl, from_id, to_id⟩ : DroppedLabel)], next_marker + 1)
  else
    let mid_x := start_x + (end_x - start_x) / 2
    let is_lr := direction = Direction.LR
    let from_x := if start_x < mid_x then start_x else mid_x
    let to_x := if start_x < mid_x then mid_x else start_x
    let g := (rng from_x to_x).foldl (fun g x => g.slm x start_y h_char true jchars) g
    let corner1 :=
      if start_y < end_y then (if is_lr then chars.tr else chars.tl)
      else if is_lr then chars.br
      else chars.bl
    let g := g.sie mid_x start_y corner1
    let from_y := if start_y < end_y then start_y + 1 else end_y + 1
    let to_y := if start_y < end_y then end_y else start_y
    let g := (rng from_y to_y).foldl (fun g y => g.slm mid_x y v_char false jchars) g
    let labelStep :=
      match label with
      | none => (g, dropped, next_marker)
      | some lbl =>
        let vert_len := to_y - from_y
        if 0 < vert_len then
          let label_y := from_y + vert_len / 2
          (lbl.data.enum.foldl (fun (g : Grid) (p : Nat × Char) => g.sie (mid_x + 1 + p.1) label_y p.2) g,
           dropped, next_marker)
        else
          let marker_text := "[" ++ toString next_marker ++ "]"
          (g, dropped ++ [(⟨marker_text, lbl, from_id, to_id⟩ : DroppedLabel)], next_marker + 1)
    let g := labelStep.1
    let corner2 :=
      if start_y < end_y then (if is_lr then chars.bl else chars.br)
      else if is_lr then chars.tl
      else chars.tr
    let g := g.sie mid_x end_y corner2
    let from_x2 := if mid_x < end_x then mid_x + 1 else end_x
    let to_x2 := if mid_x < end_x then end_x else mid_x
    let g := (rng from_x2 to_x2).foldl (fun g x => g.slm x end_y h_char true jchars) g
    let g :=
      if mid_x < end_x then g.sie (end_x - 1) end_y arrow_char
      else g.sie (end_x + 1) end_y arrow_char
    (g, labelStep.2.1, labelStep.2.2)

/-- `draw_vertical_edge` (TB/BT routing, straight or L/Z-shaped). -/
def draw_vertical_edge (g : Grid) (start_x start_y end_x end_y : Nat)
    (h_char v_char arrow_char : Char) (direction : Direction)
    (label : Option String) (chars : CharSet) (from_id to_id : String)
    (dropped : List DroppedLabel) (next_marker : Nat) :
    Grid × List DroppedLabel × Nat :=
  let jchars := chars.to_junction_chars
  if start_x = end_x then
    let from_y := if start_y < end_y then start_y else end_y
    let to_y := if start_y < end_y then end_y else start_y
    let g := (rng from_y to_y).foldl (fun g y => g.slm start_x y v_char false jchars) g
    let g :=
      if start_y < end_y then g.sie end_x (end_y - 1) arrow_char
      else g.sie end_x (end_y + 1) arrow_char
    match label with
    | none => (g, dropped, next_marker)
    | some lbl =>
      let edge_len := to_y - from_y
      if 0 < edge_len then
        let label_y := from_y + edge_len / 2
        (lbl.data.enum.foldl (fun (g : Grid) (p : Nat × Char) => g.sie (start_x + 1 + p.1) label_y p.2) g,
         dropped, next_marker)
      else
        let marker_text := "[" ++ toString next_marker ++ "]"
        (g, dropped ++ [(⟨marker_text, lbl, from_id, to_id⟩ : DroppedLabel)], next_marker + 1)
  else
    let mid_y := start_y + (end_y - start_y) / 2
    let is_tb := direction = Direction.TB
    let from_y := if start_y < mid_y then start_y else mid_y
    let to_y := if start_y < mid_y then mid_y else start_y
    let g := (rng from_y to_y).foldl (fun g y => g.slm start_x y v_char false jchars) g
    let corner1 :=
      if start_x < end_x then (if is_tb then chars.bl else chars.tl)
      else if is_tb then chars.br
      else chars.tr
    let g := g.sie start_x mid_y corner1
    let from_x := if start_x < end_x then start_x + 1 else end_x + 1
    let to_x := if start_x < end_x then end_x else start_x
    let g := (rng from_x to_x).foldl (fun g x => g.slm x mid_y h_char true jchars) g
    let labelStep :=
      match label with
      | none => (g, dropped, next_marker)
      | some lbl =>
        let horiz_len := to_x - from_x
        if display_width lbl ≤ horiz_len then
          let label_x := from_x + (horiz_len - display_width lbl) / 2
          (lbl.data.enum.foldl (fun (g : Grid) (p : Nat × Char) => g.sie (label_x + p.1) mid_y p.2) g,
           dropped, next_marker)
        else
          let vert_len := mid_y - start_y
          if 0 < vert_len then
            let label_y := start_y + vert_len / 2
            (lbl.data.enum.foldl (fun (g : Grid) (p : Nat × Char) => g.sie (start_x + 1 + p.1) label_y p.2) g,
             dropped, next_marker)
          else
            let marker_text := "[" ++ toString next_marker ++ "]"
            let g :=
              if marker_text.length ≤ horiz_len then
                let marker_x := from_x + (horiz_len - marker_text.length) / 2
                marker_text.data.enum.foldl (fun (g : Grid) (p : Nat × Char) => g.sie (marker_x + p.1) mid_y p.2) g
              else g
            (g, dropped ++ [(⟨marker_text, lbl, from_id, to_id⟩ : DroppedLabel)], next_marker + 1)
    let g := labelStep.1
    let corner2 :=
      if start_x < end_x then (if is_tb then chars.tr else chars.br)
      else if is_tb then chars.tl
      else chars.bl
    let g := g.sie end_x mid_y corner2
    let from_y2 := if mid_y < end_y then mid_y + 1 else end_y
    let to_y2 := if mid_y < end_y then end_y else mid_y
    let g := (rng from_y2 to_y2).foldl (fun g y => g.slm end_x y v_char false jchars) g
    let g :=
      if mid_y < end_y then g.sie end_x (end_y - 1) arrow_char
      else g.sie end_x (end_y + 1) arrow_char
    (g, labelStep.2.1, labelStep.2.2)

/-- The anchor points and arrow glyph chosen by `draw_edge` for a
direction. -/
def edgeAnchors (direction : Direction) (fromN toN : Node) (has_arrow : Bool)
    (h_char v_char : Char) (chars : CharSet) : Nat × Nat × Nat × Nat × Char :=
  match direction with
  | Direction.LR =>
    (fromN.x + fromN.width, fromN.y + fromN.height / 2, toN.x, toN.y + toN.height / 2,
     if has_arrow then chars.arr_r else h_char)
  | Direction.RL =>
    (fromN.x, fromN.y + fromN.height / 2, toN.x + toN.width, toN.y + toN.height / 2,
     if has_arrow then chars.arr_l else h_char)
  | Direction.TB =>
    (fromN.x + fromN.width / 2, fromN.y + fromN.height, toN.x + toN.width / 2, toN.y,
     if has_arrow then chars.arr_d else v_char)
  | Direction.BT =>
    (fromN.x + fromN.width / 2, fromN.y, toN.x + toN.width / 2, toN.y + toN.height,
     if has_arrow then chars.arr_u else v_char)

/-- `draw_edge`: A* routing when the anchors differ on both axes,
manual L-shaped routing otherwise or on A* failure. -/
def draw_edge (g : Grid) (path_grid : PathGrid) (fromN toN : Node) (e : Edge)
    (chars : CharSet) (direction : Direction) (ascii : Bool)
    (dropped : List DroppedLabel) (next_marker : Nat) :
    Grid × List DroppedLabel × Nat :=
  let has_arrow := style_has_arrow e.style
  let hv := get_edge_chars e.style chars ascii
  let h_char := hv.1
  let v_char := hv.2
  let a := edgeAnchors direction fromN toN has_arrow h_char v_char chars
  let start_x := a.1
  let start_y := a.2.1
  let end_x := a.2.2.1
  let end_y := a.2.2.2.1
  let arrow_char := a.2.2.2.2
  let fallback := fun (g : Grid) =>
    if direction.is_horizontal then
      draw_horizontal_edge g start_x start_y end_x end_y h_char v_char arrow_char
        direction e.label chars e.fromId e.toId dropped next_marker
    else
      draw_vertical_edge g start_x start_y end_x end_y h_char v_char arrow_char
        direction e.label chars e.fromId e.toId dropped next_marker
  if start_x ≠ end_x ∧ start_y ≠ end_y then
    match path_grid.find_path (Pos.new start_x start_y) (Pos.new end_x end_y) with
    | some path =>
      let g := draw_astar_path g path h_char v_char arrow_char chars
      match e.label with
      | some lbl =>
        if 2 < path.length then
          let mid_pos := path.getD (path.length / 2) (Pos.new 0 0)
          (lbl.data.enum.foldl (fun (g : Grid) (p : Nat × Char) => g.sie (mid_pos.x + 1 + p.1) mid_pos.y p.2) g,
           dropped, next_marker)
        else
          let marker_text := "[" ++ toString next_marker ++ "]"
          (g, dropped ++ [(⟨marker_text, lbl, e.fromId, e.toId⟩ : DroppedLabel)], next_marker + 1)
      | none => (g, dropped, next_marker)
    | none => fallback g
  else fallback g

/-! ## Render orchestrator (src/renderer/mod.rs) -/

/-- `build_path_grid`: nodes and subgraph borders become obstacles. -/
def build_path_grid (g : Graph) (width height : Nat) : PathGrid :=
  let pg := g.nodes.foldl
    (fun pg p => pg.block_rect p.2.x p.2.y p.2.width p.2.height)
    (PathGrid.new width height)
  g.subgraphs.foldl
    (fun pg sg =>
      if 0 < sg.width ∧ 0 < sg.height then
        (((pg.block_rect sg.x sg.y sg.width 1).block_rect
            sg.x (sg.y + sg.height - 1) sg.width 1).block_rect
          sg.x sg.y 1 sg.height).block_rect (sg.x + sg.width - 1) sg.y 1 sg.height
      else pg)
    pg

/-- The edge loop of `render_graph`: draw every edge whose two
endpoints exist in `nodes`, threading the grid, the dropped-label list
and the next marker number. -/
def renderEdges (g : Graph) (path_grid : PathGrid) (chars : CharSet) (ascii : Bool)
    (s0 : Grid × List DroppedLabel × Nat) : Grid × List DroppedLabel × Nat :=
  g.edges.foldl
    (fun (s : Grid × List DroppedLabel × Nat) e =>
      match alookup g.nodes e.fromId, alookup g.nodes e.toId with
      | some fromN, some toN =>
        draw_edge s.1 path_grid fromN toN e chars g.direction ascii s.2.1 s.2.2
      | _, _ => s)
    s0

/-- One line of the `max_width` post-processing step. -/
def truncateLine (max_width : Nat) (line : String) : String :=
  if max_width < line.length then ⟨line.data.take (max_width - 1) ++ ['…']⟩
  else line

/-- The `max_width` post-processing applied to the grid output
(the legend is appended afterwards and is not truncated). -/
def truncateOutput (s : String) (max_width : Nat) : String :=
  String.intercalate "\n" ((splitLines s).map (truncateLine max_width))

/-- The trailing "Labels:" legend block for dropped labels. -/
def legendText (dropped : List DroppedLabel) : String :=
  "\nLabels:" ++ String.join (dropped.map (fun dl => "\n  " ++ dl.marker ++ " " ++ dl.label))

/-- The grid-drawing part of `render_graph`: subgraphs, then nodes in
id order, then edges whose two endpoints exist; returns the serialized
grid together with the dropped-label list. -/
def renderGridString (g : Graph) (options : RenderOptions) : String × List DroppedLabel :=
  let chars := if options.ascii then ASCII_CHARS else UNICODE_CHARS
  let sorted_nodes := sortBy (fun a b => strLe a.id b.id) (g.nodes.map Prod.snd)
  let max_x := g.subgraphs.foldl (fun m sg => max m (sg.x + sg.width))
    (sorted_nodes.foldl (fun m n => max m (n.x + n.width)) 0)
  let max_y := g.subgraphs.foldl (fun m sg => max m (sg.y + sg.height))
    (sorted_nodes.foldl (fun m n => max m (n.y + n.height)) 0)
  let grid := Grid.new (max_x + 2) (max_y + 2)
  let grid := g.subgraphs.foldl
    (fun gr sg => protect_subgraph_borders (draw_subgraph gr sg chars) sg) grid
  let grid := sorted_nodes.foldl (fun gr n => draw_node gr n chars) grid
  let path_grid := build_path_grid g grid.width grid.height
  let s := renderEdges g path_grid chars options.ascii (grid, ([], 1))
  (s.1.render, s.2.1)

/-- `render_graph`: the drawn grid, then width truncation and the
labels legend.  Returns the output together with the extended warning
list (the source pushes `LabelDropped` warnings into its
`&mut warnings`). -/
def renderGraph (g : Graph) (options : RenderOptions) (warnings : List DiagramWarning) :
    String × List DiagramWarning :=
  let p := renderGridString g options
  let output :=
    match options.max_width with
    | some mw => truncateOutput p.1 mw
    | none => p.1
  if p.2 = [] then (output, warnings)
  else
    (output ++ legendText p.2,
     warnings ++ p.2.map (fun dl =>
       DiagramWarning.LabelDropped dl.marker dl.fromId dl.toId dl.label))

/-- The full pipeline of `render_mermaid_to_tui` and friends
(src/lib.rs): `compute_layout_with_options` followed by `render_graph`
on the laid-out graph, threading one warning list through both. -/
def renderPipeline (g : Graph) (options : RenderOptions) :
    String × List DiagramWarning :=
  let lw := computeLayoutWithOptions g options
  renderGraph lw.1 options lw.2

/-- Well-formedness of the protection layer: one row per grid row, one
flag per grid column (established by `Grid::new`, preserved by every
operation). -/
def Grid.WFprot (g : Grid) : Prop :=
  g.protCells.length = g.height ∧ ∀ r ∈ g.protCells, r.length = g.width

/-! ## Concrete example inputs used by witnesses and counterexamples -/

/-- A fresh rectangle node whose label is its id. -/
def idNode (id : String) : NodeId × Node := (id, Node.new id id)

/-- A plain arrow edge. -/
def arrowEdge (a b : String) : Edge := ⟨a, b, none, EdgeStyle.Arrow⟩

/-- The triangle `A→B→C→A` (the worked example of the cycle claim). -/
def exTriangle : Graph :=
  ⟨Direction.LR, [idNode "A", idNode "B", idNode "C"],
   [arrowEdge "A" "B", arrowEdge "B" "C", arrowEdge "C" "A"], [], []⟩

/-- Nodes `X`, `Y` with a self-loop on `Y` and an edge to a phantom
endpoint `P ∉ nodes`. -/
def exPhantom : Graph :=
  ⟨Direction.LR, [idNode "X", idNode "Y"],
   [arrowEdge "X" "P", arrowEdge "Y" "Y"], [], []⟩

/-- The acyclic graph `X→U` (twice, a duplicate edge) and `U→V`. -/
def exDupEdge : Graph :=
  ⟨Direction.LR, [idNode "X", idNode "U", idNode "V"],
   [arrowEdge "X" "U", arrowEdge "X" "U", arrowEdge "U" "V"], [], []⟩

/-- The two-node chain `A→B`. -/
def exChain : Graph :=
  ⟨Direction.LR, [idNode "A", idNode "B"], [arrowEdge "A" "B"], [], []⟩

/-- One node whose label is three wide (CJK) characters. -/
def exWideLabel : Graph :=
  ⟨Direction.LR, [("A", Node.new "A" "中中中")], [], [], []⟩

/-- A top-to-bottom diagram whose only edge carries a label far wider
than the straight vertical run between the two nodes. -/
def exTallLabel : Graph :=
  ⟨Direction.TB, [idNode "A", idNode "B"],
   [⟨"A", "B", some "looong", EdgeStyle.Arrow⟩], [], []⟩

/-- Options with a one-row vertical gap. -/
def optsTight : RenderOptions := ⟨false, none, 8, 1, 1, false⟩

/-- A left-to-right diagram with a wide-character node label and an edge
label that cannot fit inline under `max_width = 8`. -/
def exLegend : Graph :=
  ⟨Direction.LR, [("A", Node.new "A" "中中中"), idNode "B"],
   [⟨"A", "B", some "lbllbllbl", EdgeStyle.Arrow⟩], [], []⟩

/-- Options for `exLegend`: `max_width = 8`, `padding_x = 2`. -/
def optsLegend : RenderOptions := ⟨false, some 8, 2, 4, 1, false⟩

/-- Node `A` with an edge to a missing endpoint `B`. -/
def exMissing : Graph :=
  ⟨Direction.LR, [idNode "A"], [arrowEdge "A" "B"], [], []⟩

/-- The 10×10 pathfinding grid walled at `x = 5` for `y ∈ [0, 8)`. -/
def exWallGrid : PathGrid :=
  (List.range 8).foldl (fun g y => g.block_rect 5 y 1 1) (PathGrid.new 10 10)

/-- The character stored at `(x, y)` (space out of range). -/
def Grid.cellAt (g : Grid) (x y : Nat) : Char := get2d g.cells y x ' '

/-- Well-formedness of the character layer: one row per grid row, one
cell per grid column. -/
def Grid.WFcells (g : Grid) : Prop :=
  g.cells.length = g.height ∧ ∀ r ∈ g.cells, r.length = g.width

/-- Content-only drawing preserves the grid's dimensions, protection
flags and character-layer well-formedness. -/
def GridMeta (g0 g : Grid) : Prop :=
  (g0.WFcells → g.WFcells) ∧ g.width = g0.width ∧ g.height = g0.height ∧
    ∀ a b, g.protAt a b = g0.protAt a b

/-- Two node maps agreeing pointwise on width and height (the part of a
node the coordinate-assignment pass leaves alone). -/
def SameSizes (a b : List (NodeId × Node)) : Prop :=
  ∀ id, (alookup a id).map Node.width = (alookup b id).map Node.width ∧
    (alookup a id).map Node.height = (alookup b id).map Node.height

/-! # Theorems -/

/-! ## List and association-list lemmas -/

theorem length_updateAt {α : Type} (l : List α) (i : Nat) (f : α → α) :
    (updateAt l i f).length = l.length := by
  induction l generalizing i with
  | nil => rfl
  | cons a t ih =>
    cases i with
    | zero => rfl
    | succ j => simpa [updateAt] using ih j

theorem get?_updateAt {α : Type} (l : List α) (i : Nat) (f : α → α) (j : Nat) :
    (updateAt l i f).get? j = if i = j then (l.get? j).map f else l.get? j := by
  induction l generalizing i j with
  | nil => simp [updateAt]
  | cons a t ih =>
    cases i with
    | zero => cases j <;> simp [updateAt]
    | succ i' =>
      cases j with
      | zero => simp [updateAt]
      | succ j' => simpa [updateAt] using ih i' j'

theorem get?_set' {α : Type} (l : List α) (i j : Nat) (v : α) :
    (l.set i v).get? j = if i = j ∧ i < l.length then some v else l.get? j := by
  simp only [List.get?_eq_getElem?, List.getElem?_set]
  by_cases h : i = j
  · subst h
    by_cases h2 : i < l.length
    · simp [h2]
    · simp [h2, List.getElem?_eq_none (Nat.le_of_not_lt h2)]
  · simp [h]

theorem foldl_preserve {α β : Type} {P : α → Prop} {f : α → β → α}
    (h : ∀ a b, P a → P (f a b)) : ∀ (l : List β) (a : α), P a → P (l.foldl f a) := by
  intro l
  induction l with
  | nil => intro a ha; exact ha
  | cons b t ih => intro a ha; exact ih (f a b) (h a b ha)

/-! ## Grid primitives: dimension and protection-layer preservation -/

@[simp] theorem protCells_set (g : Grid) (x y : Nat) (c : Char) :
    (g.set x y c).protCells = g.protCells := by
  unfold Grid.set; split <;> rfl

@[simp] theorem width_set (g : Grid) (x y : Nat) (c : Char) :
    (g.set x y c).width = g.width := by
  unfold Grid.set; split <;> rfl

@[simp] theorem height_set (g : Grid) (x y : Nat) (c : Char) :
    (g.set x y c).height = g.height := by
  unfold Grid.set; split <;> rfl

@[simp] theorem protCells_sie (g : Grid) (x y : Nat) (c : Char) :
    (g.sie x y c).protCells = g.protCells := by
  unfold Grid.sie Grid.set_if_empty; split <;> rfl

@[simp] theorem width_sie (g : Grid) (x y : Nat) (c : Char) :
    (g.sie x y c).width = g.width := by
  unfold Grid.sie Grid.set_if_empty; split <;> rfl

@[simp] theorem height_sie (g : Grid) (x y : Nat) (c : Char) :
    (g.sie x y c).height = g.height := by
  unfold Grid.sie Grid.set_if_empty; split <;> rfl

@[simp] theorem protCells_slm (g : Grid) (x y : Nat) (c : Char) (ih : Bool)
    (j : JunctionChars) : (g.slm x y c ih j).protCells = g.protCells := by
  unfold Grid.slm Grid.set_line_with_merge; split <;> rfl

@[simp] theorem width_slm (g : Grid) (x y : Nat) (c : Char) (ih : Bool)
    (j : JunctionChars) : (g.slm x y c ih j).width = g.width := by
  unfold Grid.slm Grid.set_line_with_merge; split <;> rfl

@[simp] theorem height_slm (g : Grid) (x y : Nat) (c : Char) (ih : Bool)
    (j : JunctionChars) : (g.slm x y c ih j).height = g.height := by
  unfold Grid.slm Grid.set_line_with_merge; split <;> rfl

@[simp] theorem width_mark_protected (g : Grid) (x y : Nat) :
    (g.mark_protected x y).width = g.width := by
  unfold Grid.mark_protected; split <;> rfl

@[simp] theorem height_mark_protected (g : Grid) (x y : Nat) :
    (g.mark_protected x y).height = g.height := by
  unfold Grid.mark_protected; split <;> rfl

@[simp] theorem cells_mark_protected (g : Grid) (x y : Nat) :
    (g.mark_protected x y).cells = g.cells := by
  unfold Grid.mark_protected; split <;> rfl

@[simp] theorem protCells_ite (c : Prop) [Decidable c] (a b : Grid) :
    (if c then a else b).protCells = if c then a.protCells else b.protCells :=
  apply_ite _ c a b

@[simp] theorem width_ite (c : Prop) [Decidable c] (a b : Grid) :
    (if c then a else b).width = if c then a.width else b.width :=
  apply_ite _ c a b

@[simp] theorem height_ite (c : Prop) [Decidable c] (a b : Grid) :
    (if c then a else b).height = if c then a.height else b.height :=
  apply_ite _ c a b

@[simp] theorem protCells_foldl {β : Type} {f : Grid → β → Grid}
    (hf : ∀ g b, (f g b).protCells = g.protCells) (l : List β) (g : Grid) :
    (l.foldl f g).protCells = g.protCells := by
  induction l generalizing g with
  | nil => rfl
  | cons b t ih => rw [List.foldl_cons, ih, hf]

@[simp] theorem width_foldl {β : Type} {f : Grid → β → Grid}
    (hf : ∀ g b, (f g b).width = g.width) (l : List β) (g : Grid) :
    (l.foldl f g).width = g.width := by
  induction l generalizing g with
  | nil => rfl
  | cons b t ih => rw [List.foldl_cons, ih, hf]

@[simp] theorem height_foldl {β : Type} {f : Grid → β → Grid}
    (hf : ∀ g b, (f g b).height = g.height) (l : List β) (g : Grid) :
    (l.foldl f g).height = g.height := by
  induction l generalizing g with
  | nil => rfl
  | cons b t ih => rw [List.foldl_cons, ih, hf]

@[simp] theorem protCells_draw_text (g : Grid) (x y : Nat) (t : String) :
    (draw_text g x y t).protCells = g.protCells := by
  unfold GraphsTui.draw_text
  exact (foldl_preserve (P := fun (s : Grid × Nat) => s.1.protCells = g.protCells)
    (fun s c hs => by simpa using hs) t.data (g, 0) rfl)

@[simp] theorem width_draw_text (g : Grid) (x y : Nat) (t : String) :
    (draw_text g x y t).width = g.width := by
  unfold GraphsTui.draw_text
  exact (foldl_preserve (P := fun (s : Grid × Nat) => s.1.width = g.width)
    (fun s c hs => by simpa using hs) t.data (g, 0) rfl)

@[simp] theorem height_draw_text (g : Grid) (x y : Nat) (t : String) :
    (draw_text g x y t).height = g.height := by
  unfold GraphsTui.draw_text
  exact (foldl_preserve (P := fun (s : Grid × Nat) => s.1.height = g.height)
    (fun s c hs => by simpa using hs) t.data (g, 0) rfl)

@[simp] theorem protCells_draw_label (g : Grid) (n : Node) :
    (draw_label g n).protCells = g.protCells := by
  unfold GraphsTui.draw_label; simp

@[simp] theorem width_draw_label (g : Grid) (n : Node) :
    (draw_label g n).width = g.width := by
  unfold GraphsTui.draw_label; simp

@[simp] theorem height_draw_label (g : Grid) (n : Node) :
    (draw_label g n).height = g.height := by
  unfold GraphsTui.draw_label; simp

@[simp] theorem protCells_shapeDraw (g : Grid) (n : Node) (chars : CharSet) :
    (shapeDraw g n chars).protCells = g.protCells := by
  unfold shapeDraw
  cases n.shape <;>
    simp [draw_rectangle, draw_rounded, draw_circle, draw_diamond, draw_cylinder,
      draw_stadium, draw_subroutine, draw_hexagon, draw_parallelogram, draw_trapezoid,
      draw_table, draw_person, draw_cloud, draw_document]

@[simp] theorem width_shapeDraw (g : Grid) (n : Node) (chars : CharSet) :
    (shapeDraw g n chars).width = g.width := by
  unfold shapeDraw
  cases n.shape <;>
    simp [draw_rectangle, draw_rounded, draw_circle, draw_diamond, draw_cylinder,
      draw_stadium, draw_subroutine, draw_hexagon, draw_parallelogram, draw_trapezoid,
      draw_table, draw_person, draw_cloud, draw_document]

@[simp] theorem height_shapeDraw (g : Grid) (n : Node) (chars : CharSet) :
    (shapeDraw g n chars).height = g.height := by
  unfold shapeDraw
  cases n.shape <;>
    simp [draw_rectangle, draw_rounded, draw_circle, draw_diamond, draw_cylinder,
      draw_stadium, draw_subroutine, draw_hexagon, draw_parallelogram, draw_trapezoid,
      draw_table, draw_person, draw_cloud, draw_document]

/-! ## Protection marking -/

theorem mem_updateAt {α : Type} : ∀ (l : List α) (i : Nat) (f : α → α) (r : α),
    r ∈ updateAt l i f → r ∈ l ∨ ∃ a ∈ l, r = f a
  | [], _, f, r => by simp [updateAt]
  | a :: t, 0, f, r => by
    intro h
    rcases List.mem_cons.mp (by simpa [updateAt] using h) with h | h
    · exact Or.inr ⟨a, List.mem_cons_self a t, h⟩
    · exact Or.inl (List.mem_cons_of_mem a h)
  | a :: t, i + 1, f, r => by
    intro h
    rcases List.mem_cons.mp (by simpa [updateAt] using h) with h | h
    · exact Or.inl (h ▸ List.mem_cons_self a t)
    · rcases mem_updateAt t i f r h with h' | ⟨b, hb, hr⟩
      · exact Or.inl (List.mem_cons_of_mem a h')
      · exact Or.inr ⟨b, List.mem_cons_of_mem a hb, hr⟩

theorem WFprot_mark_protected (g : Grid) (x y : Nat) (h : g.WFprot) :
    (g.mark_protected x y).WFprot := by
  unfold Grid.mark_protected
  split
  · obtain ⟨hlen, hrows⟩ := h
    refine ⟨?_, ?_⟩
    · simpa [set2d, length_updateAt] using hlen
    · intro r hr
      rcases mem_updateAt _ _ _ _ hr with hr' | ⟨a, ha, hra⟩
      · exact hrows r hr'
      · rw [hra]
        simpa [List.length_set] using hrows a ha
  · exact h

theorem protAt_mark_protected_self (g : Grid) (x y : Nat) (hwf : g.WFprot)
    (hx : x < g.width) (hy : y < g.height) :
    (g.mark_protected x y).protAt x y = true := by
  unfold Grid.mark_protected
  rw [if_pos ⟨hx, hy⟩]
  obtain ⟨hlen, hrows⟩ := hwf
  have hy' : y < g.protCells.length := by rw [hlen]; exact hy
  obtain ⟨row, hrow⟩ : ∃ row, g.protCells.get? y = some row :=
    ⟨_, List.get?_eq_get hy'⟩
  have hmem : row ∈ g.protCells := List.get?_mem hrow
  have hxlen : x < row.length := by rw [hrows row hmem]; exact hx
  unfold Grid.protAt get2d set2d
  rw [get?_updateAt, if_pos rfl, hrow]
  simp [get?_set', hxlen]

theorem protAt_mark_protected_mono (g : Grid) (a b x y : Nat)
    (h : g.protAt x y = true) : (g.mark_protected a b).protAt x y = true := by
  unfold Grid.mark_protected
  split
  · simp only [Grid.protAt, get2d, set2d] at h ⊢
    rw [get?_updateAt]
    by_cases hb : b = y
    · subst hb
      rw [if_pos rfl]
      cases hrow : g.protCells.get? b with
      | none => rw [hrow] at h; simp at h
      | some row =>
        rw [hrow] at h
        simp only [Option.map_some', Option.some_bind] at h ⊢
        rw [get?_set']
        split
        · simp
        · exact h
    · rw [if_neg hb]; exact h
  · exact h

theorem protect_row_mono (g : Grid) (y' x y : Nat) (xs : List Nat)
    (h : g.protAt x y = true) :
    ((xs.foldl (fun g x => g.mark_protected x y') g).protAt x y) = true := by
  induction xs generalizing g with
  | nil => exact h
  | cons a t ih => exact ih _ (protAt_mark_protected_mono g a y' x y h)

theorem protect_row_wf (g : Grid) (y' : Nat) (xs : List Nat) (h : g.WFprot) :
    (xs.foldl (fun g x => g.mark_protected x y') g).WFprot := by
  induction xs generalizing g with
  | nil => exact h
  | cons a t ih => exact ih _ (WFprot_mark_protected g a y' h)

theorem protect_row_marks : ∀ (xs : List Nat) (g : Grid) (y x : Nat), x ∈ xs →
    g.WFprot → x < g.width → y < g.height →
    ((xs.foldl (fun g x => g.mark_protected x y) g).protAt x y) = true
  | [], g, y, x, hmem, _, _, _ => by cases hmem
  | a :: t, g, y, x, hmem, hwf, hx, hy => by
    rw [List.foldl_cons]
    rcases List.mem_cons.mp hmem with rfl | hmem'
    · exact protect_row_mono _ y x y t (protAt_mark_protected_self g x y hwf hx hy)
    · exact protect_row_marks t _ y x hmem' (WFprot_mark_protected g a y hwf)
        (by simpa using hx) (by simpa using hy)

theorem protect_rows_mono (xs : List Nat) : ∀ (ys : List Nat) (g : Grid) (x y : Nat),
    g.protAt x y = true →
    ((ys.foldl (fun g y' => xs.foldl (fun g x' => g.mark_protected x' y') g) g).protAt
      x y) = true
  | [], _, _, _, h => h
  | b :: t, g, x, y, h =>
    protect_rows_mono xs t _ x y (protect_row_mono g b x y xs h)

theorem protect_rows_marks (xs : List Nat) : ∀ (ys : List Nat) (g : Grid) (x y : Nat),
    x ∈ xs → y ∈ ys → g.WFprot → x < g.width → y < g.height →
    ((ys.foldl (fun g y' => xs.foldl (fun g x' => g.mark_protected x' y') g) g).protAt
      x y) = true
  | [], _, _, _, _, hyin, _, _, _ => by cases hyin
  | b :: t, g, x, y, hxin, hyin, hwf, hx, hy => by
    rw [List.foldl_cons]
    rcases List.mem_cons.mp hyin with rfl | hmem'
    · exact protect_rows_mono xs t _ x y (protect_row_marks xs g y x hxin hwf hx hy)
    · exact protect_rows_marks xs t _ x y hxin hmem' (protect_row_wf g b xs hwf)
        (by simpa using hx) (by simpa using hy)

theorem protect_node_area_marks (g : Grid) (n : Node) (x y : Nat)
    (hwf : g.WFprot) (hx1 : n.x ≤ x) (hx2 : x < n.x + n.width)
    (hy1 : n.y ≤ y) (hy2 : y < n.y + n.height)
    (hx : x < g.width) (hy : y < g.height) :
    (protect_node_area g n).protAt x y = true := by
  unfold protect_node_area
  refine protect_rows_marks _ _ g x y ?_ ?_ hwf hx hy
  · unfold rng
    rw [List.mem_range'_1]
    omega
  · unfold rng
    rw [List.mem_range'_1]
    omega

theorem set_if_empty_blocked (g : Grid) (x y : Nat) (c : Char)
    (h : g.protAt x y = true ∨ g.width ≤ x ∨ g.height ≤ y) :
    g.set_if_empty x y c = (g, false) := by
  unfold Grid.set_if_empty
  rw [if_neg]
  rintro ⟨hx, hy, hp⟩
  rcases h with h | h | h
  · rw [h] at hp; cases hp
  · omega
  · omega

theorem set_line_with_merge_blocked (g : Grid) (x y : Nat) (c : Char) (ih : Bool)
    (j : JunctionChars) (h : g.protAt x y = true ∨ g.width ≤ x ∨ g.height ≤ y) :
    g.set_line_with_merge x y c ih j = (g, false) := by
  unfold Grid.set_line_with_merge
  rw [if_pos]
  rcases h with h | h | h
  · exact Or.inr (Or.inr h)
  · exact Or.inl h
  · exact Or.inr (Or.inl h)

/-- **C5** (confirmed): once a node has been drawn by `draw_node`, every
cell of its bounding box `x..x+width × y..y+height` that lies on the
grid is marked protected; and neither of the two edge-drawing writes can
change a protected (or out-of-bounds) cell: `set_if_empty` and
`set_line_with_merge` both return `false` and leave the grid unchanged
there. -/
theorem c5_protection_invariant (g : Grid) (n : Node) (chars : CharSet)
    (hwf : g.WFprot) :
    (∀ x y, n.x ≤ x → x < n.x + n.width → n.y ≤ y → y < n.y + n.height →
        x < g.width → y < g.height → (draw_node g n chars).protAt x y = true) ∧
    (∀ (g' : Grid) (x y : Nat) (c : Char),
        g'.protAt x y = true ∨ g'.width ≤ x ∨ g'.height ≤ y →
        g'.set_if_empty x y c = (g', false)) ∧
    (∀ (g' : Grid) (x y : Nat) (c : Char) (ih : Bool) (j : JunctionChars),
        g'.protAt x y = true ∨ g'.width ≤ x ∨ g'.height ≤ y →
        g'.set_line_with_merge x y c ih j = (g', false)) := by
  refine ⟨?_, fun g' x y c h => set_if_empty_blocked g' x y c h,
    fun g' x y c ih j h => set_line_with_merge_blocked g' x y c ih j h⟩
  intro x y hx1 hx2 hy1 hy2 hx hy
  unfold draw_node
  have hwf' : (shapeDraw g n chars).WFprot := by
    unfold Grid.WFprot at hwf ⊢
    simpa using hwf
  exact protect_node_area_marks _ n x y hwf' hx1 hx2 hy1 hy2
    (by simpa using hx) (by simpa using hy)

/-- Witness for C5 at a concrete grid and node. -/
theorem c5_protection_invariant_witness :
    (Grid.new 5 4).WFprot ∧
      (draw_node (Grid.new 5 4)
        (⟨"N", "N", NodeShape.Rectangle, none, [], 3, 2, 1, 1, none⟩ : Node)
        UNICODE_CHARS).protAt 2 1 = true :=
  ⟨by unfold Grid.WFprot; exact ⟨by decide, by decide⟩,
    (c5_protection_invariant (Grid.new 5 4)
      (⟨"N", "N", NodeShape.Rectangle, none, [], 3, 2, 1, 1, none⟩ : Node)
      UNICODE_CHARS (by unfold Grid.WFprot; exact ⟨by decide, by decide⟩)).1 2 1 (by decide) (by decide) (by decide) (by decide)
      (by decide) (by decide)⟩

/-! ## Node sizing (claim C8) -/

theorem alookup_ainsert {α β : Type} [DecidableEq α] (l : List (α × β)) (k : α) (v : β)
    (k' : α) : alookup (ainsert l k v) k' = if k = k' then some v else alookup l k' := by
  induction l with
  | nil => simp [ainsert, alookup]
  | cons p t ih =>
    obtain ⟨pk, pv⟩ := p
    by_cases hk : pk = k
    · subst hk
      simp only [ainsert, if_pos rfl]
      by_cases hk' : pk = k'
      · simp [alookup, hk']
      · simp [alookup, hk']
    · simp only [ainsert, if_neg hk]
      by_cases hk' : pk = k'
      · have : ¬ k = k' := fun h => hk (h ▸ hk')
        simp [alookup, hk', this]
      · simp [alookup, hk', ih]

theorem alookup_map_val {α β γ : Type} [DecidableEq α] (l : List (α × β)) (f : β → γ)
    (k : α) : alookup (l.map (fun p => (p.1, f p.2))) k = (alookup l k).map f := by
  induction l with
  | nil => rfl
  | cons p t ih =>
    by_cases hk : p.1 = k
    · simp [alookup, hk]
    · simp [alookup, hk, ih]

theorem SameSizes.refl (a : List (NodeId × Node)) : SameSizes a a :=
  fun _ => ⟨Eq.refl _, Eq.refl _⟩

theorem SameSizes.update {nodes base : List (NodeId × Node)} (hS : SameSizes nodes base)
    {id : NodeId} {n n' : Node} (h : alookup nodes id = some n)
    (hw : n'.width = n.width) (hh : n'.height = n.height) :
    SameSizes (ainsert nodes id n') base := by
  intro id'
  rw [alookup_ainsert]
  by_cases hid : id = id'
  · subst hid
    rw [if_pos rfl]
    obtain ⟨h1, h2⟩ := hS id
    rw [h] at h1 h2
    simp only [Option.map_some'] at h1 h2 ⊢
    exact ⟨by rw [hw]; exact h1, by rw [hh]; exact h2⟩
  · rw [if_neg hid]
    exact hS id'

theorem sizes_assignCoordinates (g : Graph) (layers : List (NodeId × Nat))
    (hg vg : Nat) : SameSizes (assignCoordinates g layers hg vg).nodes g.nodes := by
  unfold assignCoordinates
  split <;>
  · refine foldl_preserve (P := fun (s : Nat × List (NodeId × Node)) =>
      SameSizes s.2 g.nodes) ?_ _ _ (SameSizes.refl g.nodes)
    intro s l hs
    dsimp only
    refine foldl_preserve (P := fun (t : Nat × List (NodeId × Node)) =>
      SameSizes t.2 g.nodes) ?_ _ _ hs
    intro t id ht
    dsimp only
    split
    case h_1 n heq => exact SameSizes.update ht heq rfl rfl
    case h_2 => exact ht

theorem nodes_computeSubgraphBounds (g : Graph) :
    (computeSubgraphBounds g).nodes = g.nodes := rfl

theorem alookup_layout_nodes (g : Graph) (o : RenderOptions) (id : NodeId) :
    ((alookup (computeLayoutWithOptions g o).1.nodes id).map Node.width
        = (alookup g.nodes id).map (fun n => (sizeNode (o.border_padding * 2) n).width)) ∧
    ((alookup (computeLayoutWithOptions g o).1.nodes id).map Node.height
        = (alookup g.nodes id).map (fun n => (sizeNode (o.border_padding * 2) n).height)) := by
  unfold computeLayoutWithOptions
  rw [nodes_computeSubgraphBounds]
  obtain ⟨h1, h2⟩ := sizes_assignCoordinates
    { g with nodes := g.nodes.map (fun p => (p.1, sizeNode (o.border_padding * 2) p.2)) }
    (assignLayers
      { g with nodes := g.nodes.map (fun p => (p.1, sizeNode (o.border_padding * 2) p.2)) }).1
    (calculate_gaps
      { g with nodes := g.nodes.map (fun p => (p.1, sizeNode (o.border_padding * 2) p.2)) }
      (assignLayers
        { g with nodes := g.nodes.map (fun p => (p.1, sizeNode (o.border_padding * 2) p.2)) }).1
      o).1
    (calculate_gaps
      { g with nodes := g.nodes.map (fun p => (p.1, sizeNode (o.border_padding * 2) p.2)) }
      (assignLayers
        { g with nodes := g.nodes.map (fun p => (p.1, sizeNode (o.border_padding * 2) p.2)) }).1
      o).2 id
  refine ⟨?_, ?_⟩
  · rw [h1]
    show (alookup (g.nodes.map (fun p => (p.1, sizeNode (o.border_padding * 2) p.2))) id).map
      Node.width = _
    rw [alookup_map_val, Option.map_map]
    rfl
  · rw [h2]
    show (alookup (g.nodes.map (fun p => (p.1, sizeNode (o.border_padding * 2) p.2))) id).map
      Node.height = _
    rw [alookup_map_val, Option.map_map]
    rfl

theorem sizeNode_width (tp : Nat) (n : Node) :
    (sizeNode tp n).width =
      if n.shape = NodeShape.Table ∧ n.fields ≠ [] then
        n.fields.foldl (fun w f => max w (format_field_width f + 2 + tp))
          (max (n.label.length + tp) MIN_NODE_WIDTH)
      else max (n.label.length + tp) MIN_NODE_WIDTH := by
  unfold sizeNode
  by_cases ht : n.shape = NodeShape.Table ∧ n.fields ≠ []
  · rw [if_pos ht, if_pos ht]
  · rw [if_neg ht, if_neg ht]

theorem sizeNode_height (tp : Nat) (n : Node) :
    (sizeNode tp n).height =
      if n.shape = NodeShape.Table ∧ n.fields ≠ [] then 3 + n.fields.length
      else if n.shape = NodeShape.Cylinder then 5 else 3 := by
  unfold sizeNode
  by_cases ht : n.shape = NodeShape.Table ∧ n.fields ≠ []
  · rw [if_pos ht, if_pos ht]
  · rw [if_neg ht, if_neg ht]; rfl

/-- **C8** (corrected): after `compute_layout_with_options`, every
node's size satisfies: width = `max(MIN_WIDTH, label.chars().count() +
2×border_padding)` — the source measures the label with
`chars().count()`, not `display_width`, which is what the original claim
said — further widened for a `Table` node with fields to fit the longest
formatted field line; height = 3 for all shapes except 5 for `Cylinder`
and `3 + field_count` for a `Table` node with a non-empty field list. -/
theorem c8_sizing (g : Graph) (o : RenderOptions) (id : NodeId) (n0 n : Node)
    (h0 : alookup g.nodes id = some n0)
    (h : alookup (computeLayoutWithOptions g o).1.nodes id = some n) :
    (n.width =
      if n0.shape = NodeShape.Table ∧ n0.fields ≠ [] then
        n0.fields.foldl (fun w f => max w (format_field_width f + 2 + o.border_padding * 2))
          (max (n0.label.length + o.border_padding * 2) MIN_NODE_WIDTH)
      else max (n0.label.length + o.border_padding * 2) MIN_NODE_WIDTH) ∧
    (n.height =
      if n0.shape = NodeShape.Table ∧ n0.fields ≠ [] then 3 + n0.fields.length
      else if n0.shape = NodeShape.Cylinder then 5 else 3) := by
  obtain ⟨h1, h2⟩ := alookup_layout_nodes g o id
  rw [h, h0, Option.map_some', Option.map_some'] at h1 h2
  have hw : n.width = (sizeNode (o.border_padding * 2) n0).width := by
    injection h1
  have hh : n.height = (sizeNode (o.border_padding * 2) n0).height := by
    injection h2
  rw [hw, hh, sizeNode_width, sizeNode_height]
  exact ⟨rfl, rfl⟩

/-- Counterexample to C8 as stated: the node labelled `中中中` (three
wide characters) is laid out with width 5, but the original claim's
`display_width` formula demands `max(5, 6 + 2) = 8`. -/
theorem c8_counterexample :
    (alookup (computeLayoutWithOptions exWideLabel RenderOptions.default).1.nodes "A").map
        Node.width = some 5 ∧
    max (display_width "中中中" + RenderOptions.default.border_padding * 2)
      MIN_NODE_WIDTH = 8 := by
  exact ⟨by decide, by decide⟩

/-- Witness for C8 at the concrete chain graph. -/
theorem c8_sizing_witness :
    alookup exChain.nodes "A" = some (Node.new "A" "A") ∧
    alookup (computeLayoutWithOptions exChain RenderOptions.default).1.nodes "A"
      = some (⟨"A", "A", NodeShape.Rectangle, none, [], 5, 3, 0, 0, none⟩ : Node) ∧
    (⟨"A", "A", NodeShape.Rectangle, none, [], 5, 3, 0, 0, none⟩ : Node).width = 5 :=
  ⟨by decide, by decide,
    by
      have := (c8_sizing exChain RenderOptions.default "A" (Node.new "A" "A")
        (⟨"A", "A", NodeShape.Rectangle, none, [], 5, 3, 0, 0, none⟩ : Node)
        (by decide) (by decide)).1
      exact this.trans (by decide)⟩

/-! ## Missing edge endpoints (claim C9) -/

theorem foldl_filter_id {α β : Type} (p : β → Bool) (f : α → β → α)
    (h : ∀ a b, p b = false → f a b = a) :
    ∀ (l : List β) (a : α), l.foldl f a = (l.filter p).foldl f a := by
  intro l
  induction l with
  | nil => intro a; rfl
  | cons b t ih =>
    intro a
    cases hp : p b with
    | true => simp [List.filter_cons, hp, ih]
    | false => simp [List.filter_cons, hp, ih, h a b hp]

theorem build_path_grid_set_edges (g : Graph) (E : List Edge) (w h : Nat) :
    build_path_grid { g with edges := E } w h = build_path_grid g w h := rfl

theorem renderEdges_skip (g : Graph) (pg : PathGrid) (ch : CharSet) (a : Bool)
    (s0 : Grid × List DroppedLabel × Nat) :
    renderEdges g pg ch a s0 =
      renderEdges
        { g with edges := g.edges.filter (fun e =>
            (alookup g.nodes e.fromId).isSome && (alookup g.nodes e.toId).isSome) }
        pg ch a s0 := by
  unfold renderEdges
  dsimp only
  exact foldl_filter_id _ _
    (fun s e hp => by
      cases h1 : alookup g.nodes e.fromId with
      | none => simp [h1]
      | some fromN =>
        cases h2 : alookup g.nodes e.toId with
        | none => simp [h1, h2]
        | some toN => rw [h1, h2] at hp; simp at hp)
    g.edges s0

/-- **C9** (corrected): the pipeline does **not** auto-create missing
edge endpoints.  Layout never adds a node id, and `render_graph` simply
skips every edge with a missing endpoint: the output and warnings are
unchanged when those edges are deleted up front. -/
theorem c9_missing_endpoints (g : Graph) (o : RenderOptions)
    (w : List DiagramWarning) (id : NodeId) :
    ((alookup (computeLayoutWithOptions g o).1.nodes id).isSome
        = (alookup g.nodes id).isSome) ∧
    renderGraph g o w =
      renderGraph
        { g with edges := g.edges.filter (fun e =>
            (alookup g.nodes e.fromId).isSome && (alookup g.nodes e.toId).isSome) }
        o w := by
  constructor
  · have h1 := (alookup_layout_nodes g o id).1
    have : ((alookup (computeLayoutWithOptions g o).1.nodes id).map Node.width).isSome
        = ((alookup g.nodes id).map
            (fun n => (sizeNode (o.border_padding * 2) n).width)).isSome := by rw [h1]
    simpa using this
  · have hsame : renderGridString g o =
        renderGridString
          { g with edges := g.edges.filter (fun e =>
              (alookup g.nodes e.fromId).isSome && (alookup g.nodes e.toId).isSome) }
          o := by
      unfold renderGridString
      dsimp only
      rw [renderEdges_skip]
      simp only [build_path_grid_set_edges]
    unfold renderGraph
    rw [hsame]

/-! ## Determinism (claim C1) -/

/-- **C1** (confirmed): the full pipeline —
`compute_layout_with_options` followed by `render_graph` — is a pure
function of the graph and the options: two runs on equal inputs produce
the same output string and the same warning list.  (All iteration of
the source that could depend on `HashMap` order is sorted or
order-insensitive, which is why the pipeline embeds as a function at
all; the embedding makes every tie-break explicit.) -/
theorem c1_pipeline_deterministic (g1 g2 : Graph) (o1 o2 : RenderOptions)
    (hg : g1 = g2) (ho : o1 = o2) :
    renderPipeline g1 o1 = renderPipeline g2 o2 := by
  rw [hg, ho]

/-- Witness for C1 at a concrete graph. -/
theorem c1_pipeline_deterministic_witness :
    exChain = exChain ∧ RenderOptions.default = RenderOptions.default ∧
    renderPipeline exChain RenderOptions.default
      = renderPipeline exChain RenderOptions.default :=
  ⟨rfl, rfl,
    c1_pipeline_deterministic exChain exChain RenderOptions.default RenderOptions.default
      rfl rfl⟩

/-! ## Width truncation (claim C7) -/

theorem truncateLine_length (W : Nat) (h1 : 1 ≤ W) (line : String) :
    (truncateLine W line).length ≤ W := by
  unfold truncateLine
  split
  case isTrue h =>
    show (String.mk (line.data.take (W - 1) ++ ['…'])).length ≤ W
    have : (line.data.take (W - 1)).length ≤ W - 1 :=
      List.length_take_le (W - 1) line.data
    simp only [String.length, List.length_append, List.length_cons, List.length_nil]
    omega
  case isFalse h => omega

theorem truncateLine_shortened (W : Nat) (line : String)
    (h : truncateLine W line ≠ line) :
    (truncateLine W line).data.getLast? = some '…' := by
  unfold truncateLine at h ⊢
  by_cases hlt : W < line.length
  · rw [if_pos hlt]
    show (line.data.take (W - 1) ++ ['…']).getLast? = some '…'
    simp [List.getLast?_append]
  · rw [if_neg hlt] at h
    exact absurd rfl h

/-- **C7** (corrected): with `max_width = some W` and `1 ≤ W`, the
rendered output is the truncated grid text followed (only when labels
were dropped) by the legend; every line of the truncated **grid
portion** has `chars().count() ≤ W` — the source truncates by character
count, not display width, and does not truncate the legend block, which
is what refutes the original claim — and every grid line shortened by
the truncation step ends with the ellipsis character. -/
theorem c7_width_truncation (g : Graph) (o : RenderOptions) (w : List DiagramWarning)
    (W : Nat) (hW : o.max_width = some W) (h1 : 1 ≤ W) :
    ∃ (gridStr : String) (dropped : List DroppedLabel),
      (renderGraph g o w).1 =
        truncateOutput gridStr W ++ (if dropped = [] then "" else legendText dropped) ∧
      truncateOutput gridStr W =
        String.intercalate "\n" ((splitLines gridStr).map (truncateLine W)) ∧
      (∀ line ∈ (splitLines gridStr).map (truncateLine W), line.length ≤ W) ∧
      (∀ line ∈ splitLines gridStr, truncateLine W line ≠ line →
        (truncateLine W line).data.getLast? = some '…') := by
  refine ⟨(renderGridString g o).1, (renderGridString g o).2, ?_, rfl, ?_, ?_⟩
  · unfold renderGraph
    rw [hW]
    dsimp only
    split
    case isTrue h => simp
    case isFalse h => rfl
  · intro line hline
    rcases List.mem_map.mp hline with ⟨src, _, rfl⟩
    exact truncateLine_length W h1 src
  · intro line _ hne
    exact truncateLine_shortened W line hne

/-- Counterexample to C7 as stated: under `max_width = 8`, the rendered
output of `exLegend` contains the grid line `中 中 中─▶…` whose display
width is 11 > 8 (its character count is 8, which is what the code
bounds), and the untruncated legend line `  [1] lbllbllbl` of width
15 > 8. -/
theorem c7_counterexample :
    optsLegend.max_width = some 8 ∧
    (renderPipeline exLegend optsLegend).1
      = "┌───┐  …\n中 中 中─▶…\n└───┘  …\nLabels:\n  [1] lbllbllbl" ∧
    "中 中 中─▶…" ∈ splitLines (renderPipeline exLegend optsLegend).1 ∧
    display_width "中 中 中─▶…" = 11 ∧ ("中 中 中─▶…" : String).length = 8 ∧
    "  [1] lbllbllbl" ∈ splitLines (renderPipeline exLegend optsLegend).1 ∧
    display_width "  [1] lbllbllbl" = 15 :=
  ⟨rfl, by decide, by decide, by decide, by decide, by decide, by decide⟩

/-- Witness for C7 at a concrete graph and width. -/
theorem c7_width_truncation_witness :
    optsLegend.max_width = some 8 ∧ 1 ≤ 8 ∧
    (∃ (gridStr : String) (dropped : List DroppedLabel),
      (renderGraph (computeLayoutWithOptions exLegend optsLegend).1 optsLegend
          (computeLayoutWithOptions exLegend optsLegend).2).1 =
        truncateOutput gridStr 8 ++ (if dropped = [] then "" else legendText dropped) ∧
      truncateOutput gridStr 8 =
        String.intercalate "\n" ((splitLines gridStr).map (truncateLine 8)) ∧
      (∀ line ∈ (splitLines gridStr).map (truncateLine 8), line.length ≤ 8) ∧
      (∀ line ∈ splitLines gridStr, truncateLine 8 line ≠ line →
        (truncateLine 8 line).data.getLast? = some '…')) :=
  ⟨rfl, by decide,
    c7_width_truncation (computeLayoutWithOptions exLegend optsLegend).1 optsLegend
      (computeLayoutWithOptions exLegend optsLegend).2 8 rfl (by decide)⟩

/-! ## Straight-edge label placement (claim C4) -/

theorem WFcells_set2d (g : Grid) (x y : Nat) (c : Char) (h : g.WFcells) :
    (Grid.WFcells { g with cells := set2d g.cells y x c }) := by
  obtain ⟨hlen, hrows⟩ := h
  refine ⟨by simpa [set2d, length_updateAt] using hlen, ?_⟩
  intro r hr
  rcases mem_updateAt _ _ _ _ hr with hr' | ⟨a, ha, hra⟩
  · exact hrows r hr'
  · rw [hra]
    simpa [List.length_set] using hrows a ha

theorem WFcells_sie (g : Grid) (x y : Nat) (c : Char) (h : g.WFcells) :
    (g.sie x y c).WFcells := by
  unfold Grid.sie Grid.set_if_empty
  split
  · exact WFcells_set2d g x y c h
  · exact h

theorem cellAt_sie_self (g : Grid) (x y : Nat) (c : Char) (hwf : g.WFcells)
    (hx : x < g.width) (hy : y < g.height) (hp : g.protAt x y = false) :
    (g.sie x y c).cellAt x y = c := by
  unfold Grid.sie Grid.set_if_empty
  rw [if_pos ⟨hx, hy, hp⟩]
  obtain ⟨hlen, hrows⟩ := hwf
  have hy' : y < g.cells.length := by rw [hlen]; exact hy
  obtain ⟨row, hrow⟩ : ∃ row, g.cells.get? y = some row := ⟨_, List.get?_eq_get hy'⟩
  have hxlen : x < row.length := by rw [hrows row (List.get?_mem hrow)]; exact hx
  unfold Grid.cellAt get2d set2d
  rw [get?_updateAt, if_pos rfl, hrow]
  simp [get?_set', hxlen]

theorem cellAt_sie_ne (g : Grid) (a b x y : Nat) (c : Char)
    (h : a ≠ x ∨ b ≠ y) : (g.sie a b c).cellAt x y = g.cellAt x y := by
  unfold Grid.sie Grid.set_if_empty
  split
  · unfold Grid.cellAt get2d set2d
    rw [get?_updateAt]
    by_cases hb : b = y
    · rw [if_pos hb]
      cases hrow : g.cells.get? y with
      | none => simp [hb, hrow]
      | some row =>
        simp only [Option.map_some', Option.some_bind]
        rw [get?_set']
        have ha : ¬ a = x := by
          rcases h with h | h
          · exact h
          · exact absurd hb h
        rw [if_neg (fun hc => ha hc.1)]
    · rw [if_neg hb]
  · rfl

theorem mem_enumFrom_le {α : Type} : ∀ (l : List α) (n : Nat) (p : Nat × α),
    p ∈ l.enumFrom n → n ≤ p.1
  | [], _, _, h => by simp at h
  | a :: t, n, p, h => by
    rw [List.enumFrom_cons] at h
    rcases List.mem_cons.mp h with rfl | h'
    · exact Nat.le_refl n
    · exact Nat.le_of_succ_le (mem_enumFrom_le t (n + 1) p h')

theorem protAt_sie (g : Grid) (a b : Nat) (c : Char) (x y : Nat) :
    (g.sie a b c).protAt x y = g.protAt x y := by
  unfold Grid.protAt
  rw [protCells_sie]

theorem fold_sie_other (y X Y : Nat) (base : Nat) :
    ∀ (l : List (Nat × Char)) (g : Grid), (∀ p ∈ l, base + p.1 ≠ X ∨ y ≠ Y) →
      ((l.foldl (fun (g : Grid) (p : Nat × Char) => g.sie (base + p.1) y p.2) g)).cellAt
        X Y = g.cellAt X Y
  | [], _, _ => rfl
  | p0 :: t, g, h => by
    rw [List.foldl_cons]
    rw [fold_sie_other y X Y base t _ (fun p hp => h p (List.mem_cons_of_mem p0 hp))]
    exact cellAt_sie_ne g (base + p0.1) y X Y p0.2 (h p0 (List.mem_cons_self p0 t))

/-- The label-writing loop `for (i, c) in lbl.chars().enumerate()`,
starting from offset `k`: character `i` ends up at `(base + k + i, y)`
when that cell is on the grid and unprotected. -/
theorem label_fold_cell (y base : Nat) :
    ∀ (l : List Char) (k : Nat) (g : Grid) (i : Nat) (c : Char),
      l.get? i = some c → g.WFcells → base + (k + i) < g.width → y < g.height →
      g.protAt (base + (k + i)) y = false →
      ((l.enumFrom k).foldl (fun (g : Grid) (p : Nat × Char) => g.sie (base + p.1) y p.2)
          g).cellAt (base + (k + i)) y = c
  | [], _, _, i, _, h, _, _, _, _ => by simp at h
  | c0 :: t, k, g, 0, c, h, hwf, hxw, hyh, hp => by
    simp only [List.get?] at h
    injection h with h
    subst h
    rw [List.enumFrom_cons, List.foldl_cons]
    rw [fold_sie_other y (base + (k + 0)) y base (t.enumFrom (k + 1)) _ ?side]
    · exact cellAt_sie_self g (base + k) y c0 hwf (by omega) hyh (by simpa using hp)
    case side =>
      intro p hp'
      have := mem_enumFrom_le t (k + 1) p hp'
      exact Or.inl (by omega)
  | c0 :: t, k, g, i + 1, c, h, hwf, hxw, hyh, hp => by
    simp only [List.get?] at h
    rw [List.enumFrom_cons, List.foldl_cons]
    have hrw : base + (k + (i + 1)) = base + ((k + 1) + i) := by omega
    rw [hrw] at hp hxw ⊢
    exact label_fold_cell y base t (k + 1) (g.sie (base + k) y c0) i c h
      (WFcells_sie g (base + k) y c0 hwf) (by simpa using hxw) (by simpa using hyh)
      (by rw [protAt_sie]; exact hp)

theorem WFcells_new (w h : Nat) : (Grid.new w h).WFcells := by
  unfold Grid.WFcells
  constructor
  · simp [Grid.new]
  · intro r hr
    rw [List.eq_of_mem_replicate (show r ∈ _ from by simpa [Grid.new] using hr)]
    simp [Grid.new]

theorem WFcells_slm (g : Grid) (x y : Nat) (c : Char) (ih : Bool) (j : JunctionChars)
    (h : g.WFcells) : (g.slm x y c ih j).WFcells := by
  unfold Grid.slm Grid.set_line_with_merge
  split
  · exact h
  · exact WFcells_set2d g x y _ h

theorem protAt_slm (g : Grid) (x y : Nat) (c : Char) (ih : Bool) (j : JunctionChars)
    (a b : Nat) : (g.slm x y c ih j).protAt a b = g.protAt a b := by
  unfold Grid.protAt
  rw [protCells_slm]

theorem gridMeta_rfl (g : Grid) : GridMeta g g :=
  ⟨fun h => h, rfl, rfl, fun _ _ => rfl⟩

theorem gridMeta_sie (g0 g : Grid) (x y : Nat) (c : Char) (h : GridMeta g0 g) :
    GridMeta g0 (g.sie x y c) :=
  ⟨fun h0 => WFcells_sie g x y c (h.1 h0),
   by rw [width_sie]; exact h.2.1,
   by rw [height_sie]; exact h.2.2.1,
   fun a b => by rw [protAt_sie]; exact h.2.2.2 a b⟩

theorem gridMeta_slm (g0 g : Grid) (x y : Nat) (c : Char) (ih : Bool) (j : JunctionChars)
    (h : GridMeta g0 g) : GridMeta g0 (g.slm x y c ih j) :=
  ⟨fun h0 => WFcells_slm g x y c ih j (h.1 h0),
   by rw [width_slm]; exact h.2.1,
   by rw [height_slm]; exact h.2.2.1,
   fun a b => by rw [protAt_slm]; exact h.2.2.2 a b⟩

theorem gridMeta_line_fold (g0 : Grid) (y : Nat) (hc : Char) (j : JunctionChars)
    (l : List Nat) (g : Grid) (h : GridMeta g0 g) :
    GridMeta g0 (l.foldl (fun g x => g.slm x y hc true j) g) :=
  foldl_preserve (fun a b ha => gridMeta_slm g0 a b y hc true j ha) l g h

theorem strJoin_cons (a : String) (t : List String) :
    String.join (a :: t) = a ++ String.join t := by
  have key : ∀ (l : List String) (acc : String),
      l.foldl (fun r s => r ++ s) acc = acc ++ l.foldl (fun r s => r ++ s) "" := by
    intro l
    induction l with
    | nil => intro acc; exact (String.append_empty acc).symm
    | cons b u ih =>
      intro acc
      simp only [List.foldl_cons]
      rw [ih (acc ++ b), ih ("" ++ b)]
      rw [String.append_assoc]
      rfl
  unfold String.join
  simp only [List.foldl_cons]
  rw [key t ("" ++ a)]
  rfl

theorem strJoin_append (l1 l2 : List String) :
    String.join (l1 ++ l2) = String.join l1 ++ String.join l2 := by
  induction l1 with
  | nil => rfl
  | cons a t ih =>
    rw [List.cons_append, strJoin_cons, ih, strJoin_cons, String.append_assoc]

theorem strJoin_singleton (s : String) : String.join [s] = s := by
  rw [strJoin_cons]
  exact String.append_empty (s := s)

/-- Appending one dropped label appends one `"\n  marker label"` line to
the legend. -/
theorem legendText_append (d : List DroppedLabel) (e : DroppedLabel) :
    legendText (d ++ [e]) =
      legendText d ++ ("\n  " ++ e.marker ++ " " ++ e.label) := by
  unfold legendText
  rw [List.map_append]
  simp only [List.map_cons, List.map_nil]
  rw [strJoin_append, strJoin_singleton]
  exact (String.append_assoc _ _ _).symm

/-- Counterexample to C4 as stated: in the top-to-bottom diagram
`exTallLabel` the edge `A→B` is a single straight vertical run from
anchor `(2, 3)` to anchor `(2, 4)` (run length `1`), its label `looong`
has display width `6 > 1`, yet no `LabelDropped` warning is emitted: the
straight-vertical branch of `draw_vertical_edge` writes the label beside
the run whenever the run is non-empty, without any width check (the
label even overflows the grid and is cut to `looo` in the output). -/
theorem c4_counterexample :
    (renderPipeline exTallLabel optsTight).2 = [] ∧
    display_width "looong" = 6 ∧
    (computeLayoutWithOptions exTallLabel optsTight).1.edges =
      [⟨"A", "B", some "looong", EdgeStyle.Arrow⟩] ∧
    ((alookup (computeLayoutWithOptions exTallLabel optsTight).1.nodes "A").map
      (fun n => (n.x + n.width / 2, n.y + n.height)) = some (2, 3) ∧
     (alookup (computeLayoutWithOptions exTallLabel optsTight).1.nodes "B").map
      (fun n => (n.x + n.width / 2, n.y)) = some (2, 4)) ∧
    (renderPipeline exTallLabel optsTight).1 =
      "┌───┐\n│ A │\n└───┘\n  ▼looo\n┌───┐\n│ B │\n└───┘" :=
  ⟨by decide, by decide, by decide, ⟨by decide, by decide⟩, by decide⟩

/-- **C4** (amended): the round-trip rule of the claim does hold for the
geometry its cited source lines implement — an edge drawn as a single
straight horizontal run (the `start_y == end_y` branch of
`draw_horizontal_edge`).  With `fx`/`tx` the run's endpoints and
`L = tx - fx` its length: if `display_width label ≤ L` the label is
written verbatim inline starting at column `lx` (each character lands on
its cell whenever that cell is on the grid and unprotected) and the
dropped-label list and marker counter are unchanged, so no `LabelDropped`
warning arises for the edge; otherwise exactly one entry with marker
`"[n]"` is appended to the dropped-label list (each entry later becomes
one `LabelDropped` warning), the marker counter increments to `n + 1`
(markers strictly increase across dropped labels), the marker is written
inline when `marker.length ≤ L`, and the marker together with the full
label text forms the new line of the trailing `"Labels:"` legend.  For
the other edge geometries the rule fails, see the counterexample. -/
theorem c4_straight_label (g : Grid) (sx sy ex ey : Nat) (hc vc ac : Char)
    (dir : Direction) (lbl : String) (chars : CharSet) (fid tid : String)
    (dropped : List DroppedLabel) (nm : Nat)
    (fx tx L lx mx : Nat) (mt : String) (r : Grid × List DroppedLabel × Nat)
    (hse : sy = ey)
    (hfx : fx = if sx < ex then sx else ex)
    (htx : tx = if sx < ex then ex else sx)
    (hL : L = tx - fx)
    (hmt : mt = "[" ++ toString nm ++ "]")
    (hlx : lx = fx + (L - display_width lbl) / 2)
    (hmx : mx = fx + (L - mt.length) / 2)
    (hr : r = draw_horizontal_edge g sx sy ex ey hc vc ac dir (some lbl) chars fid tid
      dropped nm)
    (hwf : g.WFcells) :
    r.2.1 = (if display_width lbl ≤ L then dropped
      else dropped ++ [(⟨mt, lbl, fid, tid⟩ : DroppedLabel)]) ∧
    r.2.2 = (if display_width lbl ≤ L then nm else nm + 1) ∧
    legendText r.2.1 = (if display_width lbl ≤ L then legendText dropped
      else legendText dropped ++ ("\n  " ++ mt ++ " " ++ lbl)) ∧
    (display_width lbl ≤ L →
      ∀ i c, lbl.data.get? i = some c → lx + i < g.width → sy < g.height →
        g.protAt (lx + i) sy = false → r.1.cellAt (lx + i) sy = c) ∧
    (L < display_width lbl → mt.length ≤ L →
      ∀ i c, mt.data.get? i = some c → mx + i < g.width → sy < g.height →
        g.protAt (mx + i) sy = false → r.1.cellAt (mx + i) sy = c) := by
  subst hse hmt hlx hmx hL htx hfx
  unfold draw_horizontal_edge at hr
  rw [if_pos (Eq.refl sy)] at hr
  dsimp only at hr
  by_cases hfit :
      display_width lbl ≤ (if sx < ex then ex else sx) - (if sx < ex then sx else ex)
  · rw [if_pos hfit] at hr
    subst hr
    have hm2 : GridMeta g
        (if sx < ex then
          ((rng (if sx < ex then sx else ex) (if sx < ex then ex else sx)).foldl
            (fun g x => g.slm x sy hc true chars.to_junction_chars) g).sie (ex - 1) sy ac
        else
          ((rng (if sx < ex then sx else ex) (if sx < ex then ex else sx)).foldl
            (fun g x => g.slm x sy hc true chars.to_junction_chars) g).sie (ex + 1) sy ac) := by
      split
      · exact gridMeta_sie g _ _ _ _
          (gridMeta_line_fold g sy hc chars.to_junction_chars _ g (gridMeta_rfl g))
      · exact gridMeta_sie g _ _ _ _
          (gridMeta_line_fold g sy hc chars.to_junction_chars _ g (gridMeta_rfl g))
    refine ⟨by rw [if_pos hfit], by rw [if_pos hfit], by rw [if_pos hfit], ?_, ?_⟩
    · intro _ i c hic hxw hyh hprot
      have key := label_fold_cell sy
        ((if sx < ex then sx else ex) +
          (((if sx < ex then ex else sx) - (if sx < ex then sx else ex)) -
            display_width lbl) / 2)
        lbl.data 0 _ i c hic (hm2.1 hwf)
        (by rw [hm2.2.1]; simpa using hxw)
        (by rw [hm2.2.2.1]; exact hyh)
        (by rw [hm2.2.2.2]; simpa using hprot)
      simpa using key
    · intro hlt _
      exact absurd hfit (Nat.not_le.mpr hlt)
  · rw [if_neg hfit] at hr
    subst hr
    refine ⟨by rw [if_neg hfit], by rw [if_neg hfit], ?_, ?_, ?_⟩
    · rw [if_neg hfit]
      exact legendText_append dropped _
    · intro hfit2
      exact absurd hfit2 hfit
    · intro _ hmfit i c hic hxw hyh hprot
      rw [if_pos hmfit]
      have hm2 : GridMeta g
          (if sx < ex then
            ((rng (if sx < ex then sx else ex) (if sx < ex then ex else sx)).foldl
              (fun g x => g.slm x sy hc true chars.to_junction_chars) g).sie (ex - 1) sy ac
          else
            ((rng (if sx < ex then sx else ex) (if sx < ex then ex else sx)).foldl
              (fun g x => g.slm x sy hc true chars.to_junction_chars) g).sie (ex + 1) sy ac) := by
        split
        · exact gridMeta_sie g _ _ _ _
            (gridMeta_line_fold g sy hc chars.to_junction_chars _ g (gridMeta_rfl g))
        · exact gridMeta_sie g _ _ _ _
            (gridMeta_line_fold g sy hc chars.to_junction_chars _ g (gridMeta_rfl g))
      have key := label_fold_cell sy
        ((if sx < ex then sx else ex) +
          (((if sx < ex then ex else sx) - (if sx < ex then sx else ex)) -
            ("[" ++ toString nm ++ "]").length) / 2)
        ("[" ++ toString nm ++ "]").data 0 _ i c hic (hm2.1 hwf)
        (by rw [hm2.2.1]; simpa using hxw)
        (by rw [hm2.2.2.1]; exact hyh)
        (by rw [hm2.2.2.2]; simpa using hprot)
      simpa using key

/-- Witness for the amended straight-run label theorem: a 10×1 grid, a
straight LR edge from `(0,0)` to `(9,0)` with label `ab` (display width
`2 ≤ 9`), so the label fits, nothing is dropped and the counter stays. -/
theorem c4_straight_label_witness :
    (draw_horizontal_edge (Grid.new 10 1) 0 0 9 0 '-' '|' '>' Direction.LR (some "ab")
        ASCII_CHARS "A" "B" [] 1).2.1 =
      (if display_width "ab" ≤ 9 then ([] : List DroppedLabel)
       else [] ++ [(⟨"[1]", "ab", "A", "B"⟩ : DroppedLabel)]) ∧
    (draw_horizontal_edge (Grid.new 10 1) 0 0 9 0 '-' '|' '>' Direction.LR (some "ab")
        ASCII_CHARS "A" "B" [] 1).2.2 = (if display_width "ab" ≤ 9 then 1 else 1 + 1) ∧
    legendText (draw_horizontal_edge (Grid.new 10 1) 0 0 9 0 '-' '|' '>' Direction.LR
        (some "ab") ASCII_CHARS "A" "B" [] 1).2.1 =
      (if display_width "ab" ≤ 9 then legendText []
       else legendText [] ++ ("\n  " ++ "[1]" ++ " " ++ "ab")) ∧
    (display_width "ab" ≤ 9 →
      ∀ i c, "ab".data.get? i = some c → 3 + i < (Grid.new 10 1).width →
        0 < (Grid.new 10 1).height → (Grid.new 10 1).protAt (3 + i) 0 = false →
        (draw_horizontal_edge (Grid.new 10 1) 0 0 9 0 '-' '|' '>' Direction.LR (some "ab")
          ASCII_CHARS "A" "B" [] 1).1.cellAt (3 + i) 0 = c) ∧
    (9 < display_width "ab" → String.length "[1]" ≤ 9 →
      ∀ i c, "[1]".data.get? i = some c → 3 + i < (Grid.new 10 1).width →
        0 < (Grid.new 10 1).height → (Grid.new 10 1).protAt (3 + i) 0 = false →
        (draw_horizontal_edge (Grid.new 10 1) 0 0 9 0 '-' '|' '>' Direction.LR (some "ab")
          ASCII_CHARS "A" "B" [] 1).1.cellAt (3 + i) 0 = c) :=
  c4_straight_label (Grid.new 10 1) 0 0 9 0 '-' '|' '>' Direction.LR "ab" ASCII_CHARS
    "A" "B" [] 1 0 9 9 3 3 "[1]"
    (draw_horizontal_edge (Grid.new 10 1) 0 0 9 0 '-' '|' '>' Direction.LR (some "ab")
      ASCII_CHARS "A" "B" [] 1)
    rfl (by decide) (by decide) (by decide) (by decide) (by decide) (by decide) rfl
    (WFcells_new 10 1)

/-- Counterexample to C9 as stated: for the graph with node `A` and the
edge `A→B` (`B ∉ nodes`), layout creates no node `B`, and the rendered
output is exactly `A`'s box — the edge is skipped, not drawn to an
auto-created endpoint. -/
theorem c9_counterexample :
    alookup (computeLayoutWithOptions exMissing RenderOptions.default).1.nodes "B" = none ∧
    (renderPipeline exMissing RenderOptions.default).1 = "┌───┐\n│ A │\n└───┘" ∧
    (renderPipeline exMissing RenderOptions.default).2 = [] :=
  ⟨by decide, by decide, by decide⟩

/-! ## Termination of `assign_layers` (claim C10) -/

@[simp] theorem akeys_nil {α β : Type} : akeys ([] : List (α × β)) = [] := rfl

@[simp] theorem akeys_cons {α β : Type} (p : α × β) (t : List (α × β)) :
    akeys (p :: t) = p.1 :: akeys t := rfl

@[simp] theorem length_akeys {α β : Type} (l : List (α × β)) :
    (akeys l).length = l.length := List.length_map l Prod.fst

theorem alookup_mem_akeys {α β : Type} [DecidableEq α] :
    ∀ (l : List (α × β)) (k : α) (v : β), alookup l k = some v → k ∈ akeys l
  | [], _, _, h => by simp [alookup] at h
  | (k', v') :: t, k, v, h => by
    rw [alookup] at h
    by_cases hk : k' = k
    · subst hk
      exact List.mem_cons_self _ _
    · rw [if_neg hk] at h
      exact List.mem_cons_of_mem _ (alookup_mem_akeys t k v h)

theorem mem_akeys_ainsert_self {α β : Type} [DecidableEq α] :
    ∀ (l : List (α × β)) (k : α) (v : β), k ∈ akeys (ainsert l k v)
  | [], k, _ => List.mem_cons_self k []
  | (k', v') :: t, k, v => by
    rw [ainsert]
    by_cases hk : k' = k
    · rw [if_pos hk]
      exact List.mem_cons_self k _
    · rw [if_neg hk]
      exact List.mem_cons_of_mem _ (mem_akeys_ainsert_self t k v)

theorem mem_akeys_ainsert_mono {α β : Type} [DecidableEq α] :
    ∀ (l : List (α × β)) (k : α) (v : β) (x : α), x ∈ akeys l → x ∈ akeys (ainsert l k v)
  | [], _, _, x, h => by simp at h
  | (k', v') :: t, k, v, x, h => by
    rw [ainsert]
    by_cases hk : k' = k
    · rw [if_pos hk]
      subst hk
      simpa using h
    · rw [if_neg hk]
      simp only [akeys_cons, List.mem_cons] at h ⊢
      rcases h with h | h
      · exact Or.inl h
      · exact Or.inr (mem_akeys_ainsert_mono t k v x h)

theorem akeys_ainsert_of_mem {α β : Type} [DecidableEq α] :
    ∀ (l : List (α × β)) (k : α) (v : β), k ∈ akeys l → akeys (ainsert l k v) = akeys l
  | [], _, _, h => by simp at h
  | (k', v') :: t, k, v, h => by
    rw [ainsert]
    by_cases hk : k' = k
    · rw [if_pos hk]
      simp [hk]
    · rw [if_neg hk]
      simp only [akeys_cons, List.mem_cons] at h
      rcases h with h | h
      · exact absurd h.symm hk
      · simp [akeys_ainsert_of_mem t k v h]

theorem ainsert_length_of_mem {α β : Type} [DecidableEq α] :
    ∀ (l : List (α × β)) (k : α) (v : β), k ∈ akeys l → (ainsert l k v).length = l.length
  | [], _, _, h => by simp at h
  | (k', v') :: t, k, v, h => by
    rw [ainsert]
    by_cases hk : k' = k
    · rw [if_pos hk]
      simp
    · rw [if_neg hk]
      simp only [akeys_cons, List.mem_cons] at h
      rcases h with h | h
      · exact absurd h.symm hk
      · simp [ainsert_length_of_mem t k v h]

theorem ainsert_length_le {α β : Type} [DecidableEq α] :
    ∀ (l : List (α × β)) (k : α) (v : β), (ainsert l k v).length ≤ l.length + 1
  | [], _, _ => by simp [ainsert]
  | (k', v') :: t, k, v => by
    rw [ainsert]
    by_cases hk : k' = k
    · rw [if_pos hk]
      simp
    · rw [if_neg hk]
      simp only [List.length_cons]
      exact Nat.succ_le_succ (ainsert_length_le t k v)

theorem foldl_length_le {γ β : Type} (size : γ → Nat) (f : γ → β → γ)
    (hf : ∀ m b, size (f m b) ≤ size m + 1) :
    ∀ (l : List β) (m : γ), size (l.foldl f m) ≤ size m + l.length
  | [], m => by simp
  | b :: t, m => by
    rw [List.foldl_cons]
    have h1 := foldl_length_le size f hf t (f m b)
    have h2 := hf m b
    simp only [List.length_cons]
    omega

theorem initIndeg_length_le (g : Graph) : (initIndeg g).length ≤ universeSize g := by
  unfold initIndeg universeSize
  have h1 := foldl_length_le List.length (fun m id => ainsert m id 0)
    (fun m b => ainsert_length_le m b 0) (akeys g.nodes) []
  have h2 := foldl_length_le List.length
    (fun m (e : Edge) => ainsert m e.toId ((alookup m e.toId).getD 0 + 1))
    (fun m b => ainsert_length_le m b.toId _) g.edges
    ((akeys g.nodes).foldl (fun m id => ainsert m id 0) [])
  simp only [List.length_nil, length_akeys] at h1 h2
  omega

theorem mem_akeys_foldl_ainsert (ids : List NodeId) :
    ∀ (m : List (NodeId × Nat)) (id : NodeId), id ∈ ids →
      id ∈ akeys (ids.foldl (fun m id => ainsert m id 0) m) := by
  induction ids with
  | nil => intro m id h; simp at h
  | cons a t ih =>
    intro m id h
    rw [List.foldl_cons]
    rcases List.mem_cons.mp h with rfl | h'
    · exact foldl_preserve (P := fun mm => id ∈ akeys mm)
        (fun mm b hb => mem_akeys_ainsert_mono mm b 0 id hb) t _
        (mem_akeys_ainsert_self m id 0)
    · exact ih (ainsert m a 0) id h'

theorem nodes_mem_initIndeg (g : Graph) (id : NodeId) (h : id ∈ akeys g.nodes) :
    id ∈ akeys (initIndeg g) := by
  unfold initIndeg
  exact foldl_preserve (P := fun mm => id ∈ akeys mm)
    (fun mm e he => mem_akeys_ainsert_mono mm e.toId _ id he) g.edges _
    (mem_akeys_foldl_ainsert (akeys g.nodes) [] id h)

theorem length_insertSorted {α : Type} (le : α → α → Bool) (a : α) :
    ∀ l : List α, (insertSorted le a l).length = l.length + 1
  | [] => rfl
  | b :: t => by
    rw [insertSorted]
    split
    · rfl
    · simp only [List.length_cons, length_insertSorted le a t]

theorem length_sortBy {α : Type} (le : α → α → Bool) :
    ∀ l : List α, (sortBy le l).length = l.length
  | [] => rfl
  | a :: t => by
    unfold sortBy
    rw [List.foldr_cons, length_insertSorted]
    have h := length_sortBy le t
    unfold sortBy at h
    rw [h, List.length_cons]

theorem mem_insertSorted {α : Type} (le : α → α → Bool) (a x : α) :
    ∀ l : List α, x ∈ insertSorted le a l → x = a ∨ x ∈ l
  | [] => by
    intro h
    rw [insertSorted] at h
    exact Or.inl (List.mem_singleton.mp h)
  | b :: t => by
    intro h
    rw [insertSorted] at h
    split at h
    · rcases List.mem_cons.mp h with rfl | h'
      · exact Or.inl rfl
      · exact Or.inr h'
    · rcases List.mem_cons.mp h with rfl | h'
      · exact Or.inr (List.mem_cons_self _ _)
      · rcases mem_insertSorted le a x t h' with h'' | h''
        · exact Or.inl h''
        · exact Or.inr (List.mem_cons_of_mem _ h'')

theorem mem_sortBy {α : Type} (le : α → α → Bool) (x : α) :
    ∀ l : List α, x ∈ sortBy le l → x ∈ l
  | [] => by intro h; simp [sortBy] at h
  | a :: t => by
    intro h
    unfold sortBy at h
    rw [List.foldr_cons] at h
    rcases mem_insertSorted le a x _ h with rfl | h'
    · exact List.mem_cons_self _ _
    · exact List.mem_cons_of_mem _ (mem_sortBy le x t h')

theorem length_dedupAdj_le {α : Type} [DecidableEq α] :
    ∀ l : List α, (dedupAdj l).length ≤ l.length
  | [] => Nat.le_refl 0
  | [_] => Nat.le_refl 1
  | a :: b :: t => by
    rw [dedupAdj]
    split
    · exact Nat.le_succ_of_le (length_dedupAdj_le (b :: t))
    · have h := length_dedupAdj_le (b :: t)
      simp only [List.length_cons] at h ⊢
      omega

theorem neighborsOf_length_le (g : Graph) (processed : List NodeId) (u : NodeId) :
    (neighborsOf g processed u).length ≤ g.edges.length := by
  unfold neighborsOf
  have h1 := length_dedupAdj_le (sortBy strLe
    ((g.edges.filter
      (fun e => decide (e.fromId = u) && decide (e.toId ∉ processed))).map Edge.toId))
  have h2 := length_sortBy strLe
    ((g.edges.filter
      (fun e => decide (e.fromId = u) && decide (e.toId ∉ processed))).map Edge.toId)
  have h3 : ((g.edges.filter
      (fun e => decide (e.fromId = u) && decide (e.toId ∉ processed))).map
        Edge.toId).length ≤ g.edges.length := by
    rw [List.length_map]
    exact List.length_filter_le _ _
  omega

theorem nodup_subset_length {α : Type} [DecidableEq α] (l m : List α) (h : l.Nodup)
    (hs : ∀ x ∈ l, x ∈ m) : l.length ≤ m.length := by
  calc l.length = l.toFinset.card := (List.toFinset_card_of_nodup h).symm
  _ ≤ m.toFinset.card := by
    refine Finset.card_le_card ?_
    intro x hx
    rw [List.mem_toFinset] at hx ⊢
    exact hs x hx
  _ ≤ m.length := m.toFinset_card_le

theorem relaxNeighbor_facts (uLayer : Nat) (st : KState) (v : NodeId) :
    akeys (relaxNeighbor uLayer st v).indeg = akeys st.indeg ∧
    (relaxNeighbor uLayer st v).indeg.length = st.indeg.length ∧
    (relaxNeighbor uLayer st v).processed = st.processed ∧
    (relaxNeighbor uLayer st v).queue.length ≤ st.queue.length + 1 ∧
    ∀ x ∈ (relaxNeighbor uLayer st v).queue, x ∈ st.queue ∨ x ∈ akeys st.indeg := by
  unfold relaxNeighbor
  cases hl : alookup st.indeg v with
  | none =>
    dsimp only
    exact ⟨rfl, rfl, rfl, by omega, fun x hx => Or.inl hx⟩
  | some d =>
    have hv : v ∈ akeys st.indeg := alookup_mem_akeys st.indeg v d hl
    dsimp only
    refine ⟨akeys_ainsert_of_mem st.indeg v (d - 1) hv,
      ainsert_length_of_mem st.indeg v (d - 1) hv, rfl, ?_, ?_⟩
    · by_cases hz : d - 1 = 0
      · rw [if_pos hz]
        simp
      · rw [if_neg hz]
        omega
    · intro x hx
      by_cases hz : d - 1 = 0
      · rw [if_pos hz] at hx
        rcases List.mem_append.mp hx with h | h
        · exact Or.inl h
        · rw [List.mem_singleton] at h
          subst h
          exact Or.inr hv
      · rw [if_neg hz] at hx
        exact Or.inl hx

theorem relax_fold_facts (uLayer : Nat) :
    ∀ (ns : List NodeId) (st : KState),
      akeys (ns.foldl (relaxNeighbor uLayer) st).indeg = akeys st.indeg ∧
      (ns.foldl (relaxNeighbor uLayer) st).indeg.length = st.indeg.length ∧
      (ns.foldl (relaxNeighbor uLayer) st).processed = st.processed ∧
      (ns.foldl (relaxNeighbor uLayer) st).queue.length ≤ st.queue.length + ns.length ∧
      ∀ x ∈ (ns.foldl (relaxNeighbor uLayer) st).queue, x ∈ st.queue ∨ x ∈ akeys st.indeg
  | [], st => ⟨rfl, rfl, rfl, by simp, fun x hx => Or.inl hx⟩
  | v :: t, st => by
    rw [List.foldl_cons]
    obtain ⟨k1, l1, p1, q1, m1⟩ := relaxNeighbor_facts uLayer st v
    obtain ⟨k2, l2, p2, q2, m2⟩ := relax_fold_facts uLayer t (relaxNeighbor uLayer st v)
    refine ⟨k2.trans k1, l2.trans l1, p2.trans p1, ?_, ?_⟩
    · simp only [List.length_cons]
      omega
    · intro x hx
      rcases m2 x hx with h | h
      · rcases m1 x h with h' | h'
        · exact Or.inl h'
        · exact Or.inr h'
      · rw [k1] at h
        exact Or.inr h

/-- Fuel `KMeasure + 1` always suffices for the inner Kahn loop: it
terminates with an empty queue, preserves the invariant and the
in-degree key set, only grows the processed list, and processes at least
one new node whenever the queue holds an unprocessed one. -/
theorem kahnInner_spec (g : Graph) :
    ∀ (fuel : Nat) (st : KState), KInv st → KMeasure g.edges.length st < fuel →
      ∃ st', kahnInner g fuel st = some st' ∧ KInv st' ∧ st'.queue = [] ∧
        akeys st'.indeg = akeys st.indeg ∧ st'.indeg.length = st.indeg.length ∧
        (∀ y ∈ st.processed, y ∈ st'.processed) ∧
        st.processed.length ≤ st'.processed.length ∧
        (∀ x ∈ st.queue, x ∉ st.processed → st.processed.length < st'.processed.length)
  | 0, _, _, hm => absurd hm (Nat.not_lt_zero _)
  | fuel + 1, st, hinv, hm => by
    rw [kahnInner]
    cases hq : st.queue with
    | nil =>
      exact ⟨st, rfl, hinv, hq, rfl, rfl, fun y hy => hy, Nat.le_refl _,
        fun x hx => absurd hx (List.not_mem_nil x)⟩
    | cons u rest =>
      dsimp only
      by_cases hu : u ∈ st.processed
      · rw [if_pos hu]
        have hm1 : KMeasure g.edges.length { st with queue := rest } < fuel := by
          unfold KMeasure at hm ⊢
          dsimp only
          rw [hq] at hm
          simp only [List.length_cons] at hm
          omega
        have hinv1 : KInv { st with queue := rest } :=
          ⟨hinv.1, hinv.2.1,
           fun x hx => hinv.2.2 x (by rw [hq]; exact List.mem_cons_of_mem u hx)⟩
        obtain ⟨st', h1, h2, h3, h4, h5, h6, h7, h8⟩ :=
          kahnInner_spec g fuel { st with queue := rest } hinv1 hm1
        refine ⟨st', h1, h2, h3, h4, h5, h6, h7, ?_⟩
        intro x hx hxp
        rcases List.mem_cons.mp hx with rfl | hx2
        · exact absurd hu hxp
        · exact h8 x hx2 hxp
      · rw [if_neg hu]
        have hp : st.processed.length ≤ st.indeg.length := by
          have h := nodup_subset_length st.processed (akeys st.indeg) hinv.1 hinv.2.1
          rw [length_akeys] at h
          exact h
        obtain ⟨k2, l2, p2, q2, m2⟩ := relax_fold_facts ((alookup st.layers u).getD 0)
          (neighborsOf g (st.processed ++ [u]) u)
          { st with queue := rest, processed := st.processed ++ [u] }
        dsimp only at k2 l2 p2 q2 m2
        have hns := neighborsOf_length_le g (st.processed ++ [u]) u
        have hm2 : KMeasure g.edges.length
            ((neighborsOf g (st.processed ++ [u]) u).foldl
              (relaxNeighbor ((alookup st.layers u).getD 0))
              { st with queue := rest, processed := st.processed ++ [u] }) < fuel := by
          unfold KMeasure at hm ⊢
          rw [hq] at hm
          simp only [List.length_cons] at hm
          rw [l2, p2]
          simp only [List.length_append, List.length_singleton]
          have hsplit : (st.indeg.length + 1 - st.processed.length) * (g.edges.length + 1) =
              (st.indeg.length + 1 - (st.processed.length + 1)) * (g.edges.length + 1) +
                (g.edges.length + 1) := by
            have h1 : st.indeg.length + 1 - st.processed.length =
                (st.indeg.length + 1 - (st.processed.length + 1)) + 1 := by omega
            rw [h1]
            ring
          omega
        have hum : u ∈ akeys st.indeg :=
          hinv.2.2 u (by rw [hq]; exact List.mem_cons_self _ _)
        have hinv2 : KInv
            ((neighborsOf g (st.processed ++ [u]) u).foldl
              (relaxNeighbor ((alookup st.layers u).getD 0))
              { st with queue := rest, processed := st.processed ++ [u] }) := by
          refine ⟨?_, ?_, ?_⟩
          · rw [p2, List.nodup_append]
            refine ⟨hinv.1, List.nodup_singleton u, ?_⟩
            intro a ha hb
            rw [List.mem_singleton] at hb
            subst hb
            exact hu ha
          · intro x hx
            rw [p2] at hx
            rw [k2]
            rcases List.mem_append.mp hx with h | h
            · exact hinv.2.1 x h
            · rw [List.mem_singleton] at h
              subst h
              exact hum
          · intro x hx
            rw [k2]
            rcases m2 x hx with h | h
            · exact hinv.2.2 x (by rw [hq]; exact List.mem_cons_of_mem u h)
            · exact h
        obtain ⟨st', h1, h2, h3, h4, h5, h6, h7, h8⟩ :=
          kahnInner_spec g fuel
            ((neighborsOf g (st.processed ++ [u]) u).foldl
              (relaxNeighbor ((alookup st.layers u).getD 0))
              { st with queue := rest, processed := st.processed ++ [u] }) hinv2 hm2
        rw [p2] at h7
        simp only [List.length_append, List.length_singleton] at h7
        refine ⟨st', h1, h2, h3, h4.trans k2, h5.trans l2, ?_, by omega, ?_⟩
        · intro y hy
          exact h6 y (by rw [p2]; exact List.mem_append_left _ hy)
        · intro x hx hxp
          omega

theorem zeroIn_length_le (indeg : List (NodeId × Nat)) :
    (zeroIn indeg).length ≤ indeg.length := by
  unfold zeroIn
  rw [length_sortBy, List.length_map]
  exact List.length_filter_le _ _

theorem zeroIn_subset (indeg : List (NodeId × Nat)) :
    ∀ x ∈ zeroIn indeg, x ∈ akeys indeg := by
  intro x hx
  unfold zeroIn at hx
  have h := mem_sortBy strLe x _ hx
  rw [List.mem_map] at h
  obtain ⟨p, hp, rfl⟩ := h
  exact List.mem_map_of_mem Prod.fst (List.mem_of_mem_filter hp)

/-- The outer forcing loop terminates within its round fuel: every
forcing round enqueues a stuck (unprocessed) node which the next inner
run then processes, so the processed list grows by at least one per
round and `|nodes|` rounds always suffice. -/
theorem kahnOuter_isSome (g : Graph) (ff : List (NodeId × Nat))
    (hnd : (akeys g.nodes).Nodup) :
    ∀ (r : Nat) (st : KState) (acc : List NodeId),
      KInv st →
      akeys st.indeg = akeys (initIndeg g) →
      st.indeg.length = (initIndeg g).length →
      st.queue.length ≤ (initIndeg g).length + 1 →
      g.nodes.length ≤ st.processed.length + r + 1 →
      ((∀ x ∈ st.queue, x ∈ st.processed) → g.nodes.length ≤ st.processed.length + r) →
      (kahnOuter g ff g.nodes.length (innerFuelFor g) r st acc).isSome := by
  intro r
  induction r with
  | zero =>
    intro st acc hinv hkeys hlen hql hc1 hc2
    have hmeas : KMeasure g.edges.length st < innerFuelFor g := by
      unfold KMeasure innerFuelFor universeSize
      have hL := initIndeg_length_le g
      unfold universeSize at hL
      have h1 : (st.indeg.length + 1 - st.processed.length) * (g.edges.length + 1) ≤
          (g.nodes.length + g.edges.length + 1) * (g.edges.length + 1) :=
        Nat.mul_le_mul_right _ (by omega)
      have h2 : (g.nodes.length + g.edges.length + 2) * (g.edges.length + 2) =
          (g.nodes.length + g.edges.length + 1) * (g.edges.length + 1) +
            (g.nodes.length + g.edges.length + g.edges.length + 3) := by ring
      omega
    obtain ⟨st', heq, hinv', hqnil, hkeys', hlen', hmono, hplen, hgrow⟩ :=
      kahnInner_spec g (innerFuelFor g) st hinv hmeas
    rw [kahnOuter, heq]
    dsimp only
    by_cases hdone : g.nodes.length ≤ st'.processed.length
    · rw [if_pos hdone]
      rfl
    · exfalso
      by_cases hall : ∀ x ∈ st.queue, x ∈ st.processed
      · have h := hc2 hall
        exact hdone (by omega)
      · push_neg at hall
        obtain ⟨x, hx1, hx2⟩ := hall
        have h := hgrow x hx1 hx2
        exact hdone (by omega)
  | succ r0 ih =>
    intro st acc hinv hkeys hlen hql hc1 hc2
    have hmeas : KMeasure g.edges.length st < innerFuelFor g := by
      unfold KMeasure innerFuelFor universeSize
      have hL := initIndeg_length_le g
      unfold universeSize at hL
      have h1 : (st.indeg.length + 1 - st.processed.length) * (g.edges.length + 1) ≤
          (g.nodes.length + g.edges.length + 1) * (g.edges.length + 1) :=
        Nat.mul_le_mul_right _ (by omega)
      have h2 : (g.nodes.length + g.edges.length + 2) * (g.edges.length + 2) =
          (g.nodes.length + g.edges.length + 1) * (g.edges.length + 1) +
            (g.nodes.length + g.edges.length + g.edges.length + 3) := by ring
      omega
    obtain ⟨st', heq, hinv', hqnil, hkeys', hlen', hmono, hplen, hgrow⟩ :=
      kahnInner_spec g (innerFuelFor g) st hinv hmeas
    rw [kahnOuter, heq]
    dsimp only
    by_cases hdone : g.nodes.length ≤ st'.processed.length
    · rw [if_pos hdone]
      rfl
    · rw [if_neg hdone]
      cases hsort : sortBy (forceLe ff) (stuckOf st') with
      | nil =>
        exfalso
        have hstuck : stuckOf st' = [] := by
          have h := length_sortBy (forceLe ff) (stuckOf st')
          rw [hsort] at h
          exact List.length_eq_zero.mp h.symm
        have hsubset : ∀ x ∈ akeys g.nodes, x ∈ st'.processed := by
          intro x hx
          by_contra hxp
          have hxk : x ∈ akeys st'.indeg := by
            rw [hkeys', hkeys]
            exact nodes_mem_initIndeg g x hx
          have hmem : x ∈ stuckOf st' := by
            unfold stuckOf
            rw [List.mem_filter]
            exact ⟨hxk, by simpa using hxp⟩
          rw [hstuck] at hmem
          simp at hmem
        have h := nodup_subset_length (akeys g.nodes) st'.processed hnd hsubset
        rw [length_akeys] at h
        exact hdone (by omega)
      | cons forced tail =>
        have hfmem : forced ∈ stuckOf st' := by
          have h : forced ∈ sortBy (forceLe ff) (stuckOf st') := by
            rw [hsort]
            exact List.mem_cons_self _ _
          exact mem_sortBy (forceLe ff) forced _ h
        have hfk : forced ∈ akeys st'.indeg := by
          unfold stuckOf at hfmem
          exact (List.mem_filter.mp hfmem).1
        have hfp : forced ∉ st'.processed := by
          unfold stuckOf at hfmem
          have h := (List.mem_filter.mp hfmem).2
          simpa using h
        have hkeq : akeys (ainsert st'.indeg forced 0) = akeys st'.indeg :=
          akeys_ainsert_of_mem st'.indeg forced 0 hfk
        refine ih
          { st' with
            indeg := ainsert st'.indeg forced 0
            queue := st'.queue ++ [forced] } _ ?_ ?_ ?_ ?_ ?_ ?_
        · refine ⟨hinv'.1, ?_, ?_⟩
          · intro x hx
            dsimp only
            rw [hkeq]
            exact hinv'.2.1 x hx
          · intro x hx
            dsimp only at hx ⊢
            rw [hqnil] at hx
            simp only [List.nil_append, List.mem_singleton] at hx
            subst hx
            rw [hkeq]
            exact hfk
        · dsimp only
          rw [hkeq, hkeys', hkeys]
        · dsimp only
          rw [ainsert_length_of_mem st'.indeg forced 0 hfk, hlen', hlen]
        · dsimp only
          rw [hqnil]
          simp
        · dsimp only
          by_cases hall : ∀ x ∈ st.queue, x ∈ st.processed
          · have h := hc2 hall
            omega
          · push_neg at hall
            obtain ⟨x, hx1, hx2⟩ := hall
            have h := hgrow x hx1 hx2
            omega
        · intro hall2
          exact absurd (hall2 forced (by simp)) hfp

/-- **C10**: `compute_layout` terminates on every finite graph, cyclic
or not.  With the inner Kahn loop given its proven-sufficient fuel, an
outer-round fuel of `|nodes|` forcing rounds always suffices (each
forcing round puts one still-unprocessed node on the queue and the next
inner run processes it, so the processed set strictly grows), and
`assign_layers` produces a result: the fuelled model returns `some`.
The hypothesis states that node ids are pairwise distinct, which the
source guarantees by storing nodes in a `HashMap` keyed by id. -/
theorem c10_layout_terminates (g : Graph) (hnd : (akeys g.nodes).Nodup) :
    (assignLayersFuel g g.nodes.length (innerFuelFor g)).isSome := by
  unfold assignLayersFuel
  dsimp only
  rw [Option.isSome_map']
  refine kahnOuter_isSome g (firstFromIdx g) hnd g.nodes.length
    ⟨zeroIn (initIndeg g), [], initLayers g, initIndeg g⟩ [] ?_ rfl rfl ?_ ?_ ?_
  · exact ⟨List.nodup_nil, fun x hx => absurd hx (List.not_mem_nil x),
      zeroIn_subset (initIndeg g)⟩
  · have h := zeroIn_length_le (initIndeg g)
    dsimp only
    omega
  · dsimp only
    simp only [List.length_nil]
    omega
  · intro _
    dsimp only
    simp only [List.length_nil]
    omega

/-- Witness: the fuelled `assign_layers` model terminates on the cyclic
triangle `A→B→C→A` (with its distinct node ids). -/
theorem c10_layout_terminates_witness :
    (akeys exTriangle.nodes).Nodup ∧
    (assignLayersFuel exTriangle exTriangle.nodes.length (innerFuelFor exTriangle)).isSome :=
  ⟨by decide, c10_layout_terminates exTriangle (by decide)⟩

/-! ## The string order: totality, antisymmetry, transitivity -/

theorem strLeChars_total : ∀ as bs, strLeChars as bs = true ∨ strLeChars bs as = true
  | [], _ => Or.inl rfl
  | _ :: _, [] => Or.inr rfl
  | a :: as, b :: bs => by
    show (if a.val < b.val then true else if b.val < a.val then false
        else strLeChars as bs) = true ∨
      (if b.val < a.val then true else if a.val < b.val then false
        else strLeChars bs as) = true
    by_cases h1 : a.val < b.val
    · left
      rw [if_pos h1]
    · by_cases h2 : b.val < a.val
      · right
        rw [if_pos h2]
      · rw [if_neg h1, if_neg h2, if_neg h2, if_neg h1]
        exact strLeChars_total as bs

theorem strLeChars_antisymm :
    ∀ as bs, strLeChars as bs = true → strLeChars bs as = true → as = bs
  | [], [], _, _ => rfl
  | [], _ :: _, _, h2 => by simp [strLeChars] at h2
  | _ :: _, [], h1, _ => by simp [strLeChars] at h1
  | a :: as, b :: bs, h1, h2 => by
    have h1' : (if a.val < b.val then true else if b.val < a.val then false
        else strLeChars as bs) = true := h1
    have h2' : (if b.val < a.val then true else if a.val < b.val then false
        else strLeChars bs as) = true := h2
    by_cases hab : a.val < b.val
    · have hab' : a.val.toNat < b.val.toNat := hab
      have hba : ¬ b.val < a.val := by
        intro h
        have h' : b.val.toNat < a.val.toNat := h
        omega
      rw [if_neg hba, if_pos hab] at h2'
      simp at h2'
    · by_cases hba : b.val < a.val
      · rw [if_neg hab, if_pos hba] at h1'
        simp at h1'
      · have hv : a = b := by
          have n1 : ¬ a.val.toNat < b.val.toNat := hab
          have n2 : ¬ b.val.toNat < a.val.toNat := hba
          exact Char.eq_of_val_eq (UInt32.ext (by omega))
        subst hv
        rw [if_neg hab, if_neg hab] at h1'
        rw [if_neg hba, if_neg hba] at h2'
        rw [strLeChars_antisymm as bs h1' h2']

theorem strLeChars_trans :
    ∀ as bs cs, strLeChars as bs = true → strLeChars bs cs = true →
      strLeChars as cs = true
  | [], _, _, _, _ => rfl
  | _ :: _, [], _, h1, _ => by simp [strLeChars] at h1
  | _ :: _, _ :: _, [], _, h2 => by simp [strLeChars] at h2
  | a :: as, b :: bs, c :: cs, h1, h2 => by
    have h1' : (if a.val < b.val then true else if b.val < a.val then false
        else strLeChars as bs) = true := h1
    have h2' : (if b.val < c.val then true else if c.val < b.val then false
        else strLeChars bs cs) = true := h2
    show (if a.val < c.val then true else if c.val < a.val then false
        else strLeChars as cs) = true
    by_cases hab : a.val < b.val
    · have hab' : a.val.toNat < b.val.toNat := hab
      by_cases hbc : b.val < c.val
      · have hbc' : b.val.toNat < c.val.toNat := hbc
        rw [if_pos (show a.val < c.val from show a.val.toNat < c.val.toNat by omega)]
      · by_cases hcb : c.val < b.val
        · rw [if_neg hbc, if_pos hcb] at h2'
          simp at h2'
        · have hv : b = c := by
            have n1 : ¬ b.val.toNat < c.val.toNat := hbc
            have n2 : ¬ c.val.toNat < b.val.toNat := hcb
            exact Char.eq_of_val_eq (UInt32.ext (by omega))
          subst hv
          rw [if_pos hab]
    · by_cases hba : b.val < a.val
      · rw [if_neg hab, if_pos hba] at h1'
        simp at h1'
      · have hv : a = b := by
          have n1 : ¬ a.val.toNat < b.val.toNat := hab
          have n2 : ¬ b.val.toNat < a.val.toNat := hba
          exact Char.eq_of_val_eq (UInt32.ext (by omega))
        subst hv
        rw [if_neg hab, if_neg hba] at h1'
        by_cases hac : a.val < c.val
        · rw [if_pos hac]
        · by_cases hca : c.val < a.val
          · rw [if_neg hac, if_pos hca] at h2'
            simp at h2'
          · rw [if_neg hac, if_neg hca] at h2' ⊢
            exact strLeChars_trans as bs cs h1' h2'

theorem strLe_total (a b : String) : strLe a b = true ∨ strLe b a = true :=
  strLeChars_total a.data b.data

theorem strLe_antisymm (a b : String) (h1 : strLe a b = true)
    (h2 : strLe b a = true) : a = b := by
  cases a with
  | mk da =>
    cases b with
    | mk db =>
      rw [strLeChars_antisymm da db h1 h2]

theorem strLe_trans (a b c : String) (h1 : strLe a b = true)
    (h2 : strLe b c = true) : strLe a c = true :=
  strLeChars_trans a.data b.data c.data h1 h2

/-! ## Sortedness of the insertion sort, distinctness after `dedup` -/

theorem insertSorted_chain {α : Type} (le : α → α → Bool)
    (htot : ∀ a b, le a b = true ∨ le b a = true) (a : α) :
    ∀ l, List.Chain' (fun x y => le x y = true) l →
      List.Chain' (fun x y => le x y = true) (insertSorted le a l)
  | [], _ => List.chain'_singleton a
  | b :: t, h => by
    rw [insertSorted]
    by_cases hab : le a b = true
    · rw [if_pos hab]
      exact List.chain'_cons.mpr ⟨hab, h⟩
    · rw [if_neg hab]
      have hba : le b a = true := (htot a b).resolve_left hab
      cases t with
      | nil =>
        exact List.chain'_cons.mpr ⟨hba, List.chain'_singleton a⟩
      | cons c t' =>
        have hbc := (List.chain'_cons.mp h).1
        have hct := (List.chain'_cons.mp h).2
        have hrec := insertSorted_chain le htot a (c :: t') hct
        by_cases hac : le a c = true
        · rw [insertSorted, if_pos hac] at hrec ⊢
          exact List.chain'_cons.mpr ⟨hba, hrec⟩
        · rw [insertSorted, if_neg hac] at hrec ⊢
          exact List.chain'_cons.mpr ⟨hbc, hrec⟩

theorem sortBy_chain {α : Type} (le : α → α → Bool)
    (htot : ∀ a b, le a b = true ∨ le b a = true) :
    ∀ l : List α, List.Chain' (fun x y => le x y = true) (sortBy le l)
  | [] => List.chain'_nil
  | a :: t => by
    unfold sortBy
    rw [List.foldr_cons]
    exact insertSorted_chain le htot a _ (sortBy_chain le htot t)

theorem dedupAdj_sublist {α : Type} [DecidableEq α] : ∀ l : List α, List.Sublist (dedupAdj l) l
  | [] => List.Sublist.refl []
  | [a] => List.Sublist.refl [a]
  | a :: b :: t => by
    rw [dedupAdj]
    split
    · exact List.Sublist.cons a (dedupAdj_sublist (b :: t))
    · exact List.Sublist.cons₂ a (dedupAdj_sublist (b :: t))

theorem chain'_rel_of_mem {α : Type} (le : α → α → Bool)
    (htrans : ∀ a b c, le a b = true → le b c = true → le a c = true) :
    ∀ (l : List α) (a : α), List.Chain' (fun x y => le x y = true) (a :: l) →
      ∀ x ∈ l, le a x = true
  | [], _, _, x, hx => absurd hx (List.not_mem_nil x)
  | b :: t, a, h, x, hx => by
    have hab := (List.chain'_cons.mp h).1
    rcases List.mem_cons.mp hx with rfl | hx'
    · exact hab
    · exact htrans a b x hab
        (chain'_rel_of_mem le htrans t b (List.chain'_cons.mp h).2 x hx')

theorem nodup_dedupAdj_of_chain {α : Type} [DecidableEq α] (le : α → α → Bool)
    (hanti : ∀ a b, le a b = true → le b a = true → a = b)
    (htrans : ∀ a b c, le a b = true → le b c = true → le a c = true) :
    ∀ l : List α, List.Chain' (fun x y => le x y = true) l → (dedupAdj l).Nodup
  | [], _ => List.nodup_nil
  | [a], _ => List.nodup_singleton a
  | a :: b :: t, h => by
    have hab := (List.chain'_cons.mp h).1
    have hbt := (List.chain'_cons.mp h).2
    rw [dedupAdj]
    split
    · exact nodup_dedupAdj_of_chain le hanti htrans (b :: t) hbt
    · rename_i hne
      refine List.Nodup.cons ?_ (nodup_dedupAdj_of_chain le hanti htrans (b :: t) hbt)
      intro hmem
      have hmem' : a ∈ b :: t := (dedupAdj_sublist (b :: t)).subset hmem
      rcases List.mem_cons.mp hmem' with rfl | hmem2
      · exact hne rfl
      · have hba : le b a = true := chain'_rel_of_mem le htrans t b hbt a hmem2
        exact hne (hanti a b hab hba)

theorem mem_dedupAdj_of_mem {α : Type} [DecidableEq α] :
    ∀ (l : List α) (x : α), x ∈ l → x ∈ dedupAdj l
  | [], _, hx => absurd hx (List.not_mem_nil _)
  | [a], _, hx => hx
  | a :: b :: t, x, hx => by
    rw [dedupAdj]
    split
    · rename_i heq
      rcases List.mem_cons.mp hx with rfl | hx'
      · exact mem_dedupAdj_of_mem (b :: t) x (heq ▸ List.mem_cons_self b t)
      · exact mem_dedupAdj_of_mem (b :: t) x hx'
    · rcases List.mem_cons.mp hx with rfl | hx'
      · exact List.mem_cons_self _ _
      · exact List.mem_cons_of_mem _ (mem_dedupAdj_of_mem (b :: t) x hx')

theorem mem_insertSorted_of_mem {α : Type} (le : α → α → Bool) (a x : α) :
    ∀ l : List α, x ∈ l → x ∈ insertSorted le a l
  | [], hx => absurd hx (List.not_mem_nil _)
  | b :: t, hx => by
    rw [insertSorted]
    split
    · exact List.mem_cons_of_mem a hx
    · rcases List.mem_cons.mp hx with rfl | hx'
      · exact List.mem_cons_self _ _
      · exact List.mem_cons_of_mem _ (mem_insertSorted_of_mem le a x t hx')

theorem self_mem_insertSorted {α : Type} (le : α → α → Bool) (a : α) :
    ∀ l : List α, a ∈ insertSorted le a l
  | [] => List.mem_singleton.mpr rfl
  | b :: t => by
    rw [insertSorted]
    split
    · exact List.mem_cons_self _ _
    · exact List.mem_cons_of_mem _ (self_mem_insertSorted le a t)

theorem mem_sortBy_of_mem {α : Type} (le : α → α → Bool) (x : α) :
    ∀ l : List α, x ∈ l → x ∈ sortBy le l
  | [], hx => absurd hx (List.not_mem_nil _)
  | a :: t, hx => by
    unfold sortBy
    rw [List.foldr_cons]
    rcases List.mem_cons.mp hx with rfl | hx'
    · exact self_mem_insertSorted le x _
    · exact mem_insertSorted_of_mem le a x _ (mem_sortBy_of_mem le x t hx')

theorem neighborsOf_nodup (g : Graph) (P : List NodeId) (u : NodeId) :
    (neighborsOf g P u).Nodup :=
  nodup_dedupAdj_of_chain strLe strLe_antisymm strLe_trans _
    (sortBy_chain strLe strLe_total _)

theorem mem_neighborsOf (g : Graph) (P : List NodeId) (u k : NodeId) :
    k ∈ neighborsOf g P u ↔ ∃ e ∈ g.edges, e.fromId = u ∧ e.toId = k ∧ k ∉ P := by
  unfold neighborsOf
  constructor
  · intro h
    have h1 := (dedupAdj_sublist _).subset h
    have h2 := mem_sortBy strLe k _ h1
    rw [List.mem_map] at h2
    obtain ⟨e, he, rfl⟩ := h2
    rw [List.mem_filter] at he
    obtain ⟨he1, he2⟩ := he
    simp only [Bool.and_eq_true, decide_eq_true_eq] at he2
    exact ⟨e, he1, he2.1, rfl, he2.2⟩
  · intro h
    obtain ⟨e, he, hfrom, hto, hP⟩ := h
    refine mem_dedupAdj_of_mem _ k (mem_sortBy_of_mem strLe k _ ?_)
    rw [List.mem_map]
    refine ⟨e, ?_, hto⟩
    rw [List.mem_filter]
    refine ⟨he, ?_⟩
    simp only [Bool.and_eq_true, decide_eq_true_eq]
    rw [hto]
    exact ⟨hfrom, hP⟩

/-! ## Pointwise effect of the relaxation loop -/

theorem relaxNeighbor_indeg_ne (uL : Nat) (s : KState) (v k : NodeId) (hk : k ≠ v) :
    alookup (relaxNeighbor uL s v).indeg k = alookup s.indeg k := by
  unfold relaxNeighbor
  cases hl : alookup s.indeg v with
  | none => rfl
  | some d =>
    dsimp only
    rw [alookup_ainsert, if_neg (fun h => hk h.symm)]

theorem relaxNeighbor_indeg_self (uL : Nat) (s : KState) (v : NodeId) :
    alookup (relaxNeighbor uL s v).indeg v =
      match alookup s.indeg v with
      | none => none
      | some d => some (d - 1) := by
  unfold relaxNeighbor
  cases hl : alookup s.indeg v with
  | none =>
    dsimp only
    exact hl
  | some d =>
    dsimp only
    rw [alookup_ainsert, if_pos rfl]

theorem relaxNeighbor_layers_ne (uL : Nat) (s : KState) (v k : NodeId) (hk : k ≠ v) :
    alookup (relaxNeighbor uL s v).layers k = alookup s.layers k := by
  unfold relaxNeighbor
  cases hl : alookup s.indeg v with
  | none =>
    dsimp only
    rw [alookup_ainsert, if_neg (fun h => hk h.symm)]
  | some d =>
    dsimp only
    rw [alookup_ainsert, if_neg (fun h => hk h.symm)]

theorem relaxNeighbor_layers_self (uL : Nat) (s : KState) (v : NodeId) :
    alookup (relaxNeighbor uL s v).layers v =
      some (max ((alookup s.layers v).getD 0) (uL + 1)) := by
  unfold relaxNeighbor
  cases hl : alookup s.indeg v with
  | none =>
    dsimp only
    rw [alookup_ainsert, if_pos rfl]
  | some d =>
    dsimp only
    rw [alookup_ainsert, if_pos rfl]

theorem relaxNeighbor_queue_mono (uL : Nat) (s : KState) (v x : NodeId)
    (hx : x ∈ s.queue) : x ∈ (relaxNeighbor uL s v).queue := by
  unfold relaxNeighbor
  cases hl : alookup s.indeg v with
  | none => exact hx
  | some d =>
    dsimp only
    split
    · exact List.mem_append_left _ hx
    · exact hx

theorem relaxNeighbor_queue_mem (uL : Nat) (s : KState) (v x : NodeId)
    (hx : x ∈ (relaxNeighbor uL s v).queue) :
    x ∈ s.queue ∨ (x = v ∧ ∃ d, alookup s.indeg v = some d ∧ d - 1 = 0) := by
  unfold relaxNeighbor at hx
  cases hl : alookup s.indeg v with
  | none =>
    rw [hl] at hx
    exact Or.inl hx
  | some d =>
    rw [hl] at hx
    dsimp only at hx
    by_cases hz : d - 1 = 0
    · rw [if_pos hz] at hx
      rcases List.mem_append.mp hx with h | h
      · exact Or.inl h
      · exact Or.inr ⟨List.mem_singleton.mp h, d, rfl, hz⟩
    · rw [if_neg hz] at hx
      exact Or.inl hx

theorem relaxNeighbor_queue_trigger (uL : Nat) (s : KState) (v : NodeId) (d : Nat)
    (hl : alookup s.indeg v = some d) (hz : d - 1 = 0) :
    v ∈ (relaxNeighbor uL s v).queue := by
  unfold relaxNeighbor
  rw [hl]
  dsimp only
  rw [if_pos hz]
  exact List.mem_append_right _ (List.mem_singleton.mpr rfl)

/-- Pointwise characterization of the whole `for v in &neighbors` loop
(for a duplicate-free neighbor list): the in-degree of each neighbor is
decremented once, its layer is raised to at least `uL + 1`, other
entries are untouched, and exactly the neighbors that reach in-degree
zero are appended to the queue. -/
theorem relax_fold_eq (uL : Nat) :
    ∀ (ns : List NodeId) (s : KState), ns.Nodup →
      (∀ k, k ∉ ns →
        alookup (ns.foldl (relaxNeighbor uL) s).indeg k = alookup s.indeg k) ∧
      (∀ k, k ∉ ns →
        alookup (ns.foldl (relaxNeighbor uL) s).layers k = alookup s.layers k) ∧
      (∀ k ∈ ns, alookup (ns.foldl (relaxNeighbor uL) s).indeg k =
        match alookup s.indeg k with
        | none => none
        | some d => some (d - 1)) ∧
      (∀ k ∈ ns, alookup (ns.foldl (relaxNeighbor uL) s).layers k =
        some (max ((alookup s.layers k).getD 0) (uL + 1))) ∧
      (∀ x ∈ s.queue, x ∈ (ns.foldl (relaxNeighbor uL) s).queue) ∧
      (∀ x ∈ (ns.foldl (relaxNeighbor uL) s).queue, x ∈ s.queue ∨
        (x ∈ ns ∧ alookup (ns.foldl (relaxNeighbor uL) s).indeg x = some 0)) ∧
      (∀ k ∈ ns, ∀ d, alookup s.indeg k = some d → d - 1 = 0 →
        k ∈ (ns.foldl (relaxNeighbor uL) s).queue)
  | [], s, _ =>
    ⟨fun k _ => rfl, fun k _ => rfl, fun k hk => absurd hk (List.not_mem_nil k),
     fun k hk => absurd hk (List.not_mem_nil k), fun x hx => hx,
     fun x hx => Or.inl hx, fun k hk => absurd hk (List.not_mem_nil k)⟩
  | v :: t, s, hnd => by
    rw [List.foldl_cons]
    have hvt : v ∉ t := (List.nodup_cons.mp hnd).1
    have hndt : t.Nodup := (List.nodup_cons.mp hnd).2
    obtain ⟨i1, l1, i2, l2, qm, qc, qt⟩ := relax_fold_eq uL t (relaxNeighbor uL s v) hndt
    refine ⟨?_, ?_, ?_, ?_, ?_, ?_, ?_⟩
    · intro k hk
      have hk1 : k ≠ v := fun h => hk (h ▸ List.mem_cons_self v t)
      have hk2 : k ∉ t := fun h => hk (List.mem_cons_of_mem v h)
      rw [i1 k hk2, relaxNeighbor_indeg_ne uL s v k hk1]
    · intro k hk
      have hk1 : k ≠ v := fun h => hk (h ▸ List.mem_cons_self v t)
      have hk2 : k ∉ t := fun h => hk (List.mem_cons_of_mem v h)
      rw [l1 k hk2, relaxNeighbor_layers_ne uL s v k hk1]
    · intro k hk
      rcases List.mem_cons.mp hk with rfl | hk'
      · rw [i1 k hvt, relaxNeighbor_indeg_self]
      · rw [i2 k hk', relaxNeighbor_indeg_ne uL s v k (fun h => hvt (h ▸ hk'))]
    · intro k hk
      rcases List.mem_cons.mp hk with rfl | hk'
      · rw [l1 k hvt, relaxNeighbor_layers_self]
      · rw [l2 k hk', relaxNeighbor_layers_ne uL s v k (fun h => hvt (h ▸ hk'))]
    · intro x hx
      exact qm x (relaxNeighbor_queue_mono uL s v x hx)
    · intro x hx
      rcases qc x hx with h | h
      · rcases relaxNeighbor_queue_mem uL s v x h with h' | h'
        · exact Or.inl h'
        · obtain ⟨hxv, d, hd, hz⟩ := h'
          subst hxv
          right
          refine ⟨List.mem_cons_self x t, ?_⟩
          rw [i1 x hvt, relaxNeighbor_indeg_self, hd]
          simp [hz]
      · exact Or.inr ⟨List.mem_cons_of_mem v h.1, h.2⟩
    · intro k hk d hd hz
      rcases List.mem_cons.mp hk with rfl | hk'
      · exact qm k (relaxNeighbor_queue_trigger uL s k d hd hz)
      · refine qt k hk' d ?_ hz
        rw [relaxNeighbor_indeg_ne uL s v k (fun h => hvt (h ▸ hk'))]
        exact hd

/-! ## Counting lemmas for in-degrees -/

theorem filter_length_split {α : Type} (p q r : α → Bool)
    (hsplit : ∀ a, p a = (q a || r a)) (hdisj : ∀ a, ¬(q a = true ∧ r a = true)) :
    ∀ l : List α, (l.filter p).length = (l.filter q).length + (l.filter r).length
  | [] => rfl
  | a :: t => by
    have ih := filter_length_split p q r hsplit hdisj t
    have hp := hsplit a
    cases hqa : q a with
    | true =>
      cases hra : r a with
      | true => exact absurd ⟨hqa, hra⟩ (hdisj a)
      | false =>
        have hpa : p a = true := by rw [hp, hqa, hra]; rfl
        rw [List.filter_cons, List.filter_cons, List.filter_cons, hpa, hqa, hra]
        rw [if_pos rfl, if_pos rfl, if_neg (fun h => Bool.noConfusion h)]
        simp only [List.length_cons]
        omega
    | false =>
      cases hra : r a with
      | true =>
        have hpa : p a = true := by rw [hp, hqa, hra]; rfl
        rw [List.filter_cons, List.filter_cons, List.filter_cons, hpa, hqa, hra]
        rw [if_pos rfl, if_neg (fun h => Bool.noConfusion h), if_pos rfl]
        simp only [List.length_cons]
        omega
      | false =>
        have hpa : p a = false := by rw [hp, hqa, hra]; rfl
        rw [List.filter_cons, List.filter_cons, List.filter_cons, hpa, hqa, hra]
        rw [if_neg (fun h => Bool.noConfusion h), if_neg (fun h => Bool.noConfusion h),
          if_neg (fun h => Bool.noConfusion h)]
        exact ih

theorem indegCount_append (g : Graph) (P : List NodeId) (u k : NodeId) (hu : u ∉ P) :
    indegCount g P k =
      indegCount g (P ++ [u]) k +
        (g.edges.filter
          (fun e => decide (e.toId = k) && decide (e.fromId = u))).length := by
  unfold indegCount
  refine filter_length_split _ _ _ ?_ ?_ g.edges
  · intro e
    by_cases h1 : e.fromId = u
    · by_cases h2 : e.toId = k
      · simp [h1, h2, hu, List.mem_append]
      · simp [h2]
    · by_cases h2 : e.toId = k
      · by_cases h3 : e.fromId ∈ P
        · simp [h1, h2, h3, List.mem_append]
        · simp [h1, h2, h3, List.mem_append]
      · simp [h2]
  · intro e h
    obtain ⟨h1, h2⟩ := h
    simp only [Bool.and_eq_true, decide_eq_true_eq] at h1 h2
    exact h1.2 (List.mem_append_right _ (List.mem_singleton.mpr h2.2))

theorem length_filter_eq_one_of_nodup_map {α β : Type} [DecidableEq β] (f : α → β) :
    ∀ (l : List α) (v : β), (l.map f).Nodup → ∀ a ∈ l, f a = v →
      (l.filter (fun x => decide (f x = v))).length = 1
  | [], v, _, a, ha, _ => absurd ha (List.not_mem_nil a)
  | b :: t, v, hnd, a, ha, hfa => by
    rw [List.map_cons, List.nodup_cons] at hnd
    rw [List.filter_cons]
    by_cases hb : f b = v
    · have hbv : decide (f b = v) = true := by simp [hb]
      rw [hbv]
      have hnil : t.filter (fun x => decide (f x = v)) = [] := by
        rw [List.filter_eq_nil_iff]
        intro x hx hfx
        rw [decide_eq_true_eq] at hfx
        exact hnd.1 (by rw [hb, ← hfx]; exact List.mem_map_of_mem f hx)
      rw [hnil, if_pos rfl]
      rfl
    · have hbv : decide (f b = v) = false := by simp [hb]
      rw [hbv, if_neg (fun h => Bool.noConfusion h)]
      have ha' : a ∈ t := by
        rcases List.mem_cons.mp ha with rfl | h
        · exact absurd hfa hb
        · exact h
      exact length_filter_eq_one_of_nodup_map f t v hnd.2 a ha' hfa

/-! ## Association-list helpers for the initial in-degree map -/

theorem alookup_mem_pair {α β : Type} [DecidableEq α] :
    ∀ (l : List (α × β)) (k : α) (v : β), alookup l k = some v → (k, v) ∈ l
  | [], _, _, h => by simp [alookup] at h
  | (k', v') :: t, k, v, h => by
    rw [alookup] at h
    by_cases hk : k' = k
    · rw [if_pos hk] at h
      subst hk
      rw [Option.some.injEq] at h
      subst h
      exact List.mem_cons_self _ _
    · rw [if_neg hk] at h
      exact List.mem_cons_of_mem _ (alookup_mem_pair t k v h)

theorem alookup_of_mem_nodup {α β : Type} [DecidableEq α] :
    ∀ (l : List (α × β)) (k : α) (v : β), (akeys l).Nodup → (k, v) ∈ l →
      alookup l k = some v
  | [], _, _, _, h => absurd h (List.not_mem_nil _)
  | (k', v') :: t, k, v, hnd, h => by
    rw [akeys_cons, List.nodup_cons] at hnd
    rw [alookup]
    rcases List.mem_cons.mp h with heq | h'
    · rw [Prod.mk.injEq] at heq
      rw [if_pos heq.1.symm, heq.2]
    · by_cases hk : k' = k
      · subst hk
        exact absurd (List.mem_map_of_mem Prod.fst h') hnd.1
      · rw [if_neg hk]
        exact alookup_of_mem_nodup t k v hnd.2 h'

theorem akeys_ainsert_of_not_mem {α β : Type} [DecidableEq α] :
    ∀ (l : List (α × β)) (k : α) (v : β), k ∉ akeys l →
      akeys (ainsert l k v) = akeys l ++ [k]
  | [], _, _, _ => rfl
  | (k', v') :: t, k, v, h => by
    rw [ainsert]
    simp only [akeys_cons, List.mem_cons] at h
    push_neg at h
    rw [if_neg (fun hh => h.1 hh.symm)]
    simp only [akeys_cons]
    rw [akeys_ainsert_of_not_mem t k v h.2, List.cons_append]

theorem akeys_ainsert_nodup {α β : Type} [DecidableEq α] (l : List (α × β)) (k : α)
    (v : β) (h : (akeys l).Nodup) : (akeys (ainsert l k v)).Nodup := by
  by_cases hk : k ∈ akeys l
  · rw [akeys_ainsert_of_mem l k v hk]
    exact h
  · rw [akeys_ainsert_of_not_mem l k v hk]
    rw [List.nodup_append]
    exact ⟨h, List.nodup_singleton k, fun a ha hb =>
      hk ((List.mem_singleton.mp hb) ▸ ha)⟩

/-- The inner Kahn loop preserves the full correctness invariant for
graphs without duplicate edges. -/
theorem kahnInner_inv3 (g : Graph) (hsimple : SimpleEdges g) :
    ∀ (fuel : Nat) (st st' : KState), kahnInner g fuel st = some st' →
      KahnInv g st → KahnInv g st'
  | 0, _, _, heq, _ => Option.noConfusion heq
  | fuel + 1, st, st', heq, hinv => by
    rw [kahnInner] at heq
    cases hq : st.queue with
    | nil =>
      rw [hq] at heq
      dsimp only at heq
      exact Option.some.inj heq ▸ hinv
    | cons u rest =>
      rw [hq] at heq
      dsimp only at heq
      by_cases hu : u ∈ st.processed
      · rw [if_pos hu] at heq
        refine kahnInner_inv3 g hsimple fuel _ st' heq ?_
        refine ⟨hinv.keysEq, ?_, hinv.eqCount, ?_, hinv.pred, hinv.rel⟩
        · intro x hx hxp
          exact hinv.queueZero x (by rw [hq]; exact List.mem_cons_of_mem u hx) hxp
        · intro k hkk hkp hk0
          have h := hinv.queueInv k hkk hkp hk0
          rw [hq] at h
          rcases List.mem_cons.mp h with rfl | h'
          · exact absurd hu hkp
          · exact h'
      · rw [if_neg hu] at heq
        have hu0 : alookup st.indeg u = some 0 :=
          hinv.queueZero u (by rw [hq]; exact List.mem_cons_self u rest) hu
        have huk : u ∈ akeys st.indeg := alookup_mem_akeys st.indeg u 0 hu0
        have hcount0 : indegCount g st.processed u = 0 := by
          have h := hinv.eqCount u huk hu
          rw [hu0] at h
          exact (Option.some.inj h).symm
        have hnopred : ∀ e ∈ g.edges, e.toId = u → e.fromId ∈ st.processed := by
          intro e he hto
          by_contra hfrom
          have hmem : e ∈ g.edges.filter
              (fun e => decide (e.toId = u) && decide (e.fromId ∉ st.processed)) := by
            rw [List.mem_filter]
            exact ⟨he, by simp [hto, hfrom]⟩
          unfold indegCount at hcount0
          rw [List.length_eq_zero] at hcount0
          rw [hcount0] at hmem
          exact absurd hmem (List.not_mem_nil e)
        obtain ⟨i1, l1, i2, l2, qm, qc, qt⟩ := relax_fold_eq ((alookup st.layers u).getD 0)
          (neighborsOf g (st.processed ++ [u]) u)
          { st with queue := rest, processed := st.processed ++ [u] }
          (neighborsOf_nodup g (st.processed ++ [u]) u)
        dsimp only at i1 l1 i2 l2 qm qc qt
        obtain ⟨kk, _, pp, _, _⟩ := relax_fold_facts ((alookup st.layers u).getD 0)
          (neighborsOf g (st.processed ++ [u]) u)
          { st with queue := rest, processed := st.processed ++ [u] }
        dsimp only at kk pp
        have hUP : u ∈ st.processed ++ [u] :=
          List.mem_append_right _ (List.mem_singleton.mpr rfl)
        have huns : u ∉ neighborsOf g (st.processed ++ [u]) u := by
          intro h
          obtain ⟨e', _, _, hto, hnp⟩ := (mem_neighborsOf g _ u u).mp h
          exact hnp hUP
        refine kahnInner_inv3 g hsimple fuel _ st' heq ?_
        refine ⟨?_, ?_, ?_, ?_, ?_, ?_⟩
        · rw [kk]
          exact hinv.keysEq
        · -- queueZero
          intro x hx hxp
          rw [pp] at hxp
          have hxp1 : x ∉ st.processed := fun h => hxp (List.mem_append_left _ h)
          rcases qc x hx with h | h
          · have hold : alookup st.indeg x = some 0 :=
              hinv.queueZero x (by rw [hq]; exact List.mem_cons_of_mem u h) hxp1
            by_cases hxns : x ∈ neighborsOf g (st.processed ++ [u]) u
            · rw [i2 x hxns, hold]
            · rw [i1 x hxns]
              exact hold
          · exact h.2
        · -- eqCount
          intro k hkk2 hkp
          rw [kk] at hkk2
          rw [pp] at hkp ⊢
          have hkp1 : k ∉ st.processed := fun h => hkp (List.mem_append_left _ h)
          have hkne : k ≠ u :=
            fun h => hkp (h ▸ List.mem_append_right _ (List.mem_singleton.mpr rfl))
          have hold := hinv.eqCount k hkk2 hkp1
          by_cases hkns : k ∈ neighborsOf g (st.processed ++ [u]) u
          · obtain ⟨e0, he0, hf0, ht0, _⟩ := (mem_neighborsOf g _ u k).mp hkns
            have hone : (g.edges.filter
                (fun e => decide (e.toId = k) && decide (e.fromId = u))).length = 1 := by
              have h := length_filter_eq_one_of_nodup_map
                (fun e => (e.fromId, e.toId)) g.edges (u, k)
                (show (g.edges.map (fun e => (e.fromId, e.toId))).Nodup from hsimple)
                e0 he0 (by dsimp only; rw [hf0, ht0])
              rw [← h]
              refine congrArg List.length (List.filter_congr ?_)
              intro e _
              by_cases h1 : e.fromId = u
              · by_cases h2 : e.toId = k
                · simp [h1, h2]
                · simp [h1, h2]
              · simp [h1]
            have hsplit := indegCount_append g st.processed u k hu
            rw [hone] at hsplit
            rw [i2 k hkns, hold]
            dsimp only
            have hsub : indegCount g st.processed k - 1 =
                indegCount g (st.processed ++ [u]) k := by omega
            rw [hsub]
          · have hzero : (g.edges.filter
                (fun e => decide (e.toId = k) && decide (e.fromId = u))).length = 0 := by
              rw [List.length_eq_zero, List.filter_eq_nil_iff]
              intro e he hpe
              simp only [Bool.and_eq_true, decide_eq_true_eq] at hpe
              refine hkns ((mem_neighborsOf g (st.processed ++ [u]) u k).mpr ?_)
              exact ⟨e, he, hpe.2, hpe.1, hkp⟩
            have hsplit := indegCount_append g st.processed u k hu
            rw [hzero] at hsplit
            rw [i1 k hkns, hold, hsplit, Nat.add_zero]
        · -- queueInv
          intro k hkk2 hkp hk0
          rw [kk] at hkk2
          rw [pp] at hkp
          have hkp1 : k ∉ st.processed := fun h => hkp (List.mem_append_left _ h)
          have hkne : k ≠ u :=
            fun h => hkp (h ▸ List.mem_append_right _ (List.mem_singleton.mpr rfl))
          by_cases hkns : k ∈ neighborsOf g (st.processed ++ [u]) u
          · have hold := hinv.eqCount k hkk2 hkp1
            have h2 := i2 k hkns
            rw [hold] at h2
            have h3 := h2.symm.trans hk0
            exact qt k hkns _ hold (Option.some.inj h3)
          · have h1 := i1 k hkns
            rw [h1] at hk0
            have h := hinv.queueInv k hkk2 hkp1 hk0
            rw [hq] at h
            rcases List.mem_cons.mp h with rfl | h'
            · exact absurd rfl hkne
            · exact qm k h'
        · -- pred
          intro e he hto
          rw [pp] at hto ⊢
          rcases List.mem_append.mp hto with h | h
          · exact List.mem_append_left _ (hinv.pred e he h)
          · exact List.mem_append_left _ (hnopred e he (List.mem_singleton.mp h))
        · -- rel
          intro e he hfrom
          rw [pp] at hfrom
          rcases List.mem_append.mp hfrom with hfO | hfU
          · have hf_old := hinv.rel e he hfO
            have hfns : e.fromId ∉ neighborsOf g (st.processed ++ [u]) u := by
              intro h
              obtain ⟨e', _, _, _, hnp⟩ := (mem_neighborsOf g _ u e.fromId).mp h
              exact hnp (List.mem_append_left _ hfO)
            rw [l1 e.fromId hfns]
            by_cases htns : e.toId ∈ neighborsOf g (st.processed ++ [u]) u
            · rw [l2 e.toId htns]
              simp only [Option.getD_some]
              exact Nat.le_trans hf_old (Nat.le_max_left _ _)
            · rw [l1 e.toId htns]
              exact hf_old
          · have hfu : e.fromId = u := List.mem_singleton.mp hfU
            have hvO : e.toId ∉ st.processed := fun h => hu (hfu ▸ hinv.pred e he h)
            have hvne : e.toId ≠ u := by
              intro h
              exact hu (hfu ▸ hnopred e he h)
            have hvP : e.toId ∉ st.processed ++ [u] := by
              intro h
              rcases List.mem_append.mp h with h' | h'
              · exact hvO h'
              · exact hvne (List.mem_singleton.mp h')
            have hvns : e.toId ∈ neighborsOf g (st.processed ++ [u]) u :=
              (mem_neighborsOf g (st.processed ++ [u]) u e.toId).mpr
                ⟨e, he, hfu, rfl, hvP⟩
            rw [l2 e.toId hvns, hfu, l1 u huns]
            simp only [Option.getD_some]
            exact Nat.le_max_right _ _

/-- A finite set in which every element has a predecessor contains a
cycle. -/
theorem cycle_of_descent (S : List NodeId) (r : NodeId → NodeId → Prop)
    (hstep : ∀ k ∈ S, ∃ p, p ∈ S ∧ r p k) (k0 : NodeId) (h0 : k0 ∈ S) :
    ∃ u, Relation.TransGen r u u := by
  classical
  have hex : ∀ k, ∃ p, k ∈ S → p ∈ S ∧ r p k := by
    intro k
    by_cases hk : k ∈ S
    · obtain ⟨p, h1, h2⟩ := hstep k hk
      exact ⟨p, fun _ => ⟨h1, h2⟩⟩
    · exact ⟨k0, fun h => absurd h hk⟩
  choose f hf using hex
  have hchain : ∀ i, f^[i] k0 ∈ S := by
    intro i
    induction i with
    | zero => simpa using h0
    | succ n ihn =>
      rw [Function.iterate_succ_apply']
      exact (hf _ ihn).1
  have hrel : ∀ i, r (f^[i + 1] k0) (f^[i] k0) := by
    intro i
    rw [Function.iterate_succ_apply']
    exact (hf _ (hchain i)).2
  have htg : ∀ d i, Relation.TransGen r (f^[i + d + 1] k0) (f^[i] k0) := by
    intro d
    induction d with
    | zero => intro i; exact Relation.TransGen.single (hrel i)
    | succ n ihn =>
      intro i
      have h1 := ihn (i + 1)
      have h2 := hrel i
      have h3 : i + 1 + n + 1 = i + (n + 1) + 1 := by omega
      rw [h3] at h1
      exact Relation.TransGen.tail h1 h2
  have hmap : ∀ i ∈ Finset.range (S.length + 1), f^[i] k0 ∈ S.toFinset := by
    intro i _
    rw [List.mem_toFinset]
    exact hchain i
  have hcard : S.toFinset.card < (Finset.range (S.length + 1)).card := by
    rw [Finset.card_range]
    exact Nat.lt_succ_of_le S.toFinset_card_le
  obtain ⟨i, hi, j, hj, hne, hfeq⟩ :=
    Finset.exists_ne_map_eq_of_card_lt_of_maps_to hcard hmap
  rcases Nat.lt_or_ge i j with hij | hij
  · obtain ⟨d, rfl⟩ : ∃ d, j = i + d + 1 := ⟨j - i - 1, by omega⟩
    refine ⟨f^[i] k0, ?_⟩
    have h := htg d i
    rw [← hfeq] at h
    exact h
  · rcases Nat.lt_or_ge j i with hji | hji
    · obtain ⟨d, rfl⟩ : ∃ d, i = j + d + 1 := ⟨i - j - 1, by omega⟩
      refine ⟨f^[j] k0, ?_⟩
      have h := htg d j
      rw [hfeq] at h
      exact h
    · exact absurd (by omega : i = j) hne

/-! ## The initial Kahn state satisfies the invariant -/

theorem alookup_isSome_of_mem_akeys {α β : Type} [DecidableEq α] :
    ∀ (l : List (α × β)) (k : α), k ∈ akeys l → ∃ v, alookup l k = some v
  | [], k, h => absurd h (List.not_mem_nil k)
  | (k', v') :: t, k, h => by
    rw [alookup]
    by_cases hk : k' = k
    · exact ⟨v', by rw [if_pos hk]⟩
    · rw [if_neg hk]
      refine alookup_isSome_of_mem_akeys t k ?_
      simp only [akeys_cons, List.mem_cons] at h
      rcases h with h | h
      · exact absurd h.symm hk
      · exact h

theorem foldl_incr_alookup (k : NodeId) :
    ∀ (es : List Edge) (m : List (NodeId × Nat)),
      alookup (es.foldl
        (fun m e => ainsert m e.toId ((alookup m e.toId).getD 0 + 1)) m) k =
      (if (es.filter (fun e => decide (e.toId = k))).length = 0 then alookup m k
       else some ((alookup m k).getD 0 +
         (es.filter (fun e => decide (e.toId = k))).length))
  | [], m => by simp
  | e :: t, m => by
    rw [List.foldl_cons, List.filter_cons]
    have ih := foldl_incr_alookup k t (ainsert m e.toId ((alookup m e.toId).getD 0 + 1))
    have hlkp : alookup (ainsert m e.toId ((alookup m e.toId).getD 0 + 1)) k =
        if e.toId = k then some ((alookup m k).getD 0 + 1) else alookup m k := by
      by_cases hek : e.toId = k
      · rw [alookup_ainsert, if_pos hek, if_pos hek, hek]
      · rw [alookup_ainsert, if_neg hek, if_neg hek]
    by_cases hek : e.toId = k
    · have hd : decide (e.toId = k) = true := by simp [hek]
      rw [hd, if_pos rfl]
      rw [if_pos hek] at hlkp
      rw [ih, hlkp]
      by_cases hz : (t.filter (fun e => decide (e.toId = k))).length = 0
      · rw [if_pos hz,
          if_neg (show ¬ ((e :: t.filter (fun e => decide (e.toId = k))).length = 0)
            by simp)]
        simp only [List.length_cons, hz]
      · rw [if_neg hz,
          if_neg (show ¬ ((e :: t.filter (fun e => decide (e.toId = k))).length = 0)
            by simp)]
        simp only [Option.getD_some, List.length_cons]
        congr 1
        omega
    · have hd : decide (e.toId = k) = false := by simp [hek]
      rw [hd, if_neg (fun h => Bool.noConfusion h)]
      rw [if_neg hek] at hlkp
      rw [ih, hlkp]

theorem foldl_zero_alookup (k : NodeId) :
    ∀ (ids : List NodeId) (m : List (NodeId × Nat)),
      alookup (ids.foldl (fun m id => ainsert m id 0) m) k =
        if k ∈ ids then some 0 else alookup m k
  | [], m => by simp
  | a :: t, m => by
    rw [List.foldl_cons]
    rw [foldl_zero_alookup k t (ainsert m a 0)]
    by_cases hkt : k ∈ t
    · rw [if_pos hkt, if_pos (List.mem_cons_of_mem a hkt)]
    · rw [if_neg hkt]
      by_cases hka : a = k
      · rw [alookup_ainsert, if_pos hka,
          if_pos (show k ∈ a :: t by rw [← hka]; exact List.mem_cons_self a t)]
      · rw [alookup_ainsert, if_neg hka, if_neg (fun h => ?_)]
        rcases List.mem_cons.mp h with rfl | h'
        · exact hka rfl
        · exact hkt h'

theorem alookup_initIndeg (g : Graph) (k : NodeId) :
    alookup (initIndeg g) k =
      if (g.edges.filter (fun e => decide (e.toId = k))).length = 0 then
        (if k ∈ akeys g.nodes then some 0 else none)
      else some ((g.edges.filter (fun e => decide (e.toId = k))).length) := by
  unfold initIndeg
  rw [foldl_incr_alookup, foldl_zero_alookup]
  by_cases hz : (g.edges.filter (fun e => decide (e.toId = k))).length = 0
  · rw [if_pos hz, if_pos hz]
    by_cases hk : k ∈ akeys g.nodes
    · rw [if_pos hk, if_pos hk]
    · rw [if_neg hk, if_neg hk]
      rfl
  · rw [if_neg hz, if_neg hz]
    by_cases hk : k ∈ akeys g.nodes
    · rw [if_pos hk]
      simp
    · rw [if_neg hk]
      simp [alookup]

theorem initIndeg_keys_nodup (g : Graph) : (akeys (initIndeg g)).Nodup := by
  unfold initIndeg
  refine foldl_preserve (P := fun m => (akeys m).Nodup)
    (fun m e hm => akeys_ainsert_nodup m e.toId _ hm) g.edges _ ?_
  refine foldl_preserve (P := fun m => (akeys m).Nodup)
    (fun m id hm => akeys_ainsert_nodup m id 0 hm) (akeys g.nodes) [] ?_
  exact List.nodup_nil

theorem indegCount_nil (g : Graph) (k : NodeId) :
    indegCount g [] k = (g.edges.filter (fun e => decide (e.toId = k))).length := by
  unfold indegCount
  refine congrArg List.length (List.filter_congr ?_)
  intro e _
  simp

theorem kahnInv_init (g : Graph) :
    KahnInv g ⟨zeroIn (initIndeg g), [], initLayers g, initIndeg g⟩ := by
  refine ⟨rfl, ?_, ?_, ?_, ?_, ?_⟩
  · intro x hx _
    dsimp only at hx ⊢
    unfold zeroIn at hx
    have h := mem_sortBy strLe x _ hx
    rw [List.mem_map] at h
    obtain ⟨p, hp, rfl⟩ := h
    rw [List.mem_filter] at hp
    have hp2 : p.2 = 0 := by simpa using hp.2
    have hl := alookup_of_mem_nodup (initIndeg g) p.1 p.2 (initIndeg_keys_nodup g) hp.1
    rw [hp2] at hl
    exact hl
  · intro k hk _
    dsimp only at hk ⊢
    rw [alookup_initIndeg, indegCount_nil]
    by_cases hz : (g.edges.filter (fun e => decide (e.toId = k))).length = 0
    · rw [if_pos hz, hz]
      by_cases hk2 : k ∈ akeys g.nodes
      · rw [if_pos hk2]
      · exfalso
        obtain ⟨v, hv⟩ := alookup_isSome_of_mem_akeys (initIndeg g) k hk
        rw [alookup_initIndeg, if_pos hz, if_neg hk2] at hv
        exact Option.noConfusion hv
    · rw [if_neg hz]
  · intro k _ _ h0
    dsimp only at h0 ⊢
    unfold zeroIn
    refine mem_sortBy_of_mem strLe k _ ?_
    rw [List.mem_map]
    refine ⟨(k, 0), ?_, rfl⟩
    rw [List.mem_filter]
    exact ⟨alookup_mem_pair _ k 0 h0, by simp⟩
  · intro e _ h
    exact absurd h (List.not_mem_nil _)
  · intro e _ h
    exact absurd h (List.not_mem_nil _)

/-- On an acyclic, endpoint-closed graph without duplicate edges, the
first inner Kahn run processes every in-degree key, so `assign_layers`
returns with no forcing round, an empty participant list, and a layer
map that increases along every edge. -/
theorem assignLayers_acyclic (g : Graph) (hnd : (akeys g.nodes).Nodup)
    (hclosed : EndpointsClosed g) (hsimple : SimpleEdges g) (hacyc : Acyclic g) :
    ∀ rounds : Nat,
      ∃ la, assignLayersFuel g rounds (innerFuelFor g) = some (la, []) ∧
        ∀ e ∈ g.edges, (alookup la e.fromId).getD 0 + 1 ≤ (alookup la e.toId).getD 0 := by
  intro rounds
  have hmeas : KMeasure g.edges.length
      ⟨zeroIn (initIndeg g), [], initLayers g, initIndeg g⟩ < innerFuelFor g := by
    unfold KMeasure innerFuelFor universeSize
    dsimp only
    simp only [List.length_nil]
    have hL := initIndeg_length_le g
    unfold universeSize at hL
    have hq := zeroIn_length_le (initIndeg g)
    have h1 : ((initIndeg g).length + 1 - 0) * (g.edges.length + 1) ≤
        (g.nodes.length + g.edges.length + 1) * (g.edges.length + 1) :=
      Nat.mul_le_mul_right _ (by omega)
    have h2 : (g.nodes.length + g.edges.length + 2) * (g.edges.length + 2) =
        (g.nodes.length + g.edges.length + 1) * (g.edges.length + 1) +
          (g.nodes.length + g.edges.length + g.edges.length + 3) := by ring
    omega
  have hKinv : KInv ⟨zeroIn (initIndeg g), [], initLayers g, initIndeg g⟩ :=
    ⟨List.nodup_nil, fun x hx => absurd hx (List.not_mem_nil x),
     zeroIn_subset (initIndeg g)⟩
  obtain ⟨st', heq, hinv', hqnil, hkeys', hlen', hmono, hplen, hgrow⟩ :=
    kahnInner_spec g (innerFuelFor g) _ hKinv hmeas
  have hINV := kahnInner_inv3 g hsimple (innerFuelFor g) _ st' heq (kahnInv_init g)
  have hall : ∀ k ∈ akeys st'.indeg, k ∈ st'.processed := by
    by_contra hnot
    push_neg at hnot
    obtain ⟨k0, hk0, hk0p⟩ := hnot
    have hstep : ∀ k ∈ (akeys st'.indeg).filter (fun x => decide (x ∉ st'.processed)),
        ∃ p, p ∈ (akeys st'.indeg).filter (fun x => decide (x ∉ st'.processed)) ∧
          EdgeRel g p k := by
      intro k hk
      rw [List.mem_filter] at hk
      have hkk := hk.1
      have hkp : k ∉ st'.processed := by simpa using hk.2
      have hcnt := hINV.eqCount k hkk hkp
      have hne0 : indegCount g st'.processed k ≠ 0 := by
        intro h0
        have h := hINV.queueInv k hkk hkp (by rw [hcnt, h0])
        rw [hqnil] at h
        exact absurd h (List.not_mem_nil k)
      obtain ⟨e, he⟩ : ∃ e, e ∈ g.edges.filter
          (fun e => decide (e.toId = k) && decide (e.fromId ∉ st'.processed)) := by
        cases hfe : g.edges.filter
            (fun e => decide (e.toId = k) && decide (e.fromId ∉ st'.processed)) with
        | nil =>
          exfalso
          unfold indegCount at hne0
          rw [hfe] at hne0
          exact hne0 rfl
        | cons a t =>
          exact ⟨a, hfe.symm ▸ List.mem_cons_self a t⟩
      rw [List.mem_filter] at he
      have he2 := he.2
      simp only [Bool.and_eq_true, decide_eq_true_eq] at he2
      refine ⟨e.fromId, ?_, ⟨e, he.1, rfl, he2.1⟩⟩
      rw [List.mem_filter]
      refine ⟨?_, by simpa using he2.2⟩
      rw [hINV.keysEq]
      exact nodes_mem_initIndeg g e.fromId (hclosed e he.1).1
    have hk0mem : k0 ∈ (akeys st'.indeg).filter (fun x => decide (x ∉ st'.processed)) := by
      rw [List.mem_filter]
      exact ⟨hk0, by simpa using hk0p⟩
    obtain ⟨u, hu⟩ := cycle_of_descent _ (EdgeRel g) hstep k0 hk0mem
    exact hacyc u hu
  have hdone : g.nodes.length ≤ st'.processed.length := by
    have hsub : ∀ x ∈ akeys g.nodes, x ∈ st'.processed := by
      intro x hx
      refine hall x ?_
      rw [hINV.keysEq]
      exact nodes_mem_initIndeg g x hx
    have h := nodup_subset_length (akeys g.nodes) st'.processed hnd hsub
    rw [length_akeys] at h
    exact h
  refine ⟨st'.layers, ?_, ?_⟩
  · unfold assignLayersFuel
    dsimp only
    rw [kahnOuter, heq]
    dsimp only
    rw [if_pos hdone]
    rfl
  · intro e he
    refine hINV.rel e he (hall e.fromId ?_)
    rw [hINV.keysEq]
    exact nodes_mem_initIndeg g e.fromId (hclosed e he).1

/-! ## `assign_layers` ignores everything about a node except its key -/

theorem kahnInner_congr (g1 g2 : Graph) (he : g1.edges = g2.edges) :
    ∀ (fuel : Nat) (st : KState), kahnInner g1 fuel st = kahnInner g2 fuel st
  | 0, _ => rfl
  | fuel + 1, st => by
    rw [kahnInner, kahnInner]
    cases hq : st.queue with
    | nil => rfl
    | cons u rest =>
      dsimp only
      by_cases hu : u ∈ st.processed
      · rw [if_pos hu, if_pos hu]
        exact kahnInner_congr g1 g2 he fuel _
      · rw [if_neg hu, if_neg hu]
        have hn : neighborsOf g1 (st.processed ++ [u]) u =
            neighborsOf g2 (st.processed ++ [u]) u := by
          unfold neighborsOf
          rw [he]
        rw [hn]
        exact kahnInner_congr g1 g2 he fuel _

theorem addParticipants_congr (g1 g2 : Graph) (he : g1.edges = g2.edges)
    (stuck acc : List NodeId) :
    addParticipants g1 stuck acc = addParticipants g2 stuck acc := by
  unfold addParticipants
  rw [he]

theorem kahnOuter_congr (g1 g2 : Graph) (he : g1.edges = g2.edges)
    (ff : List (NodeId × Nat)) (total innerFuel : Nat) :
    ∀ (r : Nat) (st : KState) (acc : List NodeId),
      kahnOuter g1 ff total innerFuel r st acc =
        kahnOuter g2 ff total innerFuel r st acc := by
  intro r
  induction r with
  | zero =>
    intro st acc
    rw [kahnOuter, kahnOuter, kahnInner_congr g1 g2 he]
  | succ r0 ih =>
    intro st acc
    rw [kahnOuter, kahnOuter, kahnInner_congr g1 g2 he]
    cases kahnInner g2 innerFuel st with
    | none => rfl
    | some st' =>
      dsimp only
      by_cases hdone : total ≤ st'.processed.length
      · rw [if_pos hdone, if_pos hdone]
      · rw [if_neg hdone, if_neg hdone]
        rw [addParticipants_congr g1 g2 he]
        cases sortBy (forceLe ff) (stuckOf st') with
        | nil => exact ih st' _
        | cons forced tail => exact ih _ _

theorem assignLayersFuel_congr (g1 g2 : Graph) (he : g1.edges = g2.edges)
    (hk : akeys g1.nodes = akeys g2.nodes) (hlen : g1.nodes.length = g2.nodes.length)
    (r i : Nat) : assignLayersFuel g1 r i = assignLayersFuel g2 r i := by
  unfold assignLayersFuel
  dsimp only
  have hii : initIndeg g1 = initIndeg g2 := by
    unfold initIndeg
    rw [he, hk]
  have hil : initLayers g1 = initLayers g2 := by
    unfold initLayers
    rw [hk]
  have hff : firstFromIdx g1 = firstFromIdx g2 := by
    unfold firstFromIdx
    rw [he]
  rw [hii, hil, hff, hlen, kahnOuter_congr g1 g2 he]

theorem assignLayers_congr (g1 g2 : Graph) (he : g1.edges = g2.edges)
    (hk : akeys g1.nodes = akeys g2.nodes)
    (hlen : g1.nodes.length = g2.nodes.length) :
    assignLayers g1 = assignLayers g2 := by
  unfold assignLayers
  have hif : innerFuelFor g1 = innerFuelFor g2 := by
    unfold innerFuelFor universeSize
    rw [hlen, he]
  rw [assignLayersFuel_congr g1 g2 he hk hlen, hlen, hif]

/-- A rank function whose value strictly increases along every edge
certifies acyclicity. -/
theorem acyclic_of_rank (g : Graph) (f : NodeId → Nat)
    (hf : ∀ a b, EdgeRel g a b → f a < f b) : Acyclic g := by
  intro u hu
  have hmono : ∀ a b, Relation.TransGen (EdgeRel g) a b → f a < f b := by
    intro a b h
    induction h with
    | single h1 => exact hf _ _ h1
    | tail h1 h2 ih => exact Nat.lt_trans ih (hf _ _ h2)
  exact absurd (hmono u u hu) (Nat.lt_irrefl _)

/-- Counterexample to C3 as stated: `exDupEdge` (`X→U` listed twice,
`U→V`) has no directed cycle, yet `compute_layout` emits a
`CycleDetected` warning naming `U` — the duplicate edge makes `U`'s
stored in-degree 2 while processing `X` decrements it only once, so `U`
gets stuck and a cycle-breaking round runs on an acyclic graph. -/
theorem c3_counterexample :
    Acyclic exDupEdge ∧
    (computeLayout exDupEdge).2 = [DiagramWarning.CycleDetected ["U"]] := by
  constructor
  · refine acyclic_of_rank exDupEdge
      (fun id => if id = "X" then 0 else if id = "U" then 1 else 2) ?_
    intro a b h
    obtain ⟨e, he, hf, ht⟩ := h
    subst hf
    subst ht
    simp only [exDupEdge, arrowEdge, List.mem_cons, List.not_mem_nil, or_false] at he
    rcases he with rfl | rfl | rfl
    · decide
    · decide
    · decide
  · decide

/-- **C3** (amended): for every acyclic graph whose edge endpoints all
name existing nodes, whose node ids are distinct, and whose edge list
has no duplicate (source, target) pair, `compute_layout` returns an
empty warning list and the computed layer map satisfies
`layer(v) ≥ layer(u) + 1` for every edge `u→v`.  (The original claim
omitted the no-duplicate-edge condition; see the counterexample.) -/
theorem c3_acyclic_layers (g : Graph) (o : RenderOptions)
    (hnd : (akeys g.nodes).Nodup) (hclosed : EndpointsClosed g)
    (hsimple : SimpleEdges g) (hacyc : Acyclic g) :
    (computeLayoutWithOptions g o).2 = [] ∧
    ∀ e ∈ g.edges, (alookup (assignLayers g).1 e.fromId).getD 0 + 1 ≤
      (alookup (assignLayers g).1 e.toId).getD 0 := by
  obtain ⟨la, hfuel, hrel⟩ :=
    assignLayers_acyclic g hnd hclosed hsimple hacyc g.nodes.length
  have hAL : assignLayers g = (la, []) := by
    unfold assignLayers
    rw [hfuel]
    rfl
  constructor
  · unfold computeLayoutWithOptions
    dsimp only
    have hcongr : assignLayers
        { g with
          nodes := g.nodes.map (fun p => (p.1, sizeNode (o.border_padding * 2) p.2)) } =
        assignLayers g := by
      refine assignLayers_congr _ g rfl ?_ ?_
      · show akeys (g.nodes.map
          (fun p => (p.1, sizeNode (o.border_padding * 2) p.2))) = akeys g.nodes
        unfold akeys
        rw [List.map_map]
        rfl
      · show (g.nodes.map
          (fun p => (p.1, sizeNode (o.border_padding * 2) p.2))).length = g.nodes.length
        rw [List.length_map]
    rw [hcongr, hAL]
    rfl
  · intro e he
    rw [hAL]
    exact hrel e he

/-- Witness for the amended acyclicity theorem on the chain `A→B` with
default options: no warnings, and `layer(B) ≥ layer(A) + 1`. -/
theorem c3_acyclic_layers_witness :
    (computeLayoutWithOptions exChain RenderOptions.default).2 = [] ∧
    ∀ e ∈ exChain.edges, (alookup (assignLayers exChain).1 e.fromId).getD 0 + 1 ≤
      (alookup (assignLayers exChain).1 e.toId).getD 0 :=
  c3_acyclic_layers exChain RenderOptions.default (by decide)
    (by unfold EndpointsClosed; decide) (by unfold SimpleEdges; decide)
    (acyclic_of_rank exChain (fun id => if id = "A" then 0 else 1) (by
      intro a b h
      obtain ⟨e, he, hf, ht⟩ := h
      subst hf
      subst ht
      simp only [exChain, arrowEdge, List.mem_cons, List.not_mem_nil, or_false] at he
      rcases he with rfl
      decide))

/-! ## Cycle detection (claim C2) -/

theorem processed_closed_under_cycle (g : Graph) (st : KState) (hinv : KahnInv g st) :
    ∀ a b, Relation.TransGen (EdgeRel g) a b → b ∈ st.processed →
      a ∈ st.processed ∧
        (alookup st.layers a).getD 0 + 1 ≤ (alookup st.layers b).getD 0 := by
  intro a b h
  induction h with
  | single h1 =>
    intro hb
    obtain ⟨e, he, hf, ht⟩ := h1
    subst hf
    subst ht
    have hfrom := hinv.pred e he hb
    exact ⟨hfrom, hinv.rel e he hfrom⟩
  | tail h1 h2 ih =>
    intro hc
    obtain ⟨e, he, hf, ht⟩ := h2
    subst hf
    subst ht
    have hb := hinv.pred e he hc
    have hbc := hinv.rel e he hb
    obtain ⟨ha, hab⟩ := ih hb
    exact ⟨ha, by omega⟩

/-- A node on a directed cycle is never processed by an inner Kahn run
(its layer would have to exceed itself). -/
theorem cycle_not_processed (g : Graph) (st : KState) (hinv : KahnInv g st)
    (u : NodeId) (hcyc : Relation.TransGen (EdgeRel g) u u) : u ∉ st.processed := by
  intro hu
  have h := (processed_closed_under_cycle g st hinv u u hcyc hu).2
  omega

theorem initIndeg_keys_subset (g : Graph) (hclosed : EndpointsClosed g) :
    ∀ k ∈ akeys (initIndeg g), k ∈ akeys g.nodes := by
  intro k hk
  obtain ⟨v, hv⟩ := alookup_isSome_of_mem_akeys (initIndeg g) k hk
  rw [alookup_initIndeg] at hv
  by_cases hz : (g.edges.filter (fun e => decide (e.toId = k))).length = 0
  · rw [if_pos hz] at hv
    by_cases hkn : k ∈ akeys g.nodes
    · exact hkn
    · rw [if_neg hkn] at hv
      exact Option.noConfusion hv
  · obtain ⟨e, he⟩ : ∃ e, e ∈ g.edges.filter (fun e => decide (e.toId = k)) := by
      cases hfe : g.edges.filter (fun e => decide (e.toId = k)) with
      | nil => exact absurd (by rw [hfe]; rfl) hz
      | cons a t => exact ⟨a, hfe.symm ▸ List.mem_cons_self a t⟩
    rw [List.mem_filter] at he
    have ht : e.toId = k := by simpa using he.2
    exact ht ▸ (hclosed e he.1).2

theorem nodup_missing_length {α : Type} [DecidableEq α] (l m : List α) (hl : l.Nodup)
    (hm : m.Nodup) (hs : ∀ x ∈ l, x ∈ m) (u : α) (hu : u ∈ m) (hul : u ∉ l) :
    l.length < m.length := by
  have h1 : l.length = l.toFinset.card := (List.toFinset_card_of_nodup hl).symm
  have h2 : m.length = m.toFinset.card := (List.toFinset_card_of_nodup hm).symm
  rw [h1, h2]
  have hsub : l.toFinset ⊆ m.toFinset := by
    intro x hx
    rw [List.mem_toFinset] at hx ⊢
    exact hs x hx
  have hne : l.toFinset ≠ m.toFinset := by
    intro h
    have hum : u ∈ m.toFinset := List.mem_toFinset.mpr hu
    rw [← h] at hum
    exact hul (List.mem_toFinset.mp hum)
  exact Finset.card_lt_card (Finset.ssubset_iff_subset_ne.mpr ⟨hsub, hne⟩)

theorem addParticipants_acc_ne_nil (g : Graph) (stuck acc : List NodeId)
    (h : acc ≠ []) : addParticipants g stuck acc ≠ [] := by
  unfold addParticipants
  refine foldl_preserve (P := fun (a : List NodeId) => a ≠ []) ?_ stuck acc h
  intro a b hb
  split
  · simp
  · exact hb

theorem addParticipants_mem_ne_nil (g : Graph) (stuck : List NodeId) (n : NodeId)
    (hg : (g.edges.any
      (fun e => decide (e.fromId = n) && decide (e.toId ∈ stuck))) = true) :
    ∀ (l : List NodeId) (acc : List NodeId), n ∈ l →
      (l.foldl (fun acc n =>
        if (g.edges.any (fun e => decide (e.fromId = n) && decide (e.toId ∈ stuck))) &&
            !(decide (n ∈ acc)) then acc ++ [n] else acc) acc) ≠ []
  | [], _, h => absurd h (List.not_mem_nil n)
  | m :: t, acc, h => by
    rw [List.foldl_cons]
    rcases List.mem_cons.mp h with rfl | h'
    · by_cases hin : n ∈ acc
      · have hacc : acc ≠ [] := by
          intro hnil
          rw [hnil] at hin
          exact absurd hin (List.not_mem_nil n)
        refine foldl_preserve (P := fun (a : List NodeId) => a ≠ []) ?_ t _ ?_
        · intro a b hb
          split
          · simp
          · exact hb
        · split
          · simp
          · exact hacc
      · rw [if_pos (by rw [hg]; simp [hin])]
        refine foldl_preserve (P := fun (a : List NodeId) => a ≠ []) ?_ t _ (by simp)
        intro a b hb
        split
        · simp
        · exact hb
    · exact addParticipants_mem_ne_nil g stuck n hg t _ h'

theorem addParticipants_mem_src (g : Graph) (stuck : List NodeId) :
    ∀ (l acc : List NodeId) (x : NodeId),
      x ∈ l.foldl (fun acc n =>
        if (g.edges.any (fun e => decide (e.fromId = n) && decide (e.toId ∈ stuck))) &&
            !(decide (n ∈ acc)) then acc ++ [n] else acc) acc →
      x ∈ acc ∨ ∃ e ∈ g.edges, e.fromId = x
  | [], _, _, h => Or.inl h
  | m :: t, acc, x, h => by
    rw [List.foldl_cons] at h
    rcases addParticipants_mem_src g stuck t _ x h with h1 | h1
    · by_cases hc : ((g.edges.any
          (fun e => decide (e.fromId = m) && decide (e.toId ∈ stuck))) &&
          !(decide (m ∈ acc))) = true
      · rw [if_pos hc] at h1
        rcases List.mem_append.mp h1 with h2 | h2
        · exact Or.inl h2
        · have hx : x = m := List.mem_singleton.mp h2
          subst hx
          right
          have hc2 := hc
          rw [Bool.and_eq_true] at hc2
          have hany := hc2.1
          rw [List.any_eq_true] at hany
          obtain ⟨e, he, hpe⟩ := hany
          simp only [Bool.and_eq_true, decide_eq_true_eq] at hpe
          exact ⟨e, he, hpe.1⟩
      · rw [if_neg hc] at h1
        exact Or.inl h1
    · exact Or.inr h1

theorem addParticipants_src (g : Graph) (stuck acc : List NodeId) (x : NodeId)
    (h : x ∈ addParticipants g stuck acc) :
    x ∈ acc ∨ ∃ e ∈ g.edges, e.fromId = x := by
  unfold addParticipants at h
  exact addParticipants_mem_src g stuck stuck acc x h

/-- The outer forcing loop only grows the participant accumulator, and
every accumulated id is the source of some edge. -/
theorem kahnOuter_acc (g : Graph) (ff : List (NodeId × Nat)) (total innerFuel : Nat) :
    ∀ (r : Nat) (st : KState) (acc : List NodeId) (stF : KState) (accF : List NodeId),
      kahnOuter g ff total innerFuel r st acc = some (stF, accF) →
      (acc ≠ [] → accF ≠ []) ∧
      (∀ x ∈ accF, x ∈ acc ∨ ∃ e ∈ g.edges, e.fromId = x) := by
  intro r
  induction r with
  | zero =>
    intro st acc stF accF heq
    rw [kahnOuter] at heq
    cases hki : kahnInner g innerFuel st with
    | none =>
      rw [hki] at heq
      exact Option.noConfusion heq
    | some st' =>
      rw [hki] at heq
      dsimp only at heq
      by_cases hdone : total ≤ st'.processed.length
      · rw [if_pos hdone] at heq
        have h := Option.some.inj heq
        have hacc : acc = accF := congrArg Prod.snd h
        exact ⟨fun h1 => hacc ▸ h1, fun x hx => Or.inl (hacc ▸ hx)⟩
      · rw [if_neg hdone] at heq
        exact Option.noConfusion heq
  | succ r0 ih =>
    intro st acc stF accF heq
    rw [kahnOuter] at heq
    cases hki : kahnInner g innerFuel st with
    | none =>
      rw [hki] at heq
      exact Option.noConfusion heq
    | some st' =>
      rw [hki] at heq
      dsimp only at heq
      by_cases hdone : total ≤ st'.processed.length
      · rw [if_pos hdone] at heq
        have h := Option.some.inj heq
        have hacc : acc = accF := congrArg Prod.snd h
        exact ⟨fun h1 => hacc ▸ h1, fun x hx => Or.inl (hacc ▸ hx)⟩
      · rw [if_neg hdone] at heq
        cases hsort : sortBy (forceLe ff) (stuckOf st') with
        | nil =>
          rw [hsort] at heq
          obtain ⟨h1, h2⟩ := ih st' _ stF accF heq
          constructor
          · intro hne
            exact h1 (addParticipants_acc_ne_nil g (stuckOf st') acc hne)
          · intro x hx
            rcases h2 x hx with h3 | h3
            · rcases addParticipants_src g (stuckOf st') acc x h3 with h4 | h4
              · exact Or.inl h4
              · exact Or.inr h4
            · exact Or.inr h3
        | cons forced tail =>
          rw [hsort] at heq
          obtain ⟨h1, h2⟩ := ih _ _ stF accF heq
          constructor
          · intro hne
            exact h1 (addParticipants_acc_ne_nil g (stuckOf st') acc hne)
          · intro x hx
            rcases h2 x hx with h3 | h3
            · rcases addParticipants_src g (stuckOf st') acc x h3 with h4 | h4
              · exact Or.inl h4
              · exact Or.inr h4
            · exact Or.inr h3

/-- The initial Kahn state satisfies the weak invariant (the exact
count of the full initial invariant dominates itself). -/
theorem kahnWeak_init (g : Graph) :
    KahnWeak g ⟨zeroIn (initIndeg g), [], initLayers g, initIndeg g⟩ := by
  have h := kahnInv_init g
  refine ⟨h.keysEq, h.queueZero, ?_, h.pred, h.rel⟩
  intro k d hkp hk
  have hkk := alookup_mem_akeys _ k d hk
  have he := h.eqCount k hkk hkp
  rw [hk] at he
  rw [Option.some.inj he]

/-- The inner Kahn loop preserves the weak invariant for **every**
graph: no assumption on the edge list is needed, because only a lower
bound on the true remaining in-degree is tracked (a processed source
decrements each of its distinct unprocessed targets exactly once, while
the edge multiset may contain that edge several times). -/
theorem kahnInner_weak (g : Graph) :
    ∀ (fuel : Nat) (st st' : KState), kahnInner g fuel st = some st' →
      KahnWeak g st → KahnWeak g st'
  | 0, _, _, heq, _ => Option.noConfusion heq
  | fuel + 1, st, st', heq, hinv => by
    rw [kahnInner] at heq
    cases hq : st.queue with
    | nil =>
      rw [hq] at heq
      dsimp only at heq
      exact Option.some.inj heq ▸ hinv
    | cons u rest =>
      rw [hq] at heq
      dsimp only at heq
      by_cases hu : u ∈ st.processed
      · rw [if_pos hu] at heq
        refine kahnInner_weak g fuel _ st' heq ?_
        refine ⟨hinv.keysEq, ?_, hinv.geCount, hinv.pred, hinv.rel⟩
        intro x hx hxp
        exact hinv.queueZero x (by rw [hq]; exact List.mem_cons_of_mem u hx) hxp
      · rw [if_neg hu] at heq
        have hu0 : alookup st.indeg u = some 0 :=
          hinv.queueZero u (by rw [hq]; exact List.mem_cons_self u rest) hu
        have hcount0 : indegCount g st.processed u = 0 :=
          Nat.le_zero.mp (hinv.geCount u 0 hu hu0)
        have hnopred : ∀ e ∈ g.edges, e.toId = u → e.fromId ∈ st.processed := by
          intro e he hto
          by_contra hfrom
          have hmem : e ∈ g.edges.filter
              (fun e => decide (e.toId = u) && decide (e.fromId ∉ st.processed)) := by
            rw [List.mem_filter]
            exact ⟨he, by simp [hto, hfrom]⟩
          unfold indegCount at hcount0
          rw [List.length_eq_zero] at hcount0
          rw [hcount0] at hmem
          exact absurd hmem (List.not_mem_nil e)
        obtain ⟨i1, l1, i2, l2, qm, qc, qt⟩ := relax_fold_eq ((alookup st.layers u).getD 0)
          (neighborsOf g (st.processed ++ [u]) u)
          { st with queue := rest, processed := st.processed ++ [u] }
          (neighborsOf_nodup g (st.processed ++ [u]) u)
        dsimp only at i1 l1 i2 l2 qm qc qt
        obtain ⟨kk, _, pp, _, _⟩ := relax_fold_facts ((alookup st.layers u).getD 0)
          (neighborsOf g (st.processed ++ [u]) u)
          { st with queue := rest, processed := st.processed ++ [u] }
        dsimp only at kk pp
        have hUP : u ∈ st.processed ++ [u] :=
          List.mem_append_right _ (List.mem_singleton.mpr rfl)
        have huns : u ∉ neighborsOf g (st.processed ++ [u]) u := by
          intro h
          obtain ⟨e', _, _, hto, hnp⟩ := (mem_neighborsOf g _ u u).mp h
          exact hnp hUP
        refine kahnInner_weak g fuel _ st' heq ?_
        refine ⟨?_, ?_, ?_, ?_, ?_⟩
        · rw [kk]
          exact hinv.keysEq
        · -- queueZero
          intro x hx hxp
          rw [pp] at hxp
          have hxp1 : x ∉ st.processed := fun h => hxp (List.mem_append_left _ h)
          rcases qc x hx with h | h
          · have hold : alookup st.indeg x = some 0 :=
              hinv.queueZero x (by rw [hq]; exact List.mem_cons_of_mem u h) hxp1
            by_cases hxns : x ∈ neighborsOf g (st.processed ++ [u]) u
            · rw [i2 x hxns, hold]
            · rw [i1 x hxns]
              exact hold
          · exact h.2
        · -- geCount
          intro k d' hkp hk'
          rw [pp] at hkp ⊢
          have hkp1 : k ∉ st.processed := fun h => hkp (List.mem_append_left _ h)
          have hsplit := indegCount_append g st.processed u k hu
          by_cases hkns : k ∈ neighborsOf g (st.processed ++ [u]) u
          · obtain ⟨e0, he0, hf0, ht0, _⟩ := (mem_neighborsOf g _ u k).mp hkns
            have hepos : 1 ≤ (g.edges.filter
                (fun e => decide (e.toId = k) && decide (e.fromId = u))).length := by
              have hmem : e0 ∈ g.edges.filter
                  (fun e => decide (e.toId = k) && decide (e.fromId = u)) := by
                rw [List.mem_filter]
                exact ⟨he0, by simp [hf0, ht0]⟩
              exact List.length_pos.mpr (List.ne_nil_of_mem hmem)
            have h2 := i2 k hkns
            rw [hk'] at h2
            cases hold : alookup st.indeg k with
            | none =>
              rw [hold] at h2
              exact Option.noConfusion h2
            | some d =>
              rw [hold] at h2
              have hd : d' = d - 1 := Option.some.inj h2
              have hge := hinv.geCount k d hkp1 hold
              omega
          · have h1 := i1 k hkns
            rw [hk'] at h1
            have hge := hinv.geCount k d' hkp1 h1.symm
            omega
        · -- pred
          intro e he hto
          rw [pp] at hto ⊢
          rcases List.mem_append.mp hto with h | h
          · exact List.mem_append_left _ (hinv.pred e he h)
          · exact List.mem_append_left _ (hnopred e he (List.mem_singleton.mp h))
        · -- rel
          intro e he hfrom
          rw [pp] at hfrom
          rcases List.mem_append.mp hfrom with hfO | hfU
          · have hf_old := hinv.rel e he hfO
            have hfns : e.fromId ∉ neighborsOf g (st.processed ++ [u]) u := by
              intro h
              obtain ⟨e', _, _, _, hnp⟩ := (mem_neighborsOf g _ u e.fromId).mp h
              exact hnp (List.mem_append_left _ hfO)
            rw [l1 e.fromId hfns]
            by_cases htns : e.toId ∈ neighborsOf g (st.processed ++ [u]) u
            · rw [l2 e.toId htns]
              simp only [Option.getD_some]
              exact Nat.le_trans hf_old (Nat.le_max_left _ _)
            · rw [l1 e.toId htns]
              exact hf_old
          · have hfu : e.fromId = u := List.mem_singleton.mp hfU
            have hvO : e.toId ∉ st.processed := fun h => hu (hfu ▸ hinv.pred e he h)
            have hvne : e.toId ≠ u := by
              intro h
              exact hu (hfu ▸ hnopred e he h)
            have hvP : e.toId ∉ st.processed ++ [u] := by
              intro h
              rcases List.mem_append.mp h with h' | h'
              · exact hvO h'
              · exact hvne (List.mem_singleton.mp h')
            have hvns : e.toId ∈ neighborsOf g (st.processed ++ [u]) u :=
              (mem_neighborsOf g (st.processed ++ [u]) u e.toId).mpr
                ⟨e, he, hfu, rfl, hvP⟩
            rw [l2 e.toId hvns, hfu, l1 u huns]
            simp only [Option.getD_some]
            exact Nat.le_max_right _ _

/-- Under the weak invariant, the processed set is closed under walking
a directed walk backwards, with strictly increasing layers along it. -/
theorem processed_closed_weak (g : Graph) (st : KState) (hinv : KahnWeak g st) :
    ∀ a b, Relation.TransGen (EdgeRel g) a b → b ∈ st.processed →
      a ∈ st.processed ∧
        (alookup st.layers a).getD 0 + 1 ≤ (alookup st.layers b).getD 0 := by
  intro a b h
  induction h with
  | single h1 =>
    intro hb
    obtain ⟨e, he, hf, ht⟩ := h1
    subst hf
    subst ht
    have hfrom := hinv.pred e he hb
    exact ⟨hfrom, hinv.rel e he hfrom⟩
  | tail h1 h2 ih =>
    intro hc
    obtain ⟨e, he, hf, ht⟩ := h2
    subst hf
    subst ht
    have hb := hinv.pred e he hc
    have hbc := hinv.rel e he hb
    obtain ⟨ha, hab⟩ := ih hb
    exact ⟨ha, by omega⟩

/-- A node on a directed cycle is never processed by an inner Kahn run
preserving the weak invariant (its layer would exceed itself). -/
theorem cycle_not_processed_weak (g : Graph) (st : KState) (hinv : KahnWeak g st)
    (u : NodeId) (hcyc : Relation.TransGen (EdgeRel g) u u) : u ∉ st.processed := by
  intro hu
  have h := (processed_closed_weak g st hinv u u hcyc hu).2
  omega

/-- `addParticipants` only ever extends its accumulator. -/
theorem addParticipants_mono (g : Graph) (stuck acc : List NodeId) (x : NodeId)
    (hx : x ∈ acc) : x ∈ addParticipants g stuck acc := by
  unfold addParticipants
  refine foldl_preserve (P := fun (a : List NodeId) => x ∈ a) ?_ stuck acc hx
  intro a b hb
  split
  · exact List.mem_append_left _ hb
  · exact hb

/-- A stuck node with an outgoing edge into the stuck set ends up in
the participant accumulator. -/
theorem addParticipants_mem (g : Graph) (stuck : List NodeId) (n : NodeId)
    (hg : (g.edges.any
      (fun e => decide (e.fromId = n) && decide (e.toId ∈ stuck))) = true) :
    ∀ (l : List NodeId) (acc : List NodeId), n ∈ l →
      n ∈ (l.foldl (fun acc n =>
        if (g.edges.any (fun e => decide (e.fromId = n) && decide (e.toId ∈ stuck))) &&
            !(decide (n ∈ acc)) then acc ++ [n] else acc) acc)
  | [], _, h => absurd h (List.not_mem_nil n)
  | m :: t, acc, h => by
    rw [List.foldl_cons]
    rcases List.mem_cons.mp h with rfl | h'
    · have hstep : n ∈ (if (g.edges.any (fun e => decide (e.fromId = n) &&
          decide (e.toId ∈ stuck))) && !(decide (n ∈ acc)) then acc ++ [n] else acc) := by
        by_cases hin : n ∈ acc
        · split
          · exact List.mem_append_left _ hin
          · exact hin
        · rw [if_pos (by rw [hg]; simp [hin])]
          exact List.mem_append_right _ (List.mem_singleton_self n)
      refine foldl_preserve (P := fun (a : List NodeId) => n ∈ a) ?_ t _ hstep
      intro a b hb
      split
      · exact List.mem_append_left _ hb
      · exact hb
    · exact addParticipants_mem g stuck n hg t _ h'

/-- The outer loop only ever extends the participant accumulator. -/
theorem kahnOuter_acc_mono (g : Graph) (ff : List (NodeId × Nat)) (total innerFuel : Nat) :
    ∀ (r : Nat) (st : KState) (acc : List NodeId) (stF : KState) (accF : List NodeId),
      kahnOuter g ff total innerFuel r st acc = some (stF, accF) →
      ∀ x ∈ acc, x ∈ accF := by
  intro r
  induction r with
  | zero =>
    intro st acc stF accF heq x hx
    rw [kahnOuter] at heq
    cases hki : kahnInner g innerFuel st with
    | none =>
      rw [hki] at heq
      exact Option.noConfusion heq
    | some st' =>
      rw [hki] at heq
      dsimp only at heq
      by_cases hdone : total ≤ st'.processed.length
      · rw [if_pos hdone] at heq
        have hacc : acc = accF := congrArg Prod.snd (Option.some.inj heq)
        exact hacc ▸ hx
      · rw [if_neg hdone] at heq
        exact Option.noConfusion heq
  | succ r0 ih =>
    intro st acc stF accF heq x hx
    rw [kahnOuter] at heq
    cases hki : kahnInner g innerFuel st with
    | none =>
      rw [hki] at heq
      exact Option.noConfusion heq
    | some st' =>
      rw [hki] at heq
      dsimp only at heq
      by_cases hdone : total ≤ st'.processed.length
      · rw [if_pos hdone] at heq
        have hacc : acc = accF := congrArg Prod.snd (Option.some.inj heq)
        exact hacc ▸ hx
      · rw [if_neg hdone] at heq
        have hx' : x ∈ addParticipants g (stuckOf st') acc :=
          addParticipants_mono g (stuckOf st') acc x hx
        cases hsort : sortBy (forceLe ff) (stuckOf st') with
        | nil =>
          rw [hsort] at heq
          exact ih st' _ stF accF heq x hx'
        | cons forced tail =>
          rw [hsort] at heq
          exact ih _ _ stF accF heq x hx'

/-- Counterexample to C2 as stated: `exPhantom` (nodes `X`, `Y`; edges
`X→P` with `P` not a node, and the self-loop `Y→Y`) contains a directed
cycle, yet `compute_layout` emits no warning at all: the phantom
endpoint `P` inflates the processed count (`X`, `P` and the in-degree
keys make `processed.len() ≥ nodes.len()` hold), so the cycle-breaking
loop never runs. -/
theorem c2_counterexample :
    Relation.TransGen (EdgeRel exPhantom) "Y" "Y" ∧
    (computeLayout exPhantom).2 = [] :=
  ⟨Relation.TransGen.single
    ⟨arrowEdge "Y" "Y", List.mem_cons_of_mem _ (List.mem_cons_self _ _), rfl, rfl⟩,
   by decide⟩

/-- **C2** (amended): for every graph with pairwise-distinct node ids
(a `HashMap` artifact) and endpoint-closed edges that contains a
directed cycle, `compute_layout` emits exactly one `CycleDetected`
warning; its node list is non-empty, lexicographically sorted, contains
**every** node that lies on a directed cycle (at the first
cycle-breaking round all cycle nodes are stuck and each has an edge to
its also-stuck successor, so each is recorded), and every listed node
is the source of some edge (it was recorded as a stuck node with an
edge into another then-stuck node during a cycle-breaking round).  The
original claim required no side condition; the counterexample shows
endpoint closure is needed.  No assumption on duplicate edges is made:
duplicate edges only inflate stored in-degrees, which never deflates
the stuck set. -/
theorem c2_cycle_detected (g : Graph) (o : RenderOptions)
    (hnd : (akeys g.nodes).Nodup) (hclosed : EndpointsClosed g)
    (u0 : NodeId)
    (hcyc : Relation.TransGen (EdgeRel g) u0 u0) :
    ∃ nodes, (computeLayoutWithOptions g o).2 = [DiagramWarning.CycleDetected nodes] ∧
      nodes ≠ [] ∧ List.Chain' (fun a b => strLe a b = true) nodes ∧
      (∀ u, Relation.TransGen (EdgeRel g) u u → u ∈ nodes) ∧
      ∀ n ∈ nodes, ∃ e ∈ g.edges, e.fromId = n := by
  have hmeas : KMeasure g.edges.length
      ⟨zeroIn (initIndeg g), [], initLayers g, initIndeg g⟩ < innerFuelFor g := by
    unfold KMeasure innerFuelFor universeSize
    dsimp only
    simp only [List.length_nil]
    have hL := initIndeg_length_le g
    unfold universeSize at hL
    have hq := zeroIn_length_le (initIndeg g)
    have h1 : ((initIndeg g).length + 1 - 0) * (g.edges.length + 1) ≤
        (g.nodes.length + g.edges.length + 1) * (g.edges.length + 1) :=
      Nat.mul_le_mul_right _ (by omega)
    have h2 : (g.nodes.length + g.edges.length + 2) * (g.edges.length + 2) =
        (g.nodes.length + g.edges.length + 1) * (g.edges.length + 1) +
          (g.nodes.length + g.edges.length + g.edges.length + 3) := by ring
    omega
  have hKinv : KInv ⟨zeroIn (initIndeg g), [], initLayers g, initIndeg g⟩ :=
    ⟨List.nodup_nil, fun x hx => absurd hx (List.not_mem_nil x),
     zeroIn_subset (initIndeg g)⟩
  obtain ⟨st', heq, hinv', hqnil, hkeys', hlen', hmono, hplen, hgrow⟩ :=
    kahnInner_spec g (innerFuelFor g) _ hKinv hmeas
  have hINV := kahnInner_weak g (innerFuelFor g) _ st' heq (kahnWeak_init g)
  have hu0nodes : u0 ∈ akeys g.nodes := by
    obtain ⟨b, _, hb⟩ := Relation.TransGen.tail'_iff.mp hcyc
    obtain ⟨e, he, _, ht⟩ := hb
    exact ht ▸ (hclosed e he).2
  have hu0np : u0 ∉ st'.processed := cycle_not_processed_weak g st' hINV u0 hcyc
  have hnotdone : ¬ (g.nodes.length ≤ st'.processed.length) := by
    have hsubs : ∀ x ∈ st'.processed, x ∈ akeys g.nodes := by
      intro x hx
      have hxk := hinv'.2.1 x hx
      rw [hINV.keysEq] at hxk
      exact initIndeg_keys_subset g hclosed x hxk
    have h := nodup_missing_length st'.processed (akeys g.nodes) hinv'.1 hnd hsubs
      u0 hu0nodes hu0np
    rw [length_akeys] at h
    omega
  obtain ⟨w, hrw, hwc⟩ := Relation.TransGen.head'_iff.mp hcyc
  have hwcyc : Relation.TransGen (EdgeRel g) w w := Relation.TransGen.tail' hwc hrw
  have hwnp : w ∉ st'.processed := cycle_not_processed_weak g st' hINV w hwcyc
  have hwnodes : w ∈ akeys g.nodes := by
    obtain ⟨e, he, _, ht⟩ := hrw
    exact ht ▸ (hclosed e he).2
  have hu0keys : u0 ∈ akeys st'.indeg := by
    rw [hINV.keysEq]
    exact nodes_mem_initIndeg g u0 hu0nodes
  have hwkeys : w ∈ akeys st'.indeg := by
    rw [hINV.keysEq]
    exact nodes_mem_initIndeg g w hwnodes
  have hu0stuck : u0 ∈ stuckOf st' := by
    unfold stuckOf
    rw [List.mem_filter]
    exact ⟨hu0keys, by simpa using hu0np⟩
  have hwstuck : w ∈ stuckOf st' := by
    unfold stuckOf
    rw [List.mem_filter]
    exact ⟨hwkeys, by simpa using hwnp⟩
  have hguard : (g.edges.any
      (fun e => decide (e.fromId = u0) && decide (e.toId ∈ stuckOf st'))) = true := by
    rw [List.any_eq_true]
    obtain ⟨e, he, hf, ht⟩ := hrw
    exact ⟨e, he, by simp [hf, ht, hwstuck]⟩
  have hrun : (kahnOuter g (firstFromIdx g) g.nodes.length (innerFuelFor g)
      g.nodes.length ⟨zeroIn (initIndeg g), [], initLayers g, initIndeg g⟩ []).isSome := by
    refine kahnOuter_isSome g (firstFromIdx g) hnd g.nodes.length
      ⟨zeroIn (initIndeg g), [], initLayers g, initIndeg g⟩ [] hKinv rfl rfl ?_ ?_ ?_
    · have h := zeroIn_length_le (initIndeg g)
      dsimp only
      omega
    · dsimp only
      simp only [List.length_nil]
      omega
    · intro _
      dsimp only
      simp only [List.length_nil]
      omega
  obtain ⟨res, hres0⟩ := Option.isSome_iff_exists.mp hrun
  obtain ⟨stF, accF⟩ := res
  have hnodes_pos : 0 < g.nodes.length := by
    obtain ⟨p, hp, _⟩ := List.mem_map.mp hu0nodes
    exact List.length_pos.mpr (List.ne_nil_of_mem hp)
  obtain ⟨r0, hr0⟩ : ∃ r0, g.nodes.length = r0 + 1 := ⟨g.nodes.length - 1, by omega⟩
  have hres1 := hres0
  rw [show (kahnOuter g (firstFromIdx g) g.nodes.length (innerFuelFor g) g.nodes.length
      ⟨zeroIn (initIndeg g), [], initLayers g, initIndeg g⟩ []) =
    (kahnOuter g (firstFromIdx g) g.nodes.length (innerFuelFor g) (r0 + 1)
      ⟨zeroIn (initIndeg g), [], initLayers g, initIndeg g⟩ []) from by rw [← hr0]] at hres1
  rw [kahnOuter, heq] at hres1
  dsimp only at hres1
  rw [if_neg hnotdone] at hres1
  have hacc1 : addParticipants g (stuckOf st') [] ≠ [] := by
    unfold addParticipants
    exact addParticipants_mem_ne_nil g (stuckOf st') u0 hguard (stuckOf st') [] hu0stuck
  have haccF : (accF ≠ [] ∧ ∀ x ∈ accF, ∃ e ∈ g.edges, e.fromId = x) ∧
      ∀ x ∈ addParticipants g (stuckOf st') [], x ∈ accF := by
    cases hsort : sortBy (forceLe (firstFromIdx g)) (stuckOf st') with
    | nil =>
      rw [hsort] at hres1
      obtain ⟨h1, h2⟩ := kahnOuter_acc g (firstFromIdx g) g.nodes.length (innerFuelFor g)
        r0 st' _ stF accF hres1
      have hm := kahnOuter_acc_mono g (firstFromIdx g) g.nodes.length (innerFuelFor g)
        r0 st' _ stF accF hres1
      refine ⟨⟨h1 hacc1, ?_⟩, hm⟩
      intro x hx
      rcases h2 x hx with h3 | h3
      · rcases addParticipants_src g (stuckOf st') [] x h3 with h4 | h4
        · exact absurd h4 (List.not_mem_nil x)
        · exact h4
      · exact h3
    | cons forced tail =>
      rw [hsort] at hres1
      obtain ⟨h1, h2⟩ := kahnOuter_acc g (firstFromIdx g) g.nodes.length (innerFuelFor g)
        r0 _ _ stF accF hres1
      have hm := kahnOuter_acc_mono g (firstFromIdx g) g.nodes.length (innerFuelFor g)
        r0 _ _ stF accF hres1
      refine ⟨⟨h1 hacc1, ?_⟩, hm⟩
      intro x hx
      rcases h2 x hx with h3 | h3
      · rcases addParticipants_src g (stuckOf st') [] x h3 with h4 | h4
        · exact absurd h4 (List.not_mem_nil x)
        · exact h4
      · exact h3
  have hAL : assignLayers g = (stF.layers, sortBy strLe accF) := by
    unfold assignLayers assignLayersFuel
    dsimp only
    rw [hres0]
    rfl
  have hsortne : sortBy strLe accF ≠ [] := by
    intro h
    have hlen := length_sortBy strLe accF
    rw [h] at hlen
    exact haccF.1.1 (List.length_eq_zero.mp hlen.symm)
  have hcomplete : ∀ u, Relation.TransGen (EdgeRel g) u u → u ∈ sortBy strLe accF := by
    intro u hucyc
    obtain ⟨wu, hrwu, hwcu⟩ := Relation.TransGen.head'_iff.mp hucyc
    have hwucyc : Relation.TransGen (EdgeRel g) wu wu :=
      Relation.TransGen.tail' hwcu hrwu
    have hunp := cycle_not_processed_weak g st' hINV u hucyc
    have hwnp2 := cycle_not_processed_weak g st' hINV wu hwucyc
    obtain ⟨eu, heu, hfu, htu⟩ := hrwu
    have hunodes : u ∈ akeys g.nodes := hfu ▸ (hclosed eu heu).1
    have hwnodes2 : wu ∈ akeys g.nodes := htu ▸ (hclosed eu heu).2
    have hustuck : u ∈ stuckOf st' := by
      unfold stuckOf
      rw [List.mem_filter]
      refine ⟨?_, by simpa using hunp⟩
      rw [hINV.keysEq]
      exact nodes_mem_initIndeg g u hunodes
    have hwstuck2 : wu ∈ stuckOf st' := by
      unfold stuckOf
      rw [List.mem_filter]
      refine ⟨?_, by simpa using hwnp2⟩
      rw [hINV.keysEq]
      exact nodes_mem_initIndeg g wu hwnodes2
    have hguardu : (g.edges.any
        (fun e => decide (e.fromId = u) && decide (e.toId ∈ stuckOf st'))) = true := by
      rw [List.any_eq_true]
      exact ⟨eu, heu, by simp [hfu, htu, hwstuck2]⟩
    have hin : u ∈ addParticipants g (stuckOf st') [] := by
      unfold addParticipants
      exact addParticipants_mem g (stuckOf st') u hguardu (stuckOf st') [] hustuck
    exact mem_sortBy_of_mem strLe u accF (haccF.2 u hin)
  refine ⟨sortBy strLe accF, ?_, hsortne, sortBy_chain strLe strLe_total accF,
    hcomplete, ?_⟩
  · unfold computeLayoutWithOptions
    dsimp only
    have hcongr : assignLayers
        { g with
          nodes := g.nodes.map (fun p => (p.1, sizeNode (o.border_padding * 2) p.2)) } =
        assignLayers g := by
      refine assignLayers_congr _ g rfl ?_ ?_
      · show akeys (g.nodes.map
          (fun p => (p.1, sizeNode (o.border_padding * 2) p.2))) = akeys g.nodes
        unfold akeys
        rw [List.map_map]
        rfl
      · show (g.nodes.map
          (fun p => (p.1, sizeNode (o.border_padding * 2) p.2))).length = g.nodes.length
        rw [List.length_map]
    rw [hcongr, hAL]
    unfold layoutWarnings
    rw [if_neg hsortne]
  · intro n hn
    exact haccF.1.2 n (mem_sortBy strLe n accF hn)

/-- Witness for the amended cycle theorem on the triangle `A→B→C→A`:
the pipeline emits exactly `CycleDetected ["A", "B", "C"]`. -/
theorem c2_cycle_detected_witness :
    (computeLayout exTriangle).2 = [DiagramWarning.CycleDetected ["A", "B", "C"]] ∧
    (∃ nodes,
      (computeLayoutWithOptions exTriangle RenderOptions.default).2 =
        [DiagramWarning.CycleDetected nodes] ∧
      nodes ≠ [] ∧ List.Chain' (fun a b => strLe a b = true) nodes ∧
      (∀ u, Relation.TransGen (EdgeRel exTriangle) u u → u ∈ nodes) ∧
      ∀ n ∈ nodes, ∃ e ∈ exTriangle.edges, e.fromId = n) :=
  ⟨by decide,
   c2_cycle_detected exTriangle RenderOptions.default (by decide)
    (by unfold EndpointsClosed; decide) "A"
    (Relation.TransGen.tail
      (Relation.TransGen.tail
        (Relation.TransGen.single
          ⟨arrowEdge "A" "B", List.mem_cons_self _ _, rfl, rfl⟩)
        ⟨arrowEdge "B" "C", List.mem_cons_of_mem _ (List.mem_cons_self _ _), rfl, rfl⟩)
      ⟨arrowEdge "C" "A",
        List.mem_cons_of_mem _ (List.mem_cons_of_mem _ (List.mem_cons_self _ _)),
        rfl, rfl⟩)⟩

/-! ## A* pathfinding: paths, reachability and the Manhattan heuristic -/

theorem mem_ite_singleton {α : Type} (c : Prop) [Decidable c] (a q : α) :
    (q ∈ if c then [a] else []) ↔ c ∧ q = a := by
  by_cases h : c
  · rw [if_pos h]
    simp [h]
  · rw [if_neg h]
    simp [h]

theorem is_valid_bounds (g : PathGrid) (p : Pos) (h : g.is_valid p = true) :
    p.x < g.width ∧ p.y < g.height ∧ p ∉ g.blocked := by
  unfold PathGrid.is_valid at h
  simp only [Bool.and_eq_true, decide_eq_true_eq, Bool.not_eq_true',
    decide_eq_false_iff_not] at h
  exact ⟨h.1.1, h.1.2, h.2⟩

theorem mem_neighbors (g : PathGrid) (p q : Pos) :
    q ∈ g.neighbors p ↔ adjacent p q ∧ g.is_valid q = true := by
  obtain ⟨px, py⟩ := p
  obtain ⟨qx, qy⟩ := q
  unfold PathGrid.neighbors adjacent Pos.new
  simp only [List.mem_append, mem_ite_singleton, Pos.mk.injEq]
  constructor
  · intro hm
    rcases hm with ((⟨hc, he⟩ | ⟨hc, he⟩) | ⟨hc, he⟩) | ⟨hc, he⟩ <;>
      obtain ⟨rfl, rfl⟩ := he
    · exact ⟨Or.inl ⟨rfl, rfl⟩, hc.2⟩
    · refine ⟨Or.inr (Or.inl ⟨?_, rfl⟩), hc.2⟩
      have h0 := hc.1
      omega
    · exact ⟨Or.inr (Or.inr (Or.inl ⟨rfl, rfl⟩)), hc.2⟩
    · refine ⟨Or.inr (Or.inr (Or.inr ⟨?_, rfl⟩)), hc.2⟩
      have h0 := hc.1
      omega
  · rintro ⟨hadj, hv⟩
    have hb := is_valid_bounds g ⟨qx, qy⟩ hv
    try simp only at hb
    rcases hadj with ⟨h1, h2⟩ | ⟨h1, h2⟩ | ⟨h1, h2⟩ | ⟨h1, h2⟩ <;>
      try simp only at h1 h2
    · subst h1
      subst h2
      exact Or.inl (Or.inl (Or.inl ⟨⟨hb.1, hv⟩, rfl, rfl⟩))
    · subst h1
      subst h2
      exact Or.inl (Or.inl (Or.inr ⟨⟨Nat.succ_pos qx, hv⟩, rfl, rfl⟩))
    · subst h1
      subst h2
      exact Or.inl (Or.inr ⟨⟨hb.2.1, hv⟩, rfl, rfl⟩)
    · subst h1
      subst h2
      exact Or.inr ⟨⟨Nat.succ_pos qy, hv⟩, rfl, rfl⟩

theorem neighbors_valid (g : PathGrid) (p q : Pos) (h : q ∈ g.neighbors p) :
    g.is_valid q = true := ((mem_neighbors g p q).mp h).2

theorem adjacent_ne (p q : Pos) (h : adjacent p q) : q ≠ p := by
  rcases h with ⟨h1, h2⟩ | ⟨h1, h2⟩ | ⟨h1, h2⟩ | ⟨h1, h2⟩ <;>
    (intro he; rw [he] at h1; omega)

theorem not_mem_neighbors_self (g : PathGrid) (p : Pos) : p ∉ g.neighbors p :=
  fun h => adjacent_ne p p ((mem_neighbors g p p).mp h).1 rfl

theorem isPath_ne_nil (g : PathGrid) (p : List Pos) (s t : Pos)
    (h : IsPath g p s t) : p ≠ [] := by
  intro he
  rw [he] at h
  exact Option.noConfusion h.1

theorem isPath_singleton (g : PathGrid) (s : Pos) (h : g.is_valid s = true) :
    IsPath g [s] s s :=
  ⟨rfl, rfl, fun q hq => by rw [List.mem_singleton.mp hq]; exact h,
    List.chain'_singleton s⟩

theorem isPath_snoc (g : PathGrid) (p : List Pos) (s t z : Pos)
    (h : IsPath g p s t) (hadj : adjacent t z) (hv : g.is_valid z = true) :
    IsPath g (p ++ [z]) s z := by
  obtain ⟨h1, h2, h3, h4⟩ := h
  refine ⟨?_, List.getLast?_concat p, ?_, ?_⟩
  · rw [List.head?_append, h1]
    rfl
  · intro q hq
    rcases List.mem_append.mp hq with hq | hq
    · exact h3 q hq
    · rw [List.mem_singleton.mp hq]
      exact hv
  · rw [List.chain'_append]
    refine ⟨h4, List.chain'_singleton z, fun x hx y hy => ?_⟩
    rw [h2] at hx
    have hx' : t = x := Option.some.inj hx
    have hy' : z = y := Option.some.inj hy
    rw [← hx', ← hy']
    exact hadj

theorem reach_refl (g : PathGrid) (s : Pos) (h : g.is_valid s = true) :
    Reach g s s 0 :=
  ⟨[s], isPath_singleton g s h, rfl⟩

theorem reach_valid (g : PathGrid) (s t : Pos) (n : Nat) (h : Reach g s t n) :
    g.is_valid s = true ∧ g.is_valid t = true := by
  obtain ⟨p, ⟨h1, h2, h3, _⟩, _⟩ := h
  constructor
  · exact h3 s (List.mem_of_mem_head? h1)
  · exact h3 t (List.mem_of_mem_getLast? h2)

theorem reach_zero (g : PathGrid) (s t : Pos) (h : Reach g s t 0) :
    t = s ∧ g.is_valid s = true := by
  obtain ⟨p, ⟨h1, h2, h3, _⟩, hl⟩ := h
  cases p with
  | nil => exact Option.noConfusion h1
  | cons a tl =>
    cases tl with
    | nil =>
      have ha : a = s := Option.some.inj h1
      subst ha
      have ht : a = t := Option.some.inj h2
      exact ⟨ht.symm, h3 a (List.mem_singleton_self a)⟩
    | cons b tl2 =>
      simp only [List.length_cons] at hl
      omega

theorem reach_snoc (g : PathGrid) (s t q : Pos) (n : Nat) (h : Reach g s t n)
    (hq : q ∈ g.neighbors t) : Reach g s q (n + 1) := by
  obtain ⟨p, hp, hl⟩ := h
  obtain ⟨hadj, hv⟩ := (mem_neighbors g t q).mp hq
  refine ⟨p ++ [q], isPath_snoc g p s t q hp hadj hv, ?_⟩
  rw [List.length_append, hl]
  rfl

theorem reach_head (g : PathGrid) (y z : Pos) (m : Nat)
    (h : Reach g y z (m + 1)) : ∃ y1, y1 ∈ g.neighbors y ∧ Reach g y1 z m := by
  obtain ⟨p, ⟨h1, h2, h3, h4⟩, hl⟩ := h
  cases p with
  | nil => exact Option.noConfusion h1
  | cons a tl =>
    have ha : a = y := Option.some.inj h1
    subst ha
    cases tl with
    | nil =>
      simp only [List.length_cons, List.length_nil] at hl
      omega
    | cons b tl2 =>
      have hch := List.chain'_cons.mp h4
      refine ⟨b, (mem_neighbors g a b).mpr ⟨hch.1, h3 b ?_⟩,
        ⟨b :: tl2, ⟨rfl, ?_, ?_, hch.2⟩, ?_⟩⟩
      · exact List.mem_cons_of_mem a (List.mem_cons_self b tl2)
      · rw [← h2, List.getLast?_cons_cons]
      · intro q hq
        exact h3 q (List.mem_cons_of_mem a hq)
      · simp only [List.length_cons] at hl ⊢
        omega

theorem reach_trans (g : PathGrid) (z : Pos) :
    ∀ (m k : Nat) (s y : Pos), Reach g s y k → Reach g y z m →
      Reach g s z (k + m) := by
  intro m
  induction m with
  | zero =>
    intro k s y h1 h2
    obtain ⟨rfl, _⟩ := reach_zero g y z h2
    exact h1
  | succ m ih =>
    intro k s y h1 h2
    obtain ⟨y1, hy1, h2'⟩ := reach_head g y z m h2
    have h1' : Reach g s y1 (k + 1) := reach_snoc g s y y1 k h1 hy1
    have hr := ih (k + 1) s y1 h1' h2'
    have he : k + 1 + m = k + (m + 1) := by omega
    rwa [he] at hr

theorem heuristic_adj (a b q : Pos) (h : adjacent a b) :
    heuristic a q ≤ heuristic b q + 1 := by
  unfold heuristic
  rcases h with ⟨h1, h2⟩ | ⟨h1, h2⟩ | ⟨h1, h2⟩ | ⟨h1, h2⟩ <;>
    (split_ifs <;> omega)

theorem reach_heuristic (g : PathGrid) (q z : Pos) :
    ∀ (m : Nat) (y : Pos), Reach g y z m →
      heuristic y q ≤ m + heuristic z q := by
  intro m
  induction m with
  | zero =>
    intro y h
    obtain ⟨rfl, _⟩ := reach_zero g y z h
    simp
  | succ m ih =>
    intro y h
    obtain ⟨y1, hy1, h'⟩ := reach_head g y z m h
    have hadj := ((mem_neighbors g y y1).mp hy1).1
    have hs := heuristic_adj y y1 q hadj
    have hi := ih y1 h'
    omega

theorem heuristic_self (p : Pos) : heuristic p p = 0 := by
  unfold heuristic
  split_ifs <;> omega

theorem not_nodup_split {α : Type} :
    ∀ (l : List α), ¬ l.Nodup → ∃ l1 x l2 l3, l = l1 ++ x :: l2 ++ x :: l3
  | [], h => absurd List.nodup_nil h
  | a :: t, h => by
    by_cases ha : a ∈ t
    · obtain ⟨l2, l3, rfl⟩ := List.append_of_mem ha
      exact ⟨[], a, l2, l3, rfl⟩
    · have hnt : ¬ t.Nodup := fun hn => h (List.nodup_cons.mpr ⟨ha, hn⟩)
      obtain ⟨l1, x, l2, l3, hsp⟩ := not_nodup_split t hnt
      exact ⟨a :: l1, x, l2, l3, by rw [hsp]; rfl⟩

theorem getLast?_append_cons {α : Type} (l1 l2 : List α) (x : α) :
    (l1 ++ x :: l2).getLast? = (x :: l2).getLast? := by
  rw [List.getLast?_append]
  cases h : (x :: l2).getLast? with
  | none =>
    rw [List.getLast?_cons] at h
    exact Option.noConfusion h
  | some a => rfl

theorem head?_append_cons {α : Type} (l1 l2 : List α) (x : α) :
    (l1 ++ x :: l2).head? = some (l1.head?.getD x) := by
  cases l1 <;> rfl

theorem isPath_cut (g : PathGrid) (s t x : Pos) (l1 l2 l3 : List Pos)
    (h : IsPath g (l1 ++ x :: l2 ++ x :: l3) s t) :
    IsPath g (l1 ++ x :: l3) s t := by
  obtain ⟨h1, h2, h3, h4⟩ := h
  refine ⟨?_, ?_, ?_, ?_⟩
  · rw [head?_append_cons, head?_append_cons] at h1
    rw [head?_append_cons]
    exact h1
  · rw [getLast?_append_cons] at h2
    rw [getLast?_append_cons]
    exact h2
  · intro q hq
    apply h3
    simp only [List.mem_append, List.mem_cons] at hq ⊢
    tauto
  · rw [List.chain'_append] at h4 ⊢
    obtain ⟨c12, c2, c3⟩ := h4
    rw [List.chain'_append] at c12
    exact ⟨c12.1, c2, fun a ha b hb => c12.2.2 a ha b hb⟩

theorem isPath_nodup (g : PathGrid) (s t : Pos) :
    ∀ (n : Nat) (p : List Pos), p.length ≤ n → IsPath g p s t →
      ∃ p', IsPath g p' s t ∧ p'.length ≤ p.length ∧ p'.Nodup := by
  intro n
  induction n with
  | zero =>
    intro p hl hp
    have := isPath_ne_nil g p s t hp
    cases p with
    | nil => exact absurd rfl this
    | cons a tl => simp at hl
  | succ n ih =>
    intro p hl hp
    by_cases hnd : p.Nodup
    · exact ⟨p, hp, le_refl _, hnd⟩
    · obtain ⟨l1, x, l2, l3, rfl⟩ := not_nodup_split p hnd
      have hp' := isPath_cut g s t x l1 l2 l3 hp
      have hlen : (l1 ++ x :: l3).length < (l1 ++ x :: l2 ++ x :: l3).length := by
        simp only [List.length_append, List.length_cons]
        omega
      have hl' : (l1 ++ x :: l3).length ≤ n := by
        simp only [List.length_append, List.length_cons] at hl hlen ⊢
        omega
      obtain ⟨p', hp1, hp2, hp3⟩ := ih (l1 ++ x :: l3) hl' hp'
      exact ⟨p', hp1, by omega, hp3⟩

theorem length_allCells (w h : Nat) : (allCells w h).length = w * h := by
  unfold allCells
  rw [List.length_flatMap]
  have he : List.map (List.length ∘ fun x => (List.range h).map (fun y => Pos.new x y))
      (List.range w) = List.map (Function.const Nat h) (List.range w) := by
    apply List.map_congr_left
    intro a _
    simp [Function.comp, Function.const]
  rw [he, List.map_const, List.sum_replicate, List.length_range, smul_eq_mul]

theorem mem_allCells (w h : Nat) (p : Pos) :
    p ∈ allCells w h ↔ p.x < w ∧ p.y < h := by
  unfold allCells
  simp only [List.mem_flatMap, List.mem_map, List.mem_range]
  constructor
  · rintro ⟨x, hx, y, hy, rfl⟩
    exact ⟨hx, hy⟩
  · rintro ⟨hx, hy⟩
    exact ⟨p.x, hx, ⟨p.y, hy, rfl⟩⟩

theorem minReach_bound (g : PathGrid) (s t : Pos) (n : Nat)
    (h : MinReach g s t n) : n + 1 ≤ g.width * g.height := by
  obtain ⟨⟨p, hp, hl⟩, hmin⟩ := h
  obtain ⟨p', hp', hle, hnd⟩ := isPath_nodup g s t p.length p (le_refl _) hp
  have hne := isPath_ne_nil g p' s t hp'
  obtain ⟨m, hm⟩ : ∃ m, p'.length = m + 1 := by
    cases hq : p'.length with
    | zero => exact absurd (List.length_eq_zero.mp hq) hne
    | succ m => exact ⟨m, rfl⟩
  have h1 : n ≤ m := hmin m ⟨p', hp', hm⟩
  have h2 : p'.length ≤ (allCells g.width g.height).length := by
    refine nodup_subset_length p' (allCells g.width g.height) hnd ?_
    intro q hq
    have hv := hp'.2.2.1 q hq
    have hb := is_valid_bounds g q hv
    exact (mem_allCells g.width g.height q).mpr ⟨hb.1, hb.2.1⟩
  rw [length_allCells] at h2
  omega

/-! ## A* pathfinding: the priority queue -/

theorem popMin_eq_none (l : List AStarNode) : popMin l = none ↔ l = [] := by
  cases l with
  | nil => simp [popMin]
  | cons a t =>
    rw [popMin]
    cases h : popMin t with
    | none => simp
    | some p =>
      obtain ⟨m, rest⟩ := p
      by_cases hf : a.f_score ≤ m.f_score <;> simp [hf]

theorem popMin_spec :
    ∀ (l : List AStarNode) (a : AStarNode) (rest : List AStarNode),
      popMin l = some (a, rest) →
      l.Perm (a :: rest) ∧ ∀ b ∈ l, a.f_score ≤ b.f_score
  | [], a, rest, h => by rw [popMin] at h; exact Option.noConfusion h
  | x :: t, a, rest, h => by
    rw [popMin] at h
    cases hp : popMin t with
    | none =>
      rw [hp] at h
      dsimp only at h
      have ht : t = [] := (popMin_eq_none t).mp hp
      subst ht
      injection h with h'
      injection h' with e1 e2
      subst e1
      subst e2
      exact ⟨List.Perm.refl _, fun b hb => by
        rw [List.mem_singleton.mp hb]⟩
    | some p =>
      obtain ⟨m, r⟩ := p
      rw [hp] at h
      dsimp only at h
      have ih := popMin_spec t m r hp
      by_cases hf : x.f_score ≤ m.f_score
      · rw [if_pos hf] at h
        injection h with h'
        injection h' with e1 e2
        subst e1
        subst e2
        refine ⟨List.Perm.refl _, fun b hb => ?_⟩
        rcases List.mem_cons.mp hb with rfl | hb
        · exact le_refl _
        · exact le_trans hf (ih.2 b hb)
      · rw [if_neg hf] at h
        injection h with h'
        injection h' with e1 e2
        subst e1
        subst e2
        constructor
        · exact List.Perm.trans (List.Perm.cons x ih.1) (List.Perm.swap m x r)
        · intro b hb
          rcases List.mem_cons.mp hb with rfl | hb
          · omega
          · exact ih.2 b hb

theorem ainsert_sum {β : Type} [DecidableEq β] :
    ∀ (l : List (β × Nat)) (k : β) (v o : Nat), alookup l k = some o →
      ((ainsert l k v).map Prod.snd).sum + o = (l.map Prod.snd).sum + v
  | [], _, _, _, h => by rw [alookup] at h; exact Option.noConfusion h
  | (k', v') :: t, k, v, o, h => by
    rw [alookup] at h
    rw [ainsert]
    by_cases hk : k' = k
    · rw [if_pos hk] at h ⊢
      have : v' = o := Option.some.inj h
      subst this
      simp only [List.map_cons, List.sum_cons]
      omega
    · rw [if_neg hk] at h ⊢
      have ih := ainsert_sum t k v o h
      simp only [List.map_cons, List.sum_cons]
      omega

theorem ainsert_sum_new {β : Type} [DecidableEq β] :
    ∀ (l : List (β × Nat)) (k : β) (v : Nat), k ∉ akeys l →
      ((ainsert l k v).map Prod.snd).sum = (l.map Prod.snd).sum + v
  | [], _, _, _ => by simp [ainsert]
  | (k', v') :: t, k, v, h => by
    rw [akeys_cons] at h
    simp only [List.mem_cons] at h
    push_neg at h
    rw [ainsert, if_neg (fun hh => h.1 hh.symm)]
    simp only [List.map_cons, List.sum_cons]
    rw [ainsert_sum_new t k v h.2]
    omega

theorem ainsert_length_new {α β : Type} [DecidableEq α] (l : List (α × β))
    (k : α) (v : β) (h : k ∉ akeys l) : (ainsert l k v).length = l.length + 1 := by
  have h1 : (akeys (ainsert l k v)).length = (akeys l ++ [k]).length := by
    rw [akeys_ainsert_of_not_mem l k v h]
  unfold akeys at h1
  rw [List.length_map, List.length_append, List.length_map] at h1
  simpa using h1

/-- Every cell with a minimal reach value `n` is, in any invariant
state, either already settled at `n` in `g_score` or covered by an open
entry sitting (with correct `g_score` and fresh `f_score`) on a tight
path towards it. -/
theorem astar_covered (g : PathGrid) (start goal : Pos)
    (X : List AStarNode) (came : List (Pos × Pos)) (gs : List (Pos × Nat))
    (inv : AInv g start goal X came gs) :
    ∀ (m : Nat) (y z : Pos) (k n : Nat), alookup gs y = some k →
      MinReach g start y k → Reach g y z m → k + m = n →
      MinReach g start z n →
      alookup gs z = some n ∨
      ∃ fn ∈ X, ∃ k' m', alookup gs fn.pos = some k' ∧
        MinReach g start fn.pos k' ∧
        fn.f_score = k' + heuristic fn.pos goal ∧
        Reach g fn.pos z m' ∧ k' + m' = n := by
  intro m
  induction m with
  | zero =>
    intro y z k n hgs hmin hr he hminz
    obtain ⟨rfl, _⟩ := reach_zero g y z hr
    left
    have hk : k = n := by omega
    rw [← hk]
    exact hgs
  | succ m ih =>
    intro y z k n hgs hmin hr he hminz
    obtain ⟨y1, hy1, hr'⟩ := reach_head g y z m hr
    have hminy1 : MinReach g start y1 (k + 1) := by
      constructor
      · exact reach_snoc g start y y1 k hmin.1 hy1
      · intro j hj
        have hz : Reach g start z (j + m) := reach_trans g z m j start y1 hj hr'
        have := hminz.2 (j + m) hz
        omega
    rcases inv.settledSucc y k hgs hmin with ⟨fn, hfn, hpos, hf⟩ | hall
    · right
      refine ⟨fn, hfn, k, m + 1, ?_, ?_, ?_, ?_, he⟩
      · rw [hpos]
        exact hgs
      · rw [hpos]
        exact hmin
      · rw [hpos]
        exact hf
      · rw [hpos]
        exact hr
    · have hz1 : alookup gs y1 = some (k + 1) := hall y1 hy1 hminy1
      have he' : (k + 1) + m = n := by omega
      exact ih y1 z (k + 1) n hz1 hminy1 hr' he' hminz

/-- Every popped node carries, at pop time, a `g_score` equal to its
true shortest distance from `start` (the heart of A* correctness with
the consistent Manhattan heuristic). -/
theorem astar_pop_min (g : PathGrid) (start goal : Pos)
    (X : List AStarNode) (came : List (Pos × Pos)) (gs : List (Pos × Nat))
    (inv : AInv g start goal X came gs) (hs : g.is_valid start = true)
    (cur : AStarNode) (rest : List AStarNode)
    (hpop : popMin X = some (cur, rest)) :
    ∃ gc, alookup gs cur.pos = some gc ∧ MinReach g start cur.pos gc := by
  obtain ⟨hperm, hmin⟩ := popMin_spec X cur rest hpop
  have hcur : cur ∈ X := hperm.mem_iff.mpr (List.mem_cons_self cur rest)
  obtain ⟨gc, hgc, hfg⟩ := inv.openG cur hcur
  have hreach : Reach g start cur.pos gc := inv.gsSound cur.pos gc hgc
  have hex : ∃ j, Reach g start cur.pos j := ⟨gc, hreach⟩
  obtain ⟨n, hn, hnmin⟩ : ∃ n, Reach g start cur.pos n ∧
      ∀ j, Reach g start cur.pos j → n ≤ j := by
    classical
    exact ⟨Nat.find hex, Nat.find_spec hex, fun j hj => Nat.find_min' hex hj⟩
  refine ⟨gc, hgc, ?_⟩
  have hge : n ≤ gc := hnmin gc hreach
  by_cases heq : gc = n
  · subst heq
    exact ⟨hn, hnmin⟩
  · exfalso
    have hlt : n < gc := lt_of_le_of_ne hge (fun h => heq h.symm)
    have hminr : MinReach g start cur.pos n := ⟨hn, hnmin⟩
    have hstart0 : MinReach g start start 0 :=
      ⟨reach_refl g start hs, fun m _ => Nat.zero_le m⟩
    rcases astar_covered g start goal X came gs inv n start cur.pos 0 n
        inv.gsStart hstart0 hn (by omega) hminr with
      hset | ⟨fn, hfnX, k', m', hk', hmink', hfeq, hrm', hsum⟩
    · rw [hgc] at hset
      exact heq (Option.some.inj hset)
    · have hcons : heuristic fn.pos goal ≤ m' + heuristic cur.pos goal :=
        reach_heuristic g goal cur.pos m' fn.pos hrm'
      have hfnmin : cur.f_score ≤ fn.f_score := hmin fn hfnX
      omega

theorem astarRelax_eq_pos (goal c : Pos) (gc : Nat) (X : List AStarNode)
    (came : List (Pos × Pos)) (gs : List (Pos × Nat)) (v : Pos)
    (hv : gc + 1 < (alookup gs v).getD USIZE_MAX) :
    astarRelax goal c gc (X, came, gs) v =
      (X ++ [⟨v, (gc + 1) + heuristic v goal⟩], ainsert came v c,
        ainsert gs v (gc + 1)) := by
  unfold astarRelax
  dsimp only
  rw [if_pos hv]

theorem astarRelax_eq_neg (goal c : Pos) (gc : Nat) (X : List AStarNode)
    (came : List (Pos × Pos)) (gs : List (Pos × Nat)) (v : Pos)
    (hv : ¬ gc + 1 < (alookup gs v).getD USIZE_MAX) :
    astarRelax goal c gc (X, came, gs) v = (X, came, gs) := by
  unfold astarRelax
  dsimp only
  rw [if_neg hv]

/-- Pointwise characterisation of one relaxation pass over a neighbour
list: cells outside the list keep their `g_score` and `came_from`
entries; listed cells are rewritten to `g_score = gc + 1`,
`came_from = c` and get a fresh queue entry exactly when `gc + 1`
improves on their previous `g_score`; old queue entries survive and new
ones carry the fresh `f_score`. -/
theorem astarRelax_fold_spec (goal c : Pos) (gc : Nat) :
    ∀ (ns : List Pos) (X : List AStarNode) (came : List (Pos × Pos))
      (gs : List (Pos × Nat))
      (s' : List AStarNode × List (Pos × Pos) × List (Pos × Nat)),
      ns.foldl (astarRelax goal c gc) (X, came, gs) = s' →
      (∀ p, p ∉ ns → alookup s'.2.2 p = alookup gs p ∧
        alookup s'.2.1 p = alookup came p) ∧
      (∀ p ∈ ns, if gc + 1 < (alookup gs p).getD USIZE_MAX then
          alookup s'.2.2 p = some (gc + 1) ∧ alookup s'.2.1 p = some c ∧
          ∃ fn ∈ s'.1, fn.pos = p ∧
            fn.f_score = (gc + 1) + heuristic p goal
        else alookup s'.2.2 p = alookup gs p ∧
          alookup s'.2.1 p = alookup came p) ∧
      (∀ fn ∈ X, fn ∈ s'.1) ∧
      (∀ fn ∈ s'.1, fn ∈ X ∨ (fn.pos ∈ ns ∧
        fn.f_score = (gc + 1) + heuristic fn.pos goal ∧
        alookup s'.2.2 fn.pos = some (gc + 1)))
  | [], X, came, gs, s', heq => by
    rw [List.foldl_nil] at heq
    subst heq
    refine ⟨fun p _ => ⟨rfl, rfl⟩, fun p hp => absurd hp (List.not_mem_nil p),
      fun fn h => h, fun fn h => Or.inl h⟩
  | v :: t, X, came, gs, s', heq => by
    rw [List.foldl_cons] at heq
    by_cases hv : gc + 1 < (alookup gs v).getD USIZE_MAX
    · rw [astarRelax_eq_pos goal c gc X came gs v hv] at heq
      obtain ⟨ih1, ih2, ih3, ih4⟩ := astarRelax_fold_spec goal c gc t
        (X ++ [⟨v, (gc + 1) + heuristic v goal⟩]) (ainsert came v c)
        (ainsert gs v (gc + 1)) s' heq
      have hca : alookup (ainsert came v c) v = some c := by
        rw [alookup_ainsert, if_pos rfl]
      have hga : alookup (ainsert gs v (gc + 1)) v = some (gc + 1) := by
        rw [alookup_ainsert, if_pos rfl]
      have hvfin : alookup s'.2.2 v = some (gc + 1) ∧
          alookup s'.2.1 v = some c := by
        by_cases hvt : v ∈ t
        · have h2 := ih2 v hvt
          rw [hga, Option.getD_some, if_neg (lt_irrefl (gc + 1))] at h2
          exact ⟨h2.1, h2.2.trans hca⟩
        · have h1 := ih1 v hvt
          exact ⟨h1.1.trans hga, h1.2.trans hca⟩
      refine ⟨?_, ?_, ?_, ?_⟩
      · intro p hp
        have hpv : p ≠ v := fun h => hp (h ▸ List.mem_cons_self v t)
        have hpt : p ∉ t := fun h => hp (List.mem_cons_of_mem v h)
        have h1 := ih1 p hpt
        constructor
        · rw [h1.1, alookup_ainsert, if_neg (fun h => hpv h.symm)]
        · rw [h1.2, alookup_ainsert, if_neg (fun h => hpv h.symm)]
      · intro p hp
        by_cases hpv : p = v
        · subst hpv
          rw [if_pos hv]
          refine ⟨hvfin.1, hvfin.2, ?_⟩
          refine ⟨⟨p, (gc + 1) + heuristic p goal⟩, ih3 _ ?_, rfl, rfl⟩
          exact List.mem_append_right X (List.mem_singleton_self _)
        · have hpt : p ∈ t := (List.mem_cons.mp hp).resolve_left hpv
          have h2 := ih2 p hpt
          have hl : alookup (ainsert gs v (gc + 1)) p = alookup gs p := by
            rw [alookup_ainsert, if_neg (fun h => hpv h.symm)]
          have hlc : alookup (ainsert came v c) p = alookup came p := by
            rw [alookup_ainsert, if_neg (fun h => hpv h.symm)]
          rw [hl, hlc] at h2
          exact h2
      · intro fn hfn
        exact ih3 fn (List.mem_append_left _ hfn)
      · intro fn hfn
        rcases ih4 fn hfn with hX | ⟨hpos, hf, hval⟩
        · rcases List.mem_append.mp hX with h | h
          · exact Or.inl h
          · have he := List.mem_singleton.mp h
            subst he
            exact Or.inr ⟨List.mem_cons_self v t, rfl, hvfin.1⟩
        · exact Or.inr ⟨List.mem_cons_of_mem v hpos, hf, hval⟩
    · rw [astarRelax_eq_neg goal c gc X came gs v hv] at heq
      obtain ⟨ih1, ih2, ih3, ih4⟩ :=
        astarRelax_fold_spec goal c gc t X came gs s' heq
      refine ⟨?_, ?_, ih3, ?_⟩
      · intro p hp
        exact ih1 p (fun h => hp (List.mem_cons_of_mem v h))
      · intro p hp
        by_cases hpv : p = v
        · subst hpv
          rw [if_neg hv]
          by_cases hpt : p ∈ t
          · have h2 := ih2 p hpt
            rw [if_neg hv] at h2
            exact h2
          · exact ih1 p hpt
        · exact ih2 p ((List.mem_cons.mp hp).resolve_left hpv)
      · intro fn hfn
        rcases ih4 fn hfn with h | ⟨hpos, hf, hval⟩
        · exact Or.inl h
        · exact Or.inr ⟨List.mem_cons_of_mem v hpos, hf, hval⟩

/-- One relaxation pass keeps the `g_score` keys duplicate-free and
in-bounds and never increases the termination measure. -/
theorem astarRelax_fold_meta (g : PathGrid) (goal c : Pos) (gc : Nat)
    (hgc : gc + 1 ≤ g.width * g.height) :
    ∀ (ns : List Pos), (∀ p ∈ ns, g.is_valid p = true) →
      ∀ (X : List AStarNode) (came : List (Pos × Pos)) (gs : List (Pos × Nat)),
      (akeys gs).Nodup →
      (∀ q ∈ akeys gs, q.x < g.width ∧ q.y < g.height) →
      (akeys (ns.foldl (astarRelax goal c gc) (X, came, gs)).2.2).Nodup ∧
      (∀ q ∈ akeys (ns.foldl (astarRelax goal c gc) (X, came, gs)).2.2,
        q.x < g.width ∧ q.y < g.height) ∧
      astarMeasure g (ns.foldl (astarRelax goal c gc) (X, came, gs)).1
        (ns.foldl (astarRelax goal c gc) (X, came, gs)).2.2 ≤
        astarMeasure g X gs
  | [], _, X, came, gs, hnd, hbnd => by
    rw [List.foldl_nil]
    exact ⟨hnd, hbnd, le_refl _⟩
  | v :: t, hval, X, came, gs, hnd, hbnd => by
    rw [List.foldl_cons]
    have hvv : g.is_valid v = true := hval v (List.mem_cons_self v t)
    have hvt : ∀ p ∈ t, g.is_valid p = true :=
      fun p hp => hval p (List.mem_cons_of_mem v hp)
    by_cases hv : gc + 1 < (alookup gs v).getD USIZE_MAX
    · rw [astarRelax_eq_pos goal c gc X came gs v hv]
      have hnd' : (akeys (ainsert gs v (gc + 1))).Nodup :=
        akeys_ainsert_nodup gs v (gc + 1) hnd
      have hbnd' : ∀ q ∈ akeys (ainsert gs v (gc + 1)),
          q.x < g.width ∧ q.y < g.height := by
        intro q hq
        by_cases hm : v ∈ akeys gs
        · rw [akeys_ainsert_of_mem gs v (gc + 1) hm] at hq
          exact hbnd q hq
        · rw [akeys_ainsert_of_not_mem gs v (gc + 1) hm] at hq
          rcases List.mem_append.mp hq with h | h
          · exact hbnd q h
          · rw [List.mem_singleton.mp h]
            have hb := is_valid_bounds g v hvv
            exact ⟨hb.1, hb.2.1⟩
      have hmeas : astarMeasure g (X ++ [⟨v, (gc + 1) + heuristic v goal⟩])
          (ainsert gs v (gc + 1)) ≤ astarMeasure g X gs := by
        unfold astarMeasure
        rw [List.length_append]
        by_cases hm : v ∈ akeys gs
        · obtain ⟨o, ho⟩ := alookup_isSome_of_mem_akeys gs v hm
          have hlt : gc + 1 < o := by
            rw [ho, Option.getD_some] at hv
            exact hv
          have hsum := ainsert_sum gs v (gc + 1) o ho
          have hlen := ainsert_length_of_mem gs v (gc + 1) hm
          rw [hlen]
          simp only [List.length_singleton]
          omega
        · have hsum := ainsert_sum_new gs v (gc + 1) hm
          have hlen := ainsert_length_new gs v (gc + 1) hm
          have hcard : gs.length + 1 ≤ g.width * g.height := by
            have h1 : (akeys (ainsert gs v (gc + 1))).Nodup := hnd'
            have h2 : ∀ q ∈ akeys (ainsert gs v (gc + 1)),
                q ∈ allCells g.width g.height := by
              intro q hq
              have := hbnd' q hq
              exact (mem_allCells g.width g.height q).mpr this
            have h3 := nodup_subset_length _ _ h1 h2
            rw [length_allCells] at h3
            have h4 : (akeys (ainsert gs v (gc + 1))).length =
                (ainsert gs v (gc + 1)).length := List.length_map _ _
            rw [h4, hlen] at h3
            exact h3
          have hlt : gs.length < g.width * g.height := by omega
          have hmul : (g.width * g.height + 2) * (g.width * g.height - gs.length) =
              (g.width * g.height + 2) *
                (g.width * g.height - (gs.length + 1)) +
              (g.width * g.height + 2) := by
            have hsub : g.width * g.height - gs.length =
                (g.width * g.height - (gs.length + 1)) + 1 := by omega
            rw [hsub, Nat.mul_succ]
          rw [hlen, hsum, hmul]
          simp only [List.length_singleton]
          omega
      obtain ⟨a1, a2, a3⟩ := astarRelax_fold_meta g goal c gc hgc t hvt
        (X ++ [⟨v, (gc + 1) + heuristic v goal⟩]) (ainsert came v c)
        (ainsert gs v (gc + 1)) hnd' hbnd'
      exact ⟨a1, a2, le_trans a3 hmeas⟩
    · rw [astarRelax_eq_neg goal c gc X came gs v hv]
      exact astarRelax_fold_meta g goal c gc hgc t hvt X came gs hnd hbnd

/-- One full A* iteration (pop a non-goal node, relax its neighbours)
preserves the search invariant. -/
theorem astar_step_inv (g : PathGrid) (start goal : Pos)
    (hsz : g.width * g.height + 2 ≤ USIZE_MAX)
    (X : List AStarNode) (came : List (Pos × Pos)) (gs : List (Pos × Nat))
    (inv : AInv g start goal X came gs)
    (cur : AStarNode) (rest : List AStarNode)
    (hpop : popMin X = some (cur, rest)) (hng : cur.pos ≠ goal)
    (gc : Nat) (hgc : alookup gs cur.pos = some gc)
    (hmingc : MinReach g start cur.pos gc)
    (s' : List AStarNode × List (Pos × Pos) × List (Pos × Nat))
    (heq : (g.neighbors cur.pos).foldl (astarRelax goal cur.pos gc)
      (rest, came, gs) = s') :
    AInv g start goal s'.1 s'.2.1 s'.2.2 := by
  obtain ⟨hperm, hminf⟩ := popMin_spec X cur rest hpop
  obtain ⟨sp1, sp2, sp3, sp4⟩ := astarRelax_fold_spec goal cur.pos gc
    (g.neighbors cur.pos) rest came gs s' heq
  have hgb : gc + 1 ≤ g.width * g.height := minReach_bound g start cur.pos gc hmingc
  have hmem : ∀ fn ∈ X, fn = cur ∨ fn ∈ rest :=
    fun fn h => List.mem_cons.mp (hperm.mem_iff.mp h)
  have hcnotns : cur.pos ∉ g.neighbors cur.pos := not_mem_neighbors_self g cur.pos
  have hbnd : ∀ q ∈ akeys gs, q.x < g.width ∧ q.y < g.height := by
    intro q hq
    obtain ⟨n, hn⟩ := alookup_isSome_of_mem_akeys gs q hq
    have hr := inv.gsSound q n hn
    have hb := is_valid_bounds g q (reach_valid g start q n hr).2
    exact ⟨hb.1, hb.2.1⟩
  have hmeta := astarRelax_fold_meta g goal cur.pos gc hgb (g.neighbors cur.pos)
    (fun p hp => neighbors_valid g cur.pos p hp) rest came gs inv.gsNodup hbnd
  rw [heq] at hmeta
  have hpt : ∀ p,
      (alookup s'.2.2 p = alookup gs p ∧ alookup s'.2.1 p = alookup came p) ∨
      (p ∈ g.neighbors cur.pos ∧ alookup s'.2.2 p = some (gc + 1) ∧
        alookup s'.2.1 p = some cur.pos ∧
        (∀ o, alookup gs p = some o → gc + 1 < o) ∧
        ∃ fn ∈ s'.1, fn.pos = p ∧
          fn.f_score = (gc + 1) + heuristic p goal) := by
    intro p
    by_cases hp : p ∈ g.neighbors cur.pos
    · have h2 := sp2 p hp
      by_cases hcond : gc + 1 < (alookup gs p).getD USIZE_MAX
      · rw [if_pos hcond] at h2
        refine Or.inr ⟨hp, h2.1, h2.2.1, ?_, h2.2.2⟩
        intro o ho
        rw [ho, Option.getD_some] at hcond
        exact hcond
      · rw [if_neg hcond] at h2
        exact Or.inl h2
    · exact Or.inl (sp1 p hp)
  have husz : gc + 1 < USIZE_MAX := by omega
  refine ⟨hmeta.1, ?_, ?_, ?_, ?_, ?_, ?_, ?_, ?_, ?_⟩
  · -- gsSound
    intro p n hlook
    rcases hpt p with ⟨e1, _⟩ | ⟨hp, e1, _, _, _⟩
    · rw [e1] at hlook
      exact inv.gsSound p n hlook
    · rw [e1] at hlook
      have hn : gc + 1 = n := Option.some.inj hlook
      rw [← hn]
      exact reach_snoc g start cur.pos p gc (inv.gsSound cur.pos gc hgc) hp
  · -- gsBound
    intro p n hlook
    rcases hpt p with ⟨e1, _⟩ | ⟨_, e1, _, _, _⟩
    · rw [e1] at hlook
      exact inv.gsBound p n hlook
    · rw [e1] at hlook
      have hn : gc + 1 = n := Option.some.inj hlook
      omega
  · -- gsStart
    rcases hpt start with ⟨e1, _⟩ | ⟨_, _, _, himp, _⟩
    · rw [e1]
      exact inv.gsStart
    · have := himp 0 inv.gsStart
      omega
  · -- cameStart
    rcases hpt start with ⟨_, e2⟩ | ⟨_, _, _, himp, _⟩
    · rw [e2]
      exact inv.cameStart
    · have := himp 0 inv.gsStart
      omega
  · -- cameChain
    intro p prev hcp
    rcases hpt p with ⟨e1, e2⟩ | ⟨hp, e1, e2, _, _⟩
    · rw [e2] at hcp
      obtain ⟨hmem2, gp, gprev, hgp, hgprev, hlt⟩ := inv.cameChain p prev hcp
      refine ⟨hmem2, gp, ?_⟩
      rcases hpt prev with ⟨e1', _⟩ | ⟨_, e1', _, himp', _⟩
      · exact ⟨gprev, e1.trans hgp, e1'.trans hgprev, hlt⟩
      · have := himp' gprev hgprev
        exact ⟨gc + 1, e1.trans hgp, e1', by omega⟩
    · rw [e2] at hcp
      have hprev : cur.pos = prev := Option.some.inj hcp
      subst hprev
      refine ⟨hp, gc + 1, gc, e1, ?_, by omega⟩
      have := sp1 cur.pos hcnotns
      exact this.1.trans hgc
  · -- cameTotal
    intro p n hlook hne
    rcases hpt p with ⟨e1, e2⟩ | ⟨_, _, e2, _, _⟩
    · rw [e1] at hlook
      obtain ⟨prev, hprev⟩ := inv.cameTotal p n hlook hne
      exact ⟨prev, e2.trans hprev⟩
    · exact ⟨cur.pos, e2⟩
  · -- openG
    intro fn hfn
    rcases sp4 fn hfn with hrest | ⟨_, hf, hval⟩
    · have hX : fn ∈ X := hperm.mem_iff.mpr (List.mem_cons_of_mem cur hrest)
      obtain ⟨k, hk, hfk⟩ := inv.openG fn hX
      rcases hpt fn.pos with ⟨e1, _⟩ | ⟨_, e1, _, himp, _⟩
      · exact ⟨k, e1.trans hk, hfk⟩
      · have := himp k hk
        exact ⟨gc + 1, e1, by omega⟩
    · exact ⟨gc + 1, hval, hf ▸ le_refl _⟩
  · -- settledSucc
    intro y k hy hmk
    rcases hpt y with ⟨e1, _⟩ | ⟨hyns, e1, _, _, hfn⟩
    · have hyold : alookup gs y = some k := by
        rw [e1] at hy
        exact hy
      rcases inv.settledSucc y k hyold hmk with ⟨fn, hfnX, hpos, hf⟩ | hall
      · rcases hmem fn hfnX with rfl | hrest
        · -- the popped entry was the settled witness: cur.pos = y
          have hyc : fn.pos = y := hpos
          rw [hyc] at hgc
          have hk : gc = k := Option.some.inj (hgc.symm.trans hyold)
          right
          intro z hz hmz
          rw [← hyc] at hz
          have h2 := sp2 z hz
          by_cases hcond : gc + 1 < (alookup gs z).getD USIZE_MAX
          · rw [if_pos hcond] at h2
            rw [h2.1, hk]
          · rw [if_neg hcond] at h2
            cases hgz : alookup gs z with
            | none =>
              rw [hgz] at hcond
              exact absurd husz hcond
            | some o =>
              rw [hgz, Option.getD_some] at hcond
              have ho : k + 1 ≤ o := hmz.2 o (inv.gsSound z o hgz)
              have : o = k + 1 := by omega
              rw [h2.1, hgz, this]
        · exact Or.inl ⟨fn, sp3 fn hrest, hpos, hf⟩
      · right
        intro z hz hmz
        have hallz := hall z hz hmz
        rcases hpt z with ⟨e1', _⟩ | ⟨hzns, e1', _, himp', _⟩
        · exact e1'.trans hallz
        · have h1 := himp' (k + 1) hallz
          have h2 : Reach g start z (gc + 1) :=
            reach_snoc g start cur.pos z gc (inv.gsSound cur.pos gc hgc) hzns
          have := hmz.2 (gc + 1) h2
          omega
    · have hk : gc + 1 = k := by
        rw [e1] at hy
        exact Option.some.inj hy
      obtain ⟨fn, hfnm, hpos, hf⟩ := hfn
      exact Or.inl ⟨fn, hfnm, hpos, by rw [hf, hk]⟩
  · -- goalOpen
    intro n hlook
    rcases hpt goal with ⟨e1, _⟩ | ⟨_, _, _, _, hfn⟩
    · rw [e1] at hlook
      obtain ⟨fn, hfnX, hpos⟩ := inv.goalOpen n hlook
      rcases hmem fn hfnX with rfl | hrest
      · exact absurd hpos hng
      · exact ⟨fn, sp3 fn hrest, hpos⟩
    · obtain ⟨fn, hfnm, hpos, _⟩ := hfn
      exact ⟨fn, hfnm, hpos⟩

/-- The `came_from` reconstruction walk yields the reversed tail of a
valid path from `start` whose step count is bounded by the queried
cell's `g_score`; the fuel `came.length + 1` always suffices because
the walk visits pairwise distinct keys of `came_from`. -/
theorem chainFrom_path (g : PathGrid) (start : Pos)
    (came : List (Pos × Pos)) (gs : List (Pos × Nat))
    (hs : g.is_valid start = true)
    (hchain : ∀ p prev, alookup came p = some prev → p ∈ g.neighbors prev ∧
      ∃ gp gprev, alookup gs p = some gp ∧ alookup gs prev = some gprev ∧
        gprev < gp)
    (htotal : ∀ p n, alookup gs p = some n → p ≠ start →
      ∃ prev, alookup came p = some prev) :
    ∀ (gc : Nat) (fuel : Nat) (c : Pos) (seen : List Pos),
      alookup gs c = some gc → seen.Nodup →
      (∀ q ∈ seen, q ∈ akeys came) →
      (∀ q ∈ seen, ∀ vq, alookup gs q = some vq → gc < vq) →
      came.length + 1 ≤ fuel + seen.length →
      IsPath g ((c :: chainFrom came fuel c).reverse) start c ∧
        (chainFrom came fuel c).length ≤ gc := by
  intro gc
  induction gc using Nat.strong_induction_on with
  | _ gc ih =>
    intro fuel c seen hc hnd hkeys hless hfuel
    cases fuel with
    | zero =>
      exfalso
      have h1 := nodup_subset_length seen (akeys came) hnd hkeys
      have h2 : (akeys came).length = came.length := List.length_map _ _
      omega
    | succ f =>
      rw [chainFrom]
      cases hcc : alookup came c with
      | none =>
        dsimp only
        have hcs : c = start := by
          by_cases h : c = start
          · exact h
          · obtain ⟨prev, hprev⟩ := htotal c gc hc h
            rw [hcc] at hprev
            exact Option.noConfusion hprev
        subst hcs
        exact ⟨isPath_singleton g c hs, Nat.zero_le gc⟩
      | some prev =>
        dsimp only
        obtain ⟨hmem, gp, gprev, hgp, hgprev, hlt⟩ := hchain c prev hcc
        have hgpc : gp = gc := by
          rw [hc] at hgp
          exact (Option.some.inj hgp).symm
        rw [hgpc] at hlt
        have hcseen : c ∉ seen := by
          intro hcse
          have := hless c hcse gc hc
          omega
        obtain ⟨hpath, hlen⟩ := ih gprev hlt f prev (c :: seen) hgprev
          (List.nodup_cons.mpr ⟨hcseen, hnd⟩)
          (fun q hq => by
            rcases List.mem_cons.mp hq with rfl | hq
            · exact alookup_mem_akeys came q prev hcc
            · exact hkeys q hq)
          (fun q hq vq hvq => by
            rcases List.mem_cons.mp hq with rfl | hq
            · rw [hc] at hvq
              have := Option.some.inj hvq
              omega
            · have := hless q hq vq hvq
              omega)
          (by
            simp only [List.length_cons]
            omega)
        constructor
        · rw [List.reverse_cons]
          exact isPath_snoc g _ start prev c hpath
            ((mem_neighbors g prev c).mp hmem).1
            ((mem_neighbors g prev c).mp hmem).2
        · simp only [List.length_cons]
          omega

/-- The initial A* state (`start` scored 0, one queue entry) satisfies
the search invariant. -/
theorem astar_init_inv (g : PathGrid) (start goal : Pos)
    (hs : g.is_valid start = true) :
    AInv g start goal [⟨start, heuristic start goal⟩] [] [(start, 0)] := by
  have hlook : ∀ p n, alookup [(start, 0)] p = some n → p = start ∧ n = 0 := by
    intro p n h
    rw [alookup] at h
    by_cases hp : start = p
    · rw [if_pos hp] at h
      exact ⟨hp.symm, (Option.some.inj h).symm⟩
    · rw [if_neg hp, alookup] at h
      exact Option.noConfusion h
  refine ⟨?_, ?_, ?_, ?_, rfl, ?_, ?_, ?_, ?_, ?_⟩
  · exact List.nodup_singleton start
  · intro p n h
    obtain ⟨rfl, rfl⟩ := hlook p n h
    exact reach_refl g p hs
  · intro p n h
    obtain ⟨rfl, rfl⟩ := hlook p n h
    exact Nat.zero_le _
  · rw [alookup, if_pos rfl]
  · intro p prev h
    exact Option.noConfusion h
  · intro p n h hne
    obtain ⟨rfl, _⟩ := hlook p n h
    exact absurd rfl hne
  · intro fn hfn
    have he := List.mem_singleton.mp hfn
    subst he
    refine ⟨0, by rw [alookup, if_pos rfl], ?_⟩
    rw [Nat.zero_add]
  · intro y k hy hmk
    left
    obtain ⟨rfl, rfl⟩ := hlook y k hy
    refine ⟨⟨y, heuristic y goal⟩, List.mem_singleton_self _, rfl, ?_⟩
    rw [Nat.zero_add]
  · intro n h
    obtain ⟨he, _⟩ := hlook goal n h
    exact ⟨⟨start, heuristic start goal⟩, List.mem_singleton_self _, he.symm⟩

/-- The fuelled A* main loop, started in any invariant state with fuel
above the termination measure, returns a definite answer: a returned
path is a valid path from `start` to `goal` of minimal step count, and
`none` is only returned when `goal` is unreachable. -/
theorem astarLoop_spec (g : PathGrid) (start goal : Pos)
    (hs : g.is_valid start = true)
    (hsz : g.width * g.height + 2 ≤ USIZE_MAX) :
    ∀ (fuel : Nat) (X : List AStarNode) (came : List (Pos × Pos))
      (gs : List (Pos × Nat)),
      AInv g start goal X came gs → astarMeasure g X gs < fuel →
      ∃ r, astarLoop g goal fuel X came gs = some r ∧
        (∀ p, r = some p → IsPath g p start goal ∧
          ∀ n, MinReach g start goal n → p.length = n + 1) ∧
        (r = none → ∀ n, ¬ Reach g start goal n) := by
  intro fuel
  induction fuel with
  | zero =>
    intro X came gs _ hm
    omega
  | succ f ihf =>
    intro X came gs inv hm
    rw [astarLoop]
    cases hpop : popMin X with
    | none =>
      have hX : X = [] := (popMin_eq_none X).mp hpop
      subst hX
      refine ⟨none, rfl, ?_, ?_⟩
      · intro p hp
        exact Option.noConfusion hp
      · intro _ n hr
        have hex : ∃ j, Reach g start goal j := ⟨n, hr⟩
        obtain ⟨n0, hn0, hmin0⟩ : ∃ n0, Reach g start goal n0 ∧
            ∀ j, Reach g start goal j → n0 ≤ j := by
          classical
          exact ⟨Nat.find hex, Nat.find_spec hex, fun j hj => Nat.find_min' hex hj⟩
        have hminr : MinReach g start goal n0 := ⟨hn0, hmin0⟩
        have hstart0 : MinReach g start start 0 :=
          ⟨reach_refl g start hs, fun m _ => Nat.zero_le m⟩
        rcases astar_covered g start goal [] came gs inv n0 start goal 0 n0
            inv.gsStart hstart0 hn0 (by omega) hminr with
          hset | ⟨fn, hfnX, _⟩
        · obtain ⟨fn, hfnX, _⟩ := inv.goalOpen n0 hset
          exact absurd hfnX (List.not_mem_nil fn)
        · exact absurd hfnX (List.not_mem_nil fn)
    | some pr =>
      obtain ⟨cur, rest⟩ := pr
      dsimp only
      obtain ⟨gc, hgc, hmingc⟩ :=
        astar_pop_min g start goal X came gs inv hs cur rest hpop
      by_cases hcg : cur.pos = goal
      · rw [if_pos hcg]
        refine ⟨some ((cur.pos :: chainFrom came (came.length + 1) cur.pos).reverse),
          rfl, ?_, ?_⟩
        · intro p hp
          have hpe : (cur.pos :: chainFrom came (came.length + 1) cur.pos).reverse
              = p := Option.some.inj hp
          rw [← hpe]
          obtain ⟨hpath, hlen⟩ := chainFrom_path g start came gs hs
            (fun a b h => inv.cameChain a b h)
            (fun a b h hne => inv.cameTotal a b h hne)
            gc (came.length + 1) cur.pos [] hgc List.nodup_nil
            (fun q hq => absurd hq (List.not_mem_nil q))
            (fun q hq => absurd hq (List.not_mem_nil q))
            (by simp)
          rw [hcg] at hpath hlen hmingc ⊢
          refine ⟨hpath, ?_⟩
          intro n hminr
          have hLlen : ((goal :: chainFrom came (came.length + 1) goal).reverse).length
              = (chainFrom came (came.length + 1) goal).length + 1 := by
            rw [List.length_reverse, List.length_cons]
          have hreach : Reach g start goal
              (chainFrom came (came.length + 1) goal).length := ⟨_, hpath, hLlen⟩
          have h1 : n ≤ (chainFrom came (came.length + 1) goal).length :=
            hminr.2 _ hreach
          have h2 : gc ≤ n := hmingc.2 n hminr.1
          rw [hLlen]
          omega
        · intro habs
          exact Option.noConfusion habs
      · rw [if_neg hcg]
        have hperm := (popMin_spec X cur rest hpop).1
        have hstep := astar_step_inv g start goal hsz X came gs inv cur rest
          hpop hcg gc hgc hmingc _ rfl
        have hgb : gc + 1 ≤ g.width * g.height :=
          minReach_bound g start cur.pos gc hmingc
        have hbnd : ∀ q ∈ akeys gs, q.x < g.width ∧ q.y < g.height := by
          intro q hq
          obtain ⟨n, hn⟩ := alookup_isSome_of_mem_akeys gs q hq
          have hb := is_valid_bounds g q
            (reach_valid g start q n (inv.gsSound q n hn)).2
          exact ⟨hb.1, hb.2.1⟩
        have hmeta := astarRelax_fold_meta g goal cur.pos gc hgb
          (g.neighbors cur.pos) (fun p hp => neighbors_valid g cur.pos p hp)
          rest came gs inv.gsNodup hbnd
        have hXlen : X.length = rest.length + 1 := by
          have := hperm.length_eq
          simpa using this
        have hm2 : astarMeasure g rest gs + 1 = astarMeasure g X gs := by
          unfold astarMeasure
          omega
        have hmlt : astarMeasure g
            ((g.neighbors cur.pos).foldl (astarRelax goal cur.pos gc)
              (rest, came, gs)).1
            ((g.neighbors cur.pos).foldl (astarRelax goal cur.pos gc)
              (rest, came, gs)).2.2 < f := by
          have h3 := hmeta.2.2
          omega
        have hcg2 : (alookup gs cur.pos).getD USIZE_MAX = gc := by
          rw [hgc]
          rfl
        rw [hcg2]
        exact ihf _ _ _ hstep hmlt

/-- C6: `PathGrid::find_path` is a correct A* shortest-path search.
For every grid whose cell count fits `usize` (`width·height + 2 ≤
usize::MAX`, the modelling boundary below which the Rust `usize`
arithmetic in the search cannot overflow) and every `start`/`goal`
pair: a returned path is a 4-directionally connected sequence of
in-bounds unblocked cells from `start` to `goal` of minimal length
among all such paths, a path is returned whenever one exists, and
`None` is returned exactly when no valid path exists (in particular
when either endpoint is blocked or out of bounds). -/
theorem c6_astar_path (g : PathGrid) (start goal : Pos)
    (hsz : g.width * g.height + 2 ≤ USIZE_MAX) :
    (∀ p, g.find_path start goal = some p →
      IsPath g p start goal ∧
      ∀ q, IsPath g q start goal → p.length ≤ q.length) ∧
    ((∃ q, IsPath g q start goal) → ∃ p, g.find_path start goal = some p) ∧
    (g.find_path start goal = none ↔ ∀ q, ¬ IsPath g q start goal) := by
  have hlen1 : ∀ q, IsPath g q start goal → ∃ k, q.length = k + 1 := by
    intro q hq
    cases hql : q.length with
    | zero =>
      exact absurd (List.length_eq_zero.mp hql) (isPath_ne_nil g q start goal hq)
    | succ k => exact ⟨k, rfl⟩
  unfold PathGrid.find_path PathGrid.find_path_fuel
  by_cases hv : g.is_valid start = true ∧ g.is_valid goal = true
  · rw [if_pos hv]
    have hinv := astar_init_inv g start goal hv.1
    have hm0 : astarMeasure g [⟨start, heuristic start goal⟩] [(start, 0)]
        < astarFuelFor g := by
      unfold astarMeasure astarFuelFor
      simp only [List.length_cons, List.length_nil, List.map_cons, List.map_nil,
        List.sum_cons, List.sum_nil, Nat.zero_add]
      have h1 : (g.width * g.height + 2) * (g.width * g.height - 1) ≤
          (g.width * g.height + 2) * (g.width * g.height + 1) :=
        Nat.mul_le_mul_left _ (by omega)
      have h2 : (g.width * g.height + 2) * (g.width * g.height + 1) +
          (g.width * g.height + 2) =
          (g.width * g.height + 2) * (g.width * g.height + 2) := by ring
      omega
    obtain ⟨r, hr, hsome, hnone⟩ := astarLoop_spec g start goal hv.1 hsz
      (astarFuelFor g) _ _ _ hinv hm0
    rw [hr]
    cases r with
    | none =>
      refine ⟨?_, ?_, ?_⟩
      · intro p hp
        exact Option.noConfusion hp
      · rintro ⟨q, hq⟩
        exfalso
        obtain ⟨k, hk⟩ := hlen1 q hq
        exact hnone rfl k ⟨q, hq, hk⟩
      · refine ⟨fun _ q hq => ?_, fun _ => rfl⟩
        obtain ⟨k, hk⟩ := hlen1 q hq
        exact hnone rfl k ⟨q, hq, hk⟩
    | some p =>
      obtain ⟨hpath, hminlen⟩ := hsome p rfl
      refine ⟨?_, ?_, ?_⟩
      · intro p' hp'
        have hpp : p = p' := Option.some.inj hp'
        subst hpp
        refine ⟨hpath, ?_⟩
        intro q hq
        obtain ⟨k, hk⟩ := hlen1 q hq
        have hexr : ∃ j, Reach g start goal j := ⟨k, q, hq, hk⟩
        obtain ⟨n0, hn0, hmin0⟩ : ∃ n0, Reach g start goal n0 ∧
            ∀ j, Reach g start goal j → n0 ≤ j := by
          classical
          exact ⟨Nat.find hexr, Nat.find_spec hexr,
            fun j hj => Nat.find_min' hexr hj⟩
        have hplen := hminlen n0 ⟨hn0, hmin0⟩
        have hle : n0 ≤ k := hmin0 k ⟨q, hq, hk⟩
        omega
      · intro _
        exact ⟨p, rfl⟩
      · constructor
        · intro habs
          exact Option.noConfusion habs
        · intro hall
          exact absurd hpath (hall p)
  · rw [if_neg hv]
    refine ⟨?_, ?_, ?_⟩
    · intro p hp
      exact Option.noConfusion hp
    · rintro ⟨q, hq⟩
      exfalso
      have h1 := hq.2.2.1 start (List.mem_of_mem_head? hq.1)
      have h2 := hq.2.2.1 goal (List.mem_of_mem_getLast? hq.2.1)
      exact hv ⟨h1, h2⟩
    · refine ⟨fun _ q hq => ?_, fun _ => rfl⟩
      have h1 := hq.2.2.1 start (List.mem_of_mem_head? hq.1)
      have h2 := hq.2.2.1 goal (List.mem_of_mem_getLast? hq.2.1)
      exact hv ⟨h1, h2⟩

/-- Witness for the A* theorem on the walled 10×10 grid of the claim:
a path from `(3,5)` to `(7,5)` is returned, and every returned path
crosses the wall column `x = 5` only at cells with `y ≥ 8`. -/
theorem c6_astar_path_witness :
    exWallGrid.width * exWallGrid.height + 2 ≤ USIZE_MAX ∧
    (∃ p, exWallGrid.find_path (Pos.new 3 5) (Pos.new 7 5) = some p) ∧
    (∀ p, exWallGrid.find_path (Pos.new 3 5) (Pos.new 7 5) = some p →
      ∀ q ∈ p, q.x = 5 → 8 ≤ q.y) := by
  have hsz : exWallGrid.width * exWallGrid.height + 2 ≤ USIZE_MAX := by decide
  have hmain := c6_astar_path exWallGrid (Pos.new 3 5) (Pos.new 7 5) hsz
  refine ⟨hsz, ?_, ?_⟩
  · exact hmain.2.1 ⟨[Pos.new 3 5, Pos.new 3 6, Pos.new 3 7, Pos.new 3 8,
      Pos.new 4 8, Pos.new 5 8, Pos.new 6 8, Pos.new 7 8, Pos.new 7 7,
      Pos.new 7 6, Pos.new 7 5], by decide⟩
  · intro p hp q hq hqx
    obtain ⟨qx, qy⟩ := q
    simp only at hqx
    subst hqx
    have hvq := (hmain.1 p hp).1.2.2.1 _ hq
    have hb := is_valid_bounds exWallGrid _ hvq
    by_contra hlt
    push_neg at hlt
    apply hb.2.2
    have hall : ∀ y, y < 8 → Pos.new 5 y ∈ exWallGrid.blocked := by decide
    exact hall qy hlt

end GraphsTui

